import Mathlib

/-!
# Retail data generator (`generate.go`): model and verified properties

A shallow embedding of `generate.go`.

* Go strings are modelled by their character sequences (`Str`).
* Go `int` values that are table indices, lengths, ids, sale counts or date fields are
  natural numbers. Prices are Go `int`s of 64 bits: integers in `[-2^63, 2^63)`; the sum
  `price + adjustment` and the product `count * currentPrice`, the two operations on prices
  that can leave that range, wrap around (`wrapInt64`).
* The generator `*rand.Rand` is a stream of draws. Every call that asks the generator for a
  value consumes the head of the stream and maps it into the range of the call.
* A Go runtime panic is an `Except.error`.
-/

namespace Retail

/-! ## Strings and the seed loader -/

/-- A Go string, as the sequence of its characters. -/
abbrev Str := List Char

/-- White space in the sense of Go's `unicode.IsSpace`. -/
def isSpace (c : Char) : Bool :=
  let n := c.toNat
  n == 0x09 || n == 0x0A || n == 0x0B || n == 0x0C || n == 0x0D || n == 0x20 ||
  n == 0x85 || n == 0xA0 || n == 0x1680 || (0x2000 ≤ n && n ≤ 0x200A) ||
  n == 0x2028 || n == 0x2029 || n == 0x202F || n == 0x205F || n == 0x3000

/-- Go's `strings.TrimSpace`: leading and trailing white space removed. -/
def TrimSpace (s : Str) : Str :=
  ((s.dropWhile isSpace).reverse.dropWhile isSpace).reverse

/-- The helper `dropCR` of `bufio`: one trailing carriage return is dropped. -/
def dropCR (data : Str) : Str :=
  if data.getLast? = some (Char.ofNat 13) then data.dropLast else data

/-- The constant `MaxScanTokenSize` of `bufio` (`64 * 1024`): the size the buffer of a
scanner grows to at most. -/
def MaxScanTokenSize : Nat := 65536

/-- The number of bytes of a string (in UTF-8). -/
def byteLen : Str → Nat
  | [] => 0
  | c :: cs => c.utf8Size + byteLen cs

/-- The tokens of a `bufio.Scanner` with the default split function `ScanLines`, in order.
`cur` holds the characters of the line being read. A line ends at a newline; the last line
is returned without one when it is not empty. When the line being read reaches
`MaxScanTokenSize` bytes without a newline the buffer is full: `Scan` fails with
`ErrTooLong` and returns false, so there are no more tokens (`parseBuffer` does not look
at `scanner.Err()`: its loop just ends and the rest of the text is not read). -/
def scanLinesFrom : Str → Str → List Str
  | [], cur => if cur = [] then [] else [dropCR cur]
  | c :: cs, cur =>
    if c = Char.ofNat 10 then dropCR cur :: scanLinesFrom cs []
    else if MaxScanTokenSize ≤ byteLen (cur ++ [c]) then []
    else scanLinesFrom cs (cur ++ [c])

/-- All the lines `scanner.Scan()` / `scanner.Text()` yield for a buffer. -/
def scanLines (buffer : Str) : List Str := scanLinesFrom buffer []

/-- The Go struct `CoreData`. -/
structure CoreData where
  Category : Str
  Items : List Str
deriving DecidableEq, Repr

/-- The local variables `result` and `currentCategory` of `parseBuffer`. -/
structure ParseState where
  result : List CoreData
  currentCategory : CoreData
deriving DecidableEq, Repr

/-- One iteration of the scanning loop of `parseBuffer`, on the scanned text `text`. -/
def parseLine (st : ParseState) (text : Str) : ParseState :=
  let line := TrimSpace text
  if line = [] then
    if st.currentCategory.Category ≠ [] then
      { result := st.result ++ [st.currentCategory], currentCategory := ⟨[], []⟩ }
    else st
  else if st.currentCategory.Category = [] then
    { st with currentCategory := { st.currentCategory with Category := line } }
  else
    { st with currentCategory :=
        { st.currentCategory with Items := st.currentCategory.Items ++ [line] } }

/-- The function `parseBuffer`. -/
def parseBuffer (buffer : Str) : List CoreData :=
  let st := (scanLines buffer).foldl parseLine ⟨[], ⟨[], []⟩⟩
  if st.currentCategory.Category ≠ [] then st.result ++ [st.currentCategory] else st.result

/-- The files the program can read: a name is mapped to the file's content, or to `none`
when `os.ReadFile` fails. -/
abbrev FileSystem := String → Option Str

/-- The function `ReadCoreData`: the error of `os.ReadFile` is discarded and the content is
then the nil slice. -/
def ReadCoreData (fs : FileSystem) (filename : String) : List CoreData :=
  parseBuffer ((fs filename).getD [])

/-! ## The random generator -/

/-- A Go runtime panic. -/
inductive Panic where
  | indexOutOfRange
  | invalidArgument
  /-- Not a Go panic: a loop of the model used up its fuel. -/
  | outOfFuel
deriving DecidableEq, Repr

deriving instance DecidableEq for Except

/-- The state of a `*rand.Rand`: the stream of draws still to come. -/
abbrev Rand := Nat → Nat

/-- The stream after one draw has been consumed. -/
def Rand.tail (r : Rand) : Rand := fun i => r (i + 1)

/-- The stream after `n` draws have been consumed. -/
def Rand.drop (r : Rand) (n : Nat) : Rand := fun i => r (i + n)

/-- The internal `uint64n` of `math/rand/v2`: one draw mapped into `[0, n)`. -/
def Rand.uint64n (r : Rand) (n : Nat) : Nat × Rand := (r 0 % n, r.tail)

/-- The method `IntN`: panics when `n ≤ 0`, otherwise one draw in `[0, n)`. -/
def Rand.IntN (r : Rand) (n : Int) : Except Panic (Int × Rand) :=
  if n ≤ 0 then .error .invalidArgument
  else .ok (((r.uint64n n.toNat).1 : Int), (r.uint64n n.toNat).2)

/-- The method `Float64`: one draw `k` in `[0, 2^53)`, standing for the float `k / 2^53`. -/
def Rand.Float64 (r : Rand) : Nat × Rand := (r 0 % 2 ^ 53, r.tail)

/-- A positive binary64 constant `m * 2^(-e)`. -/
structure F64Const where
  m : Nat
  e : Nat
deriving DecidableEq, Repr

/-- The comparison `x < c` of a `Float64()` result `x = k / 2^53` with a constant. -/
def f64Lt (k : Nat) (c : F64Const) : Bool := decide (k * 2 ^ c.e < c.m * 2 ^ 53)

/-- The binary64 value of the literal `0.3`. -/
def c0_3 : F64Const := ⟨5404319552844595, 54⟩
/-- The binary64 value of the literal `0.4`. -/
def c0_4 : F64Const := ⟨7205759403792794, 54⟩
/-- The binary64 value of the literal `0.9`. -/
def c0_9 : F64Const := ⟨8106479329266893, 53⟩
/-- The binary64 value of the literal `0.05`. -/
def c0_05 : F64Const := ⟨7205759403792794, 57⟩
/-- The binary64 value of the literal `0.15`. -/
def c0_15 : F64Const := ⟨5404319552844595, 55⟩

/-- Swap the entries at positions `i` and `j` of a list. -/
def swapAt (p : List Nat) (i j : Nat) : List Nat :=
  (p.set i (p.getD j 0)).set j (p.getD i 0)

/-- The loop of `Shuffle`: for `i` from `n - 1` down to `1`, draw `j` in `[0, i]` and swap
the entries `i` and `j`. The argument counts down from `n - 1`. -/
def shuffleLoop : Nat → List Nat × Rand → List Nat × Rand
  | 0, s => s
  | i + 1, (p, r) => shuffleLoop i (swapAt p (i + 1) (r.uint64n (i + 2)).1, (r.uint64n (i + 2)).2)

/-- The method `Perm`: the identity permutation of `[0, n)`, shuffled. -/
def Rand.Perm (r : Rand) (n : Nat) : List Nat × Rand :=
  shuffleLoop (n - 1) (List.range n, r)

/-! ## Prices -/

/-- The number of low bits a natural number has in excess of 53 significant bits: the
least `s` with `n / 2 ^ s < 2 ^ 53`. The first argument is fuel (`n` itself is enough). -/
def excessBits : Nat → Nat → Nat
  | 0, _ => 0
  | fuel + 1, n => if n < 2 ^ 53 then 0 else excessBits fuel (n / 2) + 1

/-- Round a natural number to 53 significant bits, ties to even: the value of the
conversion `float64(n)`, and the rounding applied to the exact result of a binary64
operation (scaled to an integer). -/
def roundSig53 (n : Nat) : Nat :=
  let s := excessBits n n
  let q := n / 2 ^ s
  let rem := n % 2 ^ s
  if 2 * rem > 2 ^ s ∨ (2 * rem = 2 ^ s ∧ q % 2 = 1) then (q + 1) * 2 ^ s else q * 2 ^ s

/-- The expression `int(float64(price) * c)` for a price that is not negative: the price is
converted to binary64, multiplied by the constant (the exact product rounded to binary64)
and truncated to an integer. -/
def f64MulTrunc (price : Int) (c : F64Const) : Int :=
  ((roundSig53 (roundSig53 price.toNat * c.m) / 2 ^ c.e : Nat) : Int)

/-- The constant `MIN_PRICE`. -/
def MIN_PRICE : Int := 100

/-- The value a Go `int` (64 bits, two's complement) holds for the exact result `x` of an
addition or a multiplication: `x` reduced modulo `2^64` into `[-2^63, 2^63)`. -/
def wrapInt64 (x : Int) : Int := (x + 2 ^ 63) % 2 ^ 64 - 2 ^ 63

/-- The function `adjustedPrice`. For a price in the range of a Go `int` the half-range is
below `2^61` (`adjustmentRange_exact`), so `adjustmentRange + adjustmentRange` and the
difference `adjustment` are exact; the sum `price + adjustment` wraps around. -/
def adjustedPrice (r : Rand) (price : Int) : Except Panic (Int × Rand) :=
  let adjustmentRange : Int := if price > 2000 then f64MulTrunc price c0_15 else 2
  match r.IntN (adjustmentRange + adjustmentRange) with
  | .error e => .error e
  | .ok (d, r1) =>
    let adjustment := d - adjustmentRange
    let newPrice := wrapInt64 (price + adjustment)
    if newPrice < MIN_PRICE then .ok (MIN_PRICE, r1) else .ok (newPrice, r1)

/-! ## The tables -/

/-- The Go struct `Brand`. -/
structure Brand where
  Id : Nat
  Name : Str
deriving DecidableEq, Repr

/-- The Go struct `Franchise`. -/
structure Franchise where
  Id : Nat
  Name : Str
deriving DecidableEq, Repr

/-- The Go struct `Category`. -/
structure Category where
  Id : Nat
  Name : Str
deriving DecidableEq, Repr

/-- The Go struct `Country`. -/
structure Country where
  Id : Nat
  Name : Str
deriving DecidableEq, Repr

/-- The Go struct `City`. -/
structure City where
  Id : Nat
  Name : Str
  CountryId : Nat
deriving DecidableEq, Repr

/-- The Go struct `Product`. -/
structure Product where
  Id : Nat
  Name : Str
  CategoryId : Nat
  BrandId : Nat
deriving DecidableEq, Repr

/-- The Go struct `Store`. -/
structure Store where
  Id : Nat
  FranchiseId : Nat
  CityId : Nat
  Name : Str
deriving DecidableEq, Repr

/-- The Go struct `StockUnit`. -/
structure StockUnit where
  Id : Nat
  ProductId : Nat
  StoreId : Nat
deriving DecidableEq, Repr

/-- The Go struct `SimpleDate`. -/
structure SimpleDate where
  Year : Nat
  Month : Nat
  Day : Nat
deriving DecidableEq, Repr

/-- The Go struct `StockTransaction`. -/
structure StockTransaction where
  Id : Nat
  StockUnitId : Nat
  IsSale : Bool
  Count : Nat
  TotalPrice : Int
  Date : SimpleDate
deriving DecidableEq, Repr

/-- The Go struct `Database`. -/
structure Database where
  Brands : List Brand
  Franchises : List Franchise
  Categories : List Category
  Products : List Product
  Countries : List Country
  Cities : List City
  Stores : List Store
  StockUnits : List StockUnit
  StockTransactions : List StockTransaction
deriving DecidableEq, Repr

/-! ## Entity builders (lines 159-185 of `generate.go`) -/

/-- The loop `for i, n := range companies[0].Items` that fills `db.Brands`. -/
def brandsLoop (items : List Str) : List Brand :=
  items.enum.foldl (fun brands p => brands ++ [{ Id := p.1, Name := p.2 }]) []

/-- The loop `for i, n := range companies[1].Items` that fills `db.Franchises`. -/
def franchisesLoop (items : List Str) : List Franchise :=
  items.enum.foldl (fun franchises p => franchises ++ [{ Id := p.1, Name := p.2 }]) []

/-- The inner loop `for _, city := range c.Items` of country number `i`. -/
def citiesLoop (i : Nat) (items : List Str) (cities : List City) : List City :=
  items.foldl (fun cs city => cs ++ [{ Id := cs.length, Name := city, CountryId := i }]) cities

/-- The body of the loop `for i, c := range countries`, on `db.Countries` and `db.Cities`. -/
def countryStep (s : List Country × List City) (p : Nat × CoreData) :
    List Country × List City :=
  (s.1 ++ [{ Id := p.1, Name := p.2.Category }], citiesLoop p.1 p.2.Items s.2)

/-- The loop `for i, c := range countries`. -/
def countriesLoop (countries : List CoreData) : List Country × List City :=
  countries.enum.foldl countryStep ([], [])

/-! ## Relational expansion builders (lines 187-240) -/

/-- The body of `for _, brand := range db.Brands` for item `product` of category `i`:
one `Float64` draw, and a product when it is below 0.3. -/
def productStep (i : Nat) (product : Str) (s : List Product × Rand) (brand : Brand) :
    List Product × Rand :=
  if f64Lt s.2.Float64.1 c0_3 then
    (s.1 ++ [{ Id := s.1.length, Name := product ++ " | ".toList ++ brand.Name,
               CategoryId := i, BrandId := brand.Id }], s.2.Float64.2)
  else (s.1, s.2.Float64.2)

/-- The body of `for _, product := range c.Items`: the loop over the brands. -/
def itemStep (brands : List Brand) (i : Nat) (s : List Product × Rand) (product : Str) :
    List Product × Rand :=
  brands.foldl (productStep i product) s

/-- The body of the loop `for i, c := range categories`, on `db.Categories`, `db.Products`
and the generator. -/
def categoryStep (brands : List Brand) (s : List Category × List Product × Rand)
    (p : Nat × CoreData) : List Category × List Product × Rand :=
  (s.1 ++ [{ Id := p.1, Name := p.2.Category }], p.2.Items.foldl (itemStep brands p.1) s.2)

/-- The loop `for i, c := range categories`. -/
def categoriesLoop (brands : List Brand) (categories : List CoreData) (r : Rand) :
    List Category × List Product × Rand :=
  categories.enum.foldl (categoryStep brands) ([], [], r)

/-- The text `fmt.Sprintf("%s %s%s", franchise.Name, city.Name, suffix)` of store `i` of a
pair with `count` stores. -/
def storeName (franchise : Franchise) (city : City) (count i : Nat) : Str :=
  let suffix : Str := if count > 1 then " (#".toList ++ (Nat.repr i).toList ++ ")".toList else []
  franchise.Name ++ " ".toList ++ city.Name ++ suffix

/-- The number of stores of a pair: `r.IntN(3)`, replaced by `2 + r.IntN(3)` when it is 2. -/
def storeCount (r : Rand) : Nat × Rand :=
  if (r.uint64n 3).1 = 2 then (2 + ((r.uint64n 3).2.uint64n 3).1, ((r.uint64n 3).2.uint64n 3).2)
  else r.uint64n 3

/-- The loop `for i := 1; i <= count; i++` of one (franchise, city) pair. -/
def storesOfPair (franchise : Franchise) (city : City) (count : Nat) (stores : List Store) :
    List Store :=
  (List.range' 1 count).foldl
    (fun st i => st ++ [{ Id := st.length, FranchiseId := franchise.Id, CityId := city.Id,
                          Name := storeName franchise city count i }]) stores

/-- The body of `for _, city := range db.Cities` for one franchise. -/
def cityStep (franchise : Franchise) (s : List Store × Rand) (city : City) : List Store × Rand :=
  (storesOfPair franchise city (storeCount s.2).1 s.1, (storeCount s.2).2)

/-- The loop `for _, franchise := range db.Franchises`. -/
def storesLoop (franchises : List Franchise) (cities : List City) (r : Rand) :
    List Store × Rand :=
  franchises.foldl (fun s franchise => cities.foldl (cityStep franchise) s) ([], r)

/-- The body of `for _, product := range db.Products` for one store: one `Float64` draw, and
a stock unit when it is below 0.4. -/
def stockUnitStep (store : Store) (s : List StockUnit × Rand) (product : Product) :
    List StockUnit × Rand :=
  if f64Lt s.2.Float64.1 c0_4 then
    (s.1 ++ [{ Id := s.1.length, ProductId := product.Id, StoreId := store.Id }], s.2.Float64.2)
  else (s.1, s.2.Float64.2)

/-- The loop `for _, store := range db.Stores`. -/
def stockUnitsLoop (stores : List Store) (products : List Product) (r : Rand) :
    List StockUnit × Rand :=
  stores.foldl (fun s store => products.foldl (stockUnitStep store) s) ([], r)

/-! ## Price walk and transaction generator (lines 242-287) -/

/-- A Go `map[int]int`: a key is mapped to its value, or to `none` when it is absent. -/
abbrev IntMap := Nat → Option Int

/-- The empty map `make(map[int]int)`. -/
def IntMap.empty : IntMap := fun _ => none

/-- The assignment `m[k] = v`. -/
def IntMap.set (m : IntMap) (k : Nat) (v : Int) : IntMap := fun j => if j = k then some v else m j

/-- The expression `m[k]`: the zero value when the key is absent. -/
def IntMap.get (m : IntMap) (k : Nat) : Int := (m k).getD 0

/-- The loop `for i := range db.Products` that draws the base prices, for `n` products. -/
def basePriceLoop (n : Nat) (r : Rand) : IntMap × Rand :=
  (List.range n).foldl
    (fun s i => (s.1.set i (100 + ((s.2.uint64n 10000).1 : Int)), (s.2.uint64n 10000).2))
    (IntMap.empty, r)

/-- Leap years of the Gregorian calendar. -/
def isLeapYear (y : Nat) : Bool := y % 4 == 0 && (y % 100 != 0 || y % 400 == 0)

/-- The number of days of month `m` of year `y`. -/
def daysIn (y m : Nat) : Nat :=
  if m = 2 then (if isLeapYear y then 29 else 28)
  else if m = 4 ∨ m = 6 ∨ m = 9 ∨ m = 11 then 30 else 31

/-- The step `s.AddDate(0, 0, 1)` on a time at midnight UTC, as a calendar date. -/
def nextDay (d : SimpleDate) : SimpleDate :=
  if d.Day < daysIn d.Year d.Month then { d with Day := d.Day + 1 }
  else if d.Month < 12 then { Year := d.Year, Month := d.Month + 1, Day := 1 }
  else { Year := d.Year + 1, Month := 1, Day := 1 }

/-- The call `s.AddDate(0, 0, n)` for `n ≥ 0`. -/
def addDays (d : SimpleDate) (n : Nat) : SimpleDate := nextDay^[n] d

/-- The method `Before` on two times at midnight UTC. -/
def SimpleDate.Before (a b : SimpleDate) : Bool :=
  decide (a.Year < b.Year ∨ (a.Year = b.Year ∧ (a.Month < b.Month ∨
    (a.Month = b.Month ∧ a.Day < b.Day))))

/-- The value `startDate`. -/
def startDate : SimpleDate := { Year := 2020, Month := 1, Day := 1 }

/-- The value `endDate := startDate.AddDate(0, 0, 10)`. -/
def endDate : SimpleDate := addDays startDate 10

/-- The state the transaction pass changes: the generator, the map `currentStockPrice` and
`db.StockTransactions`. -/
structure TxState where
  r : Rand
  currentStockPrice : IntMap
  StockTransactions : List StockTransaction

/-- Lines 264-268: the lookup `currentPrice, ok := currentStockPrice[stockUnitId]`, and when
the key is absent the first price, drawn around the base price of the product and stored.
Returns `currentPrice`, the map and the generator. -/
def seedPrice (basePrice : IntMap) (stockUnit : StockUnit) (stockUnitId : Nat)
    (cache : IntMap) (r : Rand) : Except Panic (Int × IntMap × Rand) :=
  match cache stockUnitId with
  | some currentPrice => .ok (currentPrice, cache, r)
  | none =>
    match adjustedPrice r (basePrice.get stockUnit.ProductId) with
    | .error e => .error e
    | .ok (currentPrice, r1) => .ok (currentPrice, cache.set stockUnitId currentPrice, r1)

/-- Lines 270-274: one `Float64` draw; below 0.05 the price is drawn again, around
`currentStockPrice[stockUnit.ProductId]`, and stored under `stockUnitId`. -/
def walkPrice (stockUnit : StockUnit) (stockUnitId : Nat) (currentPrice : Int)
    (cache : IntMap) (r : Rand) : Except Panic (Int × IntMap × Rand) :=
  if f64Lt r.Float64.1 c0_05 then
    match adjustedPrice r.Float64.2 (cache.get stockUnit.ProductId) with
    | .error e => .error e
    | .ok (newPrice, r1) => .ok (newPrice, cache.set stockUnitId newPrice, r1)
  else .ok (currentPrice, cache, r.Float64.2)

/-- Lines 276-285: the draw of `count` and the appended transaction. The product
`count * currentPrice` is a Go `int` and wraps around. -/
def emit (date : SimpleDate) (stockUnitId : Nat) (currentPrice : Int) (cache : IntMap)
    (r : Rand) (txs : List StockTransaction) : TxState :=
  { r := (r.uint64n 10).2
    currentStockPrice := cache
    StockTransactions := txs ++ [{ Id := txs.length, StockUnitId := stockUnitId, IsSale := true,
                                   Count := (r.uint64n 10).1,
                                   TotalPrice := wrapInt64 (((r.uint64n 10).1 : Int) * currentPrice),
                                   Date := date }] }

/-- The body of `for _, stockUnitId := range stockUnitIds` on day `date`. -/
def txStep (stockUnits : List StockUnit) (basePrice : IntMap) (date : SimpleDate)
    (st : TxState) (stockUnitId : Nat) : Except Panic TxState :=
  if f64Lt st.r.Float64.1 c0_9 then .ok { st with r := st.r.Float64.2 }
  else
    match stockUnits[stockUnitId]? with
    | none => .error .indexOutOfRange
    | some stockUnit =>
      match seedPrice basePrice stockUnit stockUnitId st.currentStockPrice st.r.Float64.2 with
      | .error e => .error e
      | .ok (p0, cache0, r0) =>
        match walkPrice stockUnit stockUnitId p0 cache0 r0 with
        | .error e => .error e
        | .ok (currentPrice, cache, r1) =>
          .ok (emit date stockUnitId currentPrice cache r1 st.StockTransactions)

/-- The inner loop over a list of stock unit indices. -/
def txLoop (stockUnits : List StockUnit) (basePrice : IntMap) (date : SimpleDate) :
    List Nat → TxState → Except Panic TxState
  | [], st => .ok st
  | stockUnitId :: ids, st =>
    match txStep stockUnits basePrice date st stockUnitId with
    | .error e => .error e
    | .ok st1 => txLoop stockUnits basePrice date ids st1

/-- The body of the date loop for the day `s`: a fresh permutation of the stock unit
indices, then the inner loop over it. -/
def dayStep (stockUnits : List StockUnit) (basePrice : IntMap) (s : SimpleDate)
    (st : TxState) : Except Panic TxState :=
  txLoop stockUnits basePrice s (st.r.Perm stockUnits.length).1
    { st with r := (st.r.Perm stockUnits.length).2 }

/-- The loop `for s := startDate; s.Before(endDate); s = s.AddDate(0, 0, 1)`, with fuel. -/
def dateLoop (stockUnits : List StockUnit) (basePrice : IntMap) :
    Nat → SimpleDate → TxState → Except Panic TxState
  | 0, _, _ => .error .outOfFuel
  | fuel + 1, s, st =>
    if s.Before endDate then
      match dayStep stockUnits basePrice s st with
      | .error e => .error e
      | .ok st1 => dateLoop stockUnits basePrice fuel (nextDay s) st1
    else .ok st

/-! ## The program -/

/-- The body of `main` after the three seed files are read, up to the encoding of `db`:
the database built from the parsed seed inputs and the generator. -/
def generate (categories countries companies : List CoreData) (r : Rand) :
    Except Panic Database :=
  match companies[0]? with
  | none => .error .indexOutOfRange
  | some company0 =>
    let brands := brandsLoop company0.Items
    match companies[1]? with
    | none => .error .indexOutOfRange
    | some company1 =>
      let franchises := franchisesLoop company1.Items
      let cc := countriesLoop countries
      let cp := categoriesLoop brands categories r
      let st := storesLoop franchises cc.2 cp.2.2
      let su := stockUnitsLoop st.1 cp.2.1 st.2
      let bp := basePriceLoop cp.2.1.length su.2
      match dateLoop su.1 bp.1 366 startDate
          { r := bp.2, currentStockPrice := IntMap.empty, StockTransactions := [] } with
      | .error e => .error e
      | .ok tx =>
        .ok { Brands := brands, Franchises := franchises, Categories := cp.1,
              Products := cp.2.1, Countries := cc.1, Cities := cc.2, Stores := st.1,
              StockUnits := su.1, StockTransactions := tx.StockTransactions }

/-- The function `main`, up to the encoding of the database: `NewPCG seed1 seed2` is the
stream of draws of the generator `rand.New(rand.NewPCG(seed1, seed2))`. -/
def main (NewPCG : Nat → Nat → Rand) (fs : FileSystem) : Except Panic Database :=
  generate (ReadCoreData fs "categories.txt") (ReadCoreData fs "countries.txt")
    (ReadCoreData fs "companies.txt") (NewPCG 10 12)

/-! ## Invariants of the tables and of the database -/

/-- The invariant of the table of cities: ids are positions, countries are in range. -/
def CitiesInv (n : Nat) (cities : List City) : Prop :=
  cities.map (·.Id) = List.range cities.length ∧ ∀ c ∈ cities, c.CountryId < n

/-- The invariant of the table of products: ids are positions, categories are in range and
brands are ids of brands. -/
def ProductsInv (brands : List Brand) (n : Nat) (products : List Product) : Prop :=
  products.map (·.Id) = List.range products.length ∧
    ∀ p ∈ products, p.CategoryId < n ∧ ∃ b ∈ brands, b.Id = p.BrandId

/-- The invariant of the table of stores: ids are positions, franchises and cities are ids
of franchises and cities. -/
def StoresInv (franchises : List Franchise) (cities : List City) (stores : List Store) : Prop :=
  stores.map (·.Id) = List.range stores.length ∧
    ∀ s ∈ stores, (∃ f ∈ franchises, f.Id = s.FranchiseId) ∧ ∃ c ∈ cities, c.Id = s.CityId

/-- The invariant of the table of stock units: ids are positions, products and stores are
ids of products and stores. -/
def StockUnitsInv (stores : List Store) (products : List Product) (units : List StockUnit) :
    Prop :=
  units.map (·.Id) = List.range units.length ∧
    ∀ u ∈ units, (∃ p ∈ products, p.Id = u.ProductId) ∧ ∃ s ∈ stores, s.Id = u.StoreId

/-- The date loop over an explicit list of days. -/
def daysLoop (stockUnits : List StockUnit) (basePrice : IntMap) :
    List SimpleDate → TxState → Except Panic TxState
  | [], st => .ok st
  | s :: days, st =>
    match dayStep stockUnits basePrice s st with
    | .error e => .error e
    | .ok st1 => daysLoop stockUnits basePrice days st1

/-- The days of the simulation window: 2020-01-01 to 2020-01-10. -/
def simulationDays : List SimpleDate :=
  (List.range 10).map (fun k => { Year := 2020, Month := 1, Day := k + 1 })

/-- The invariant of the table of transactions after `d` days of the window: ids are
positions, stock units are indices below `n`, every record is a sale dated on one of the
first `d` days, and the days do not decrease along the table. -/
def TxInv (n d : Nat) (txs : List StockTransaction) : Prop :=
  txs.map (·.Id) = List.range txs.length ∧
  (∀ t ∈ txs, t.StockUnitId < n ∧ t.IsSale = true ∧ t.Date.Year = 2020 ∧ t.Date.Month = 1 ∧
    1 ≤ t.Date.Day ∧ t.Date.Day ≤ d) ∧
  txs.Pairwise (fun a b => a.Date.Day ≤ b.Date.Day)

/-- The ids of a table, listed in table order, are the positions: the record at 0-based
position `k` has id `k`. -/
def IdsArePositions (ids : List Nat) : Prop := ∀ k x : Nat, ids[k]? = some x → x = k

/-- Every table of the database has the ids `0 .. n-1` in creation order. -/
def Database.IdsDense (db : Database) : Prop :=
  IdsArePositions (db.Brands.map (·.Id)) ∧ IdsArePositions (db.Franchises.map (·.Id)) ∧
  IdsArePositions (db.Categories.map (·.Id)) ∧ IdsArePositions (db.Products.map (·.Id)) ∧
  IdsArePositions (db.Countries.map (·.Id)) ∧ IdsArePositions (db.Cities.map (·.Id)) ∧
  IdsArePositions (db.Stores.map (·.Id)) ∧ IdsArePositions (db.StockUnits.map (·.Id)) ∧
  IdsArePositions (db.StockTransactions.map (·.Id))

/-- Referential closure of a database: every reference is the id of a record of the table it
refers to. -/
def Database.RefClosed (db : Database) : Prop :=
  (∀ p ∈ db.Products, (∃ c ∈ db.Categories, c.Id = p.CategoryId) ∧
    (∃ b ∈ db.Brands, b.Id = p.BrandId)) ∧
  (∀ u ∈ db.StockUnits, (∃ p ∈ db.Products, p.Id = u.ProductId) ∧
    (∃ s ∈ db.Stores, s.Id = u.StoreId)) ∧
  (∀ t ∈ db.StockTransactions, ∃ u ∈ db.StockUnits, u.Id = t.StockUnitId) ∧
  (∀ c ∈ db.Cities, ∃ k ∈ db.Countries, k.Id = c.CountryId) ∧
  (∀ s ∈ db.Stores, (∃ f ∈ db.Franchises, f.Id = s.FranchiseId) ∧
    (∃ c ∈ db.Cities, c.Id = s.CityId))

/-! ## Example inputs -/

/-- A small categories source, parsed. -/
def demoCategories : List CoreData :=
  [⟨"Food".toList, ["rice".toList, "milk".toList]⟩, ⟨"Tools".toList, ["saw".toList]⟩]

/-- A small countries source, parsed. -/
def demoCountries : List CoreData :=
  [⟨"Wonderland".toList, ["Elmtown".toList, "Oakville".toList]⟩]

/-- A small company source, parsed: two brands and one franchise. -/
def demoCompanies : List CoreData :=
  [⟨"brands".toList, ["Acme".toList, "Globex".toList]⟩,
   ⟨"franchises".toList, ["QuickMart".toList]⟩]

/-- A stream of draws. -/
def demoDraws : Rand :=
  fun i => (i * 6364136223846793005 + 1442695040888963407) % 2 ^ 64 / 2 ^ 11

/-- The database `generate` builds from the small sources and `demoDraws`. -/
def demoDb : Database :=
  { Brands := [⟨0, "Acme".toList⟩, ⟨1, "Globex".toList⟩]
    Franchises := [⟨0, "QuickMart".toList⟩]
    Categories := [⟨0, "Food".toList⟩, ⟨1, "Tools".toList⟩]
    Products := [⟨0, "rice | Acme".toList, 0, 0⟩, ⟨1, "milk | Globex".toList, 0, 1⟩]
    Countries := [⟨0, "Wonderland".toList⟩]
    Cities := [⟨0, "Elmtown".toList, 0⟩, ⟨1, "Oakville".toList, 0⟩]
    Stores := [⟨0, 0, 0, "QuickMart Elmtown (#1)".toList⟩,
               ⟨1, 0, 0, "QuickMart Elmtown (#2)".toList⟩,
               ⟨2, 0, 0, "QuickMart Elmtown (#3)".toList⟩]
    StockUnits := [⟨0, 0, 0⟩, ⟨1, 1, 1⟩]
    StockTransactions := [⟨0, 1, true, 1, 2128, ⟨2020, 1, 9⟩⟩, ⟨1, 1, true, 6, 12768, ⟨2020, 1, 10⟩⟩] }

/-- Seed files for which the walk step of the only visit reads a key that is absent from
`currentStockPrice`: one store that stocks the second of two products. -/
def walkFs : FileSystem := fun name =>
  if name = "categories.txt" then some "Food\nrice\nmilk\n".toList
  else if name = "countries.txt" then some "Wonderland\nElmtown\n".toList
  else if name = "companies.txt" then some "brands\nAcme\n\nfranchises\nQuickMart\n".toList
  else none

/-- The draws of the run on `walkFs`: both products and one store are created, the store
stocks product 1 only, the base prices are 100 and 5000, the stock unit is visited on the
first day (first price 5000, walk step taken, count 3) and skipped afterwards. -/
def walkDraws : Rand :=
  fun i => [0, 0, 1, 2 ^ 53 - 1, 0, 0, 4900, 2 ^ 53 - 1, 750, 0, 2, 3].getD i 0

/-- The database of the run on `walkFs` and `walkDraws`. -/
def walkDb : Database :=
  { Brands := [⟨0, "Acme".toList⟩]
    Franchises := [⟨0, "QuickMart".toList⟩]
    Categories := [⟨0, "Food".toList⟩]
    Products := [⟨0, "rice | Acme".toList, 0, 0⟩, ⟨1, "milk | Acme".toList, 0, 0⟩]
    Countries := [⟨0, "Wonderland".toList⟩]
    Cities := [⟨0, "Elmtown".toList, 0⟩]
    Stores := [⟨0, 0, 0, "QuickMart Elmtown".toList⟩]
    StockUnits := [⟨0, 1, 0⟩]
    StockTransactions := [⟨0, 0, true, 3, 300, ⟨2020, 1, 1⟩⟩] }

/-- Seed files with a company source of one group only. -/
def oneGroupFs : FileSystem := fun name =>
  if name = "companies.txt" then some "brands\nAcme\nGlobex\n".toList else none

/-- Seed files with the company source only: the two other sources are missing. -/
def companiesOnlyFs : FileSystem := fun name =>
  if name = "companies.txt" then some "brands\nAcme\n\nfranchises\nQuickMart\n".toList else none

/-! ## The seed loader as the specification words it -/

/-- The group a run of consecutive non-blank lines stands for: its first line is the label,
the remaining lines are the members. -/
def groupOfRun : List Str → Option CoreData
  | [] => none
  | label :: members => some { Category := label, Items := members }

/-- The lines of a text as the specification words them: the pieces of the text between its
line breaks, in order. -/
def textLines (text : Str) : List Str := text.splitOnP (fun c => c == Char.ofNat 10)

/-- The groups of a sequence of lines as the specification words them: the lines are
trimmed, the blank ones separate, and every maximal run of consecutive non-blank lines is
one group, in input order. -/
def specGroups (lines : List Str) : List CoreData :=
  ((lines.map TrimSpace).splitOnP (fun line => line == [])).filterMap groupOfRun

/-- The lines of the group `currentCategory` holds: none when its label is empty. -/
def openRun (cur : CoreData) : List Str :=
  if cur.Category = [] then [] else cur.Category :: cur.Items

/-- The result of `parseBuffer` for the state its loop ends in. -/
def ParseState.finish (st : ParseState) : List CoreData :=
  if st.currentCategory.Category ≠ [] then st.result ++ [st.currentCategory] else st.result

/-- The iteration of the loop of `parseBuffer` after `line` has been trimmed. -/
def parseTrimmed (st : ParseState) (line : Str) : ParseState :=
  if line = [] then
    if st.currentCategory.Category ≠ [] then
      { result := st.result ++ [st.currentCategory], currentCategory := ⟨[], []⟩ }
    else st
  else if st.currentCategory.Category = [] then
    { st with currentCategory := { st.currentCategory with Category := line } }
  else
    { st with currentCategory :=
        { st.currentCategory with Items := st.currentCategory.Items ++ [line] } }

/-- The groups of a state have labels and members that are not empty, and a group without
label has no members. -/
def ParseState.WellFormed (st : ParseState) : Prop :=
  (∀ g ∈ st.result, g.Category ≠ [] ∧ ∀ item ∈ g.Items, item ≠ []) ∧
  (∀ item ∈ st.currentCategory.Items, item ≠ []) ∧
  (st.currentCategory.Category = [] → st.currentCategory.Items = [])

/-- The cities as the specification words them: the member names of the countries in
country order, each with the index of its country, numbered from 0 by one counter. -/
def specCities (countries : List CoreData) : List City :=
  (countries.enum.flatMap (fun p => p.2.Items.map (fun name => (name, p.1)))).enum.map
    (fun q => { Id := q.1, Name := q.2.1, CountryId := q.2.2 })

/-- The elements of a list that are kept when one draw is consumed per element and an
element is kept when its draw passes the test: element `k` is decided by draw `k`. -/
def pick {α : Type} (test : Nat → Bool) : List α → Rand → List α
  | [], _ => []
  | x :: xs, r => if test (r 0) then x :: pick test xs r.tail else pick test xs r.tail

/-- The triples (index of the category, item, brand) in the order the products pass
enumerates them: categories in seed order, their items in order, the brands in table order. -/
def productTriples (brands : List Brand) (categories : List CoreData) :
    List (Nat × Str × Brand) :=
  categories.enum.flatMap (fun p =>
    p.2.Items.flatMap (fun item => brands.map (fun brand => (p.1, item, brand))))

/-- The products as the specification words them: the enumerated triples whose draw, the
`k`-th draw for the `k`-th triple, is below 0.3, numbered from 0. -/
def specProducts (brands : List Brand) (categories : List CoreData) (r : Rand) : List Product :=
  (((productTriples brands categories).enum.filter
      (fun q => f64Lt (r q.1 % 2 ^ 53) c0_3)).map Prod.snd).enum.map
    (fun q => { Id := q.1, Name := q.2.2.1 ++ " | ".toList ++ q.2.2.2.Name,
                CategoryId := q.2.1, BrandId := q.2.2.2.Id })

/-- The (store, product) pairs in the order the stock units pass enumerates them: stores in
table order, and for each store the products in table order. -/
def stockPairs (stores : List Store) (products : List Product) : List (Store × Product) :=
  stores.flatMap (fun store => products.map (fun product => (store, product)))

/-- The strict lexicographic order of stock units by (StoreId, ProductId). -/
def StockUnit.keyLt (a b : StockUnit) : Prop :=
  a.StoreId < b.StoreId ∨ (a.StoreId = b.StoreId ∧ a.ProductId < b.ProductId)

/-- The order of stores by (FranchiseId, CityId), not strict. -/
def Store.keyLe (a b : Store) : Prop :=
  a.FranchiseId < b.FranchiseId ∨ (a.FranchiseId = b.FranchiseId ∧ a.CityId ≤ b.CityId)

/-- Every price the map `currentStockPrice` holds is at least `MIN_PRICE` (and in the range
of a Go `int`). -/
def CacheOk (cache : IntMap) : Prop := ∀ k q, cache k = some q → 100 ≤ q ∧ q < 2 ^ 63

/-- The invariant of the transaction pass on prices: the cached prices are at least 100 and
every transaction has a count of at most 9 and, as total, the 64-bit product of the count
and a price of at least 100. -/
def PriceInv (st : TxState) : Prop :=
  CacheOk st.currentStockPrice ∧
    ∀ t ∈ st.StockTransactions, t.Count ≤ 9 ∧
      ∃ p : Int, 100 ≤ p ∧ p < 2 ^ 63 ∧ t.TotalPrice = wrapInt64 ((t.Count : Int) * p)

/-- The invariant of the table of transactions after `j` days on days and stock units: no
two transactions have the same date and stock unit, there are at most `j * n` of them, and
they are dated on the first `j` days of January 2020. -/
def DayInv (n j : Nat) (txs : List StockTransaction) : Prop :=
  (txs.map (fun t => (t.Date, t.StockUnitId))).Nodup ∧ txs.length ≤ j * n ∧
    ∀ t ∈ txs, t.Date.Day ≤ j

/-- The half-range of the adjustment as the specification words it: 15% of the price,
truncated, above 2000 cents, and 2 cents otherwise. -/
def specHalfRange (price : Int) : Int := if price > 2000 then 15 * price / 100 else 2

/-- A line that can be a label or a member of a rendered group: not empty, without line
break, and without white space at its start or at its end. -/
def CleanLine (l : Str) : Prop :=
  l ≠ [] ∧ Char.ofNat 10 ∉ l ∧ l.head?.any isSpace = false ∧ l.getLast?.any isSpace = false

instance (l : Str) : Decidable (CleanLine l) := by
  unfold CleanLine
  infer_instance

/-- The text of one group: the label line, then the member lines, each ended by a newline. -/
def renderGroup (g : CoreData) : Str :=
  (g.Category :: g.Items).flatMap (fun l => l ++ [Char.ofNat 10])

/-- The text of a list of groups: the groups in order, separated by one blank line. -/
def render : List CoreData → Str
  | [] => []
  | [g] => renderGroup g
  | g :: g1 :: gs => renderGroup g ++ [Char.ofNat 10] ++ render (g1 :: gs)

/-- A line of `MaxScanTokenSize` bytes. -/
def longLine : Str := List.replicate 65536 'x'

/-- A text whose third line is `longLine`. -/
def longText : Str := "A\nB\n".toList ++ (longLine ++ "\nC\n".toList)

/-- The (franchise, city) pairs in the order the specification visits them: franchise by
franchise, and for each franchise city by city. -/
def storePairs (franchises : List Franchise) (cities : List City) : List (Franchise × City) :=
  franchises.flatMap (fun franchise => cities.map (fun city => (franchise, city)))

/-- The numbers of stores of the pairs, in the order of the pairs, as the specification
words them: one draw from {0, 1, 2} per pair; 0 stands for no store, 1 for one store, and
2 for `2 + e` stores, where `e` is a second draw from {0, 1, 2} that is consumed only then. -/
def specStoreCounts : List (Franchise × City) → Rand → List Nat
  | [], _ => []
  | _ :: pairs, r =>
    if r 0 % 3 = 2 then (2 + r 1 % 3) :: specStoreCounts pairs (r.drop 2)
    else (r 0 % 3) :: specStoreCounts pairs (r.drop 1)

/-- The stores of the pairs in creation order: for each pair with its count, the store
numbers `1 .. count`. A slot is (franchise, city, count of the pair, store number). -/
def storeSlots (pairs : List (Franchise × City)) (counts : List Nat) :
    List (Franchise × City × Nat × Nat) :=
  (pairs.zip counts).flatMap
    (fun q => (List.range' 1 q.2).map (fun i => (q.1.1, q.1.2, q.2, i)))

/-- The table of stores as the specification words it: the stores of the pairs in creation
order, numbered from 0, each with the ids of its pair and the name of its slot. -/
def specStores (franchises : List Franchise) (cities : List City) (r : Rand) : List Store :=
  (storeSlots (storePairs franchises cities)
      (specStoreCounts (storePairs franchises cities) r)).enum.map
    (fun e => { Id := e.1, FranchiseId := e.2.1.Id, CityId := e.2.2.1.Id,
                Name := storeName e.2.1 e.2.2.1 e.2.2.2.1 e.2.2.2.2 })

/-- Seed groups with two franchises and no brand. -/
def pairsCompanies : List CoreData :=
  [⟨"brands".toList, []⟩, ⟨"franchises".toList, ["QuickMart".toList, "MegaMart".toList]⟩]

/-- Seed groups with one country of two cities. -/
def pairsCountries : List CoreData :=
  [⟨"Wonderland".toList, ["Elmtown".toList, "Oakville".toList]⟩]

/-- Draws for the four pairs of `pairsCompanies` and `pairsCountries`: 1; 0; 2 and then 1;
2 and then 0. -/
def pairsDraws : Rand := fun i => [1, 0, 2, 1, 2, 0].getD i 0

/-- Seed groups for the run with overflow: one category with the 24 items `a` .. `x`. -/
def overflowCategories : List CoreData :=
  [⟨"goods".toList, (List.range 24).map (fun k => [Char.ofNat (97 + k)])⟩]

/-- Seed groups for the run with overflow: one country with two cities. -/
def overflowCountries : List CoreData :=
  [⟨"Wonderland".toList, ["Elmtown".toList, "Oakville".toList]⟩]

/-- Seed groups for the run with overflow: one brand and one franchise. -/
def overflowCompanies : List CoreData :=
  [⟨"brands".toList, ["Acme".toList]⟩, ⟨"franchises".toList, ["QuickMart".toList]⟩]

/-- The draws of the walk steps of the run with overflow: row `d` holds the draws of day
`d + 1`, one per stock unit in the order 0, 1, .., 23. Each is `2h - 1`, the greatest draw
for the half-range `h` of the price the step reads, so that the step adds `h - 1` to that
price. (The first entry is not used: stock unit 0 takes no walk step on the first day.) -/
def overflowSteps : List (List Nat) :=
  [[0, 3481, 4003, 4603, 5295, 6089, 7001, 8051, 9259, 10647, 12245, 14081, 16193, 18623, 21415,
    24627, 28321, 32569, 37455, 43073, 49533, 56963, 65507, 75333],
   [86633, 99629, 114573, 131759, 151521, 174249, 200387, 230445, 265011, 304763, 350477, 403049,
    463505, 533031, 612985, 704933, 810673, 932275, 1072115, 1232933, 1417873, 1630553, 1875135,
    2156405],
   [2479867, 2851847, 3279623, 3771567, 4337301, 4987897, 5736081, 6596493, 7585967, 8723861,
    10032441, 11537307, 13267903, 15258087, 17546801, 20178821, 23205643, 26686489, 30689463,
    35292883, 40586815, 46674837, 53676063, 61727471],
   [70986593, 81634581, 93879767, 107961733, 124155993, 142779391, 164196299, 188825745,
    217149607, 249722047, 287180353, 330257407, 379796017, 436765421, 502280233, 577622267,
    664265607, 763905449, 878491265, 1010264955, 1161804699, 1336075403, 1536486713, 1766959721],
   [2032003679, 2336804231, 2687324865, 3090423595, 3553987133, 4087085203, 4700147983,
    5405170181, 6215945707, 7148337563, 8220588197, 9453676427, 10871727891, 12502487075,
    14377860135, 16534539155, 19014720029, 21866928033, 25146967237, 28919012323, 33256864171,
    38245393797, 43982202867, 50579533297],
   [58166463291, 66891432785, 76925147701, 88463919857, 101733507835, 116993534011, 134542564111,
    154723948729, 177932541037, 204622422193, 235315785521, 270613153349, 311205126353,
    357885895305, 411568779601, 473304096541, 544299711021, 625944667675, 719836367825,
    827811822999, 951983596449, 1094781135917, 1258998306303, 1447848052249],
   [1665025260085, 1914779049099, 2201995906463, 2532295292433, 2912139586297, 3348960524241,
    3851304602877, 4429000293309, 5093350337305, 5857352887901, 6735955821085, 7746349194249,
    8908301573385, 10244546809393, 11781228830803, 13548413155423, 15580675128735,
    17917776398045, 20605442857753, 23696259286415, 27250698179377, 31338302906283,
    36039048342227, 41444905593559],
   [47661641432593, 54810887647483, 63032520794605, 72487398913795, 83360508750865,
    95864585063495, 110244272823019, 126780913746471, 145798050808441, 167667758429707,
    192817922194163, 221740610523287, 255001702101781, 293251957417047, 337239751029605,
    387825713684045, 445999570736651, 512899506347149, 589834432299221, 678309597144105,
    780056036715719, 897064442223077, 1031624108556539, 1186367724840019],
   [1364322883566023, 1568971316100925, 1804317013516065, 2074964565543473, 2386209250374995,
    2744140637931245, 3155761733620931, 3629125993664069, 4173494892713681, 4799519126620733,
    5519446995613841, 6347364044955917, 7299468651699305, 8394388949454201, 9653547291872331,
    11101579385653181, 12766816293501157, 14681838737526333, 16884114548155279,
    19416731730378571, 22329241489935359, 25678627713425663, 29530421870439511, 33959985151005435],
   [39053982923656247, 44912080362204687, 51648892416535391, 59396226279015703,
    68305660220868055, 78551509253998255, 90334235642097999, 103884370988412703,
    119467026636674607, 137387080632175791, 157995142727002175, 181694414136052479,
    208948576256460351, 240290862694929407, 276334492099168799, 317784665914044095,
    365452365801150783, 420270220671323327, 483310753772021887, 555807366837825151,
    639178471863498879, 735055242643023743, 845313529039477375, 972110558395398911]]

/-- The draws of the run with overflow, by position in call order.

* Positions 0-97, the tables: all 24 products are created (draws 0); each of the two
  (franchise, city) pairs gets one store (draws 1); store 0 stocks product 23 only and
  store 1 stocks the products 0 .. 22, so that stock unit 0 has product 23 and stock unit
  `u`, from 1 on, has product `u - 1`; every base price is 10099 (draws 9999).
* Every day starts with the 23 draws 23, 22, .., 1 of `Perm(24)`, which leave the stock
  units in the order 0, 1, .., 23, and no visit is skipped (draw `2^53 - 1`).
* Positions 98-239, the first day: stock unit 0 draws its first price as high as possible
  (draw 3027, price 11612), takes no walk step (draw `2^53 - 1`) and sells 9; every other
  stock unit draws its first price (draw 0), takes the walk step (draw 0) with the draw of
  `overflowSteps`, and sells 9: five draws per visit.
* Positions 240-1310, the nine later days, 119 draws each: every stock unit takes the walk
  step (draw 0) with the draw of `overflowSteps` and sells 9: four draws per visit. -/
def overflowDraws : Rand := fun i =>
  if i < 24 then 0
  else if i < 26 then 1
  else if i < 49 then 2 ^ 53 - 1
  else if i < 73 then 0
  else if i < 74 then 2 ^ 53 - 1
  else if i < 98 then 9999
  else if i < 121 then 121 - i
  else if i < 125 then [2 ^ 53 - 1, 3027, 2 ^ 53 - 1, 9].getD (i - 121) 0
  else if i < 240 then
    [2 ^ 53 - 1, 0, 0, ((overflowSteps.getD 0 []).getD ((i - 125) / 5 + 1) 0), 9].getD
      ((i - 125) % 5) 0
  else if (i - 240) % 119 < 23 then 23 - (i - 240) % 119
  else
    [2 ^ 53 - 1, 0,
      ((overflowSteps.getD ((i - 240) / 119 + 1) []).getD (((i - 240) % 119 - 23) / 4) 0),
      9].getD (((i - 240) % 119 - 23) % 4) 0

/-! # Verified properties -/

/-! ## Facts about rounding and `adjustedPrice` -/

/-- What `excessBits` computes: the quotient has at most 53 bits, and exactly 53 when bits
were dropped. -/
theorem excessBits_spec (fuel : Nat) : ∀ n, n ≤ fuel →
    n / 2 ^ excessBits fuel n < 2 ^ 53 ∧
      (excessBits fuel n ≠ 0 → 2 ^ 52 ≤ n / 2 ^ excessBits fuel n) := by
  induction fuel with
  | zero =>
    intro n hn
    have : n = 0 := by omega
    subst this
    simp [excessBits]
  | succ fuel ih =>
    intro n hn
    unfold excessBits
    by_cases h : n < 2 ^ 53
    · rw [if_pos h]
      simpa using h
    · rw [if_neg h]
      have h2 : n / 2 ≤ fuel := by
        have : 2 ^ 53 ≤ n := Nat.le_of_not_lt h
        have : (2:Nat) ^ 53 = 9007199254740992 := by norm_num
        omega
      obtain ⟨ih1, ih2⟩ := ih (n / 2) h2
      have e : n / 2 ^ (excessBits fuel (n / 2) + 1) = n / 2 / 2 ^ excessBits fuel (n / 2) := by
        rw [pow_succ, Nat.mul_comm, Nat.div_div_eq_div_mul]
      rw [e]
      refine ⟨ih1, fun _ => ?_⟩
      by_cases h0 : excessBits fuel (n / 2) = 0
      · rw [h0]
        have : 2 ^ 53 ≤ n := Nat.le_of_not_lt h
        have : (2:Nat) ^ 53 = 9007199254740992 := by norm_num
        have : (2:Nat) ^ 52 = 4503599627370496 := by norm_num
        simp
        omega
      · exact ih2 h0

/-- Rounding to 53 bits loses less than half of the value. -/
theorem le_two_mul_roundSig53 (n : Nat) : n ≤ 2 * roundSig53 n := by
  obtain ⟨-, h2⟩ := excessBits_spec n n le_rfl
  have hle : n / 2 ^ excessBits n n * 2 ^ excessBits n n ≤ roundSig53 n := by
    unfold roundSig53
    simp only
    split
    · exact Nat.mul_le_mul_right _ (Nat.le_succ _)
    · exact le_rfl
  have hdm := Nat.div_add_mod n (2 ^ excessBits n n)
  have hlt : n % 2 ^ excessBits n n < 2 ^ excessBits n n := Nat.mod_lt _ (by positivity)
  by_cases h0 : excessBits n n = 0
  · rw [h0] at hle
    simp at hle
    omega
  · have hq := h2 h0
    have : 1 * 2 ^ excessBits n n ≤ n / 2 ^ excessBits n n * 2 ^ excessBits n n :=
      Nat.mul_le_mul_right _ (le_trans (by norm_num) hq)
    rw [Nat.mul_comm] at hdm
    omega

/-- The half-range `int(float64(price) * 0.15)` is positive for a price above 2000. -/
theorem f64MulTrunc_pos (price : Int) (h : 2000 < price) : 0 < f64MulTrunc price c0_15 := by
  unfold f64MulTrunc c0_15
  simp only
  have h1 := le_two_mul_roundSig53 price.toNat
  have h2 := le_two_mul_roundSig53 (roundSig53 price.toNat * 5404319552844595)
  have h3 : 2001 ≤ price.toNat := by omega
  have h4 : (2:Nat) ^ 55 = 36028797018963968 := by norm_num
  rw [h4]
  have : 1 ≤ roundSig53 (roundSig53 price.toNat * 5404319552844595) / 36028797018963968 := by
    rw [Nat.le_div_iff_mul_le (by norm_num)]
    omega
  omega

/-- Rounding to 53 bits adds at most the fraction `2^(-52)` of the value. -/
theorem roundSig53_le (n : Nat) : 2 ^ 52 * roundSig53 n ≤ (2 ^ 52 + 1) * n := by
  obtain ⟨-, h2⟩ := excessBits_spec n n le_rfl
  have hle : roundSig53 n ≤ (n / 2 ^ excessBits n n + 1) * 2 ^ excessBits n n := by
    unfold roundSig53
    simp only
    split
    · exact le_rfl
    · exact Nat.mul_le_mul_right _ (Nat.le_succ _)
  have hdm := Nat.div_add_mod n (2 ^ excessBits n n)
  by_cases h0 : excessBits n n = 0
  · have hr : roundSig53 n = n := by
      unfold roundSig53
      simp [h0, Nat.mod_one]
    rw [hr]
    omega
  · have hq := h2 h0
    have hB : 2 ^ 52 * 2 ^ excessBits n n ≤ n / 2 ^ excessBits n n * 2 ^ excessBits n n :=
      Nat.mul_le_mul_right _ hq
    rw [Nat.mul_comm] at hdm
    rw [Nat.add_mul, Nat.one_mul] at hle
    generalize n / 2 ^ excessBits n n * 2 ^ excessBits n n = A at *
    generalize 2 ^ excessBits n n = B at *
    generalize roundSig53 n = R at *
    omega

/-- For a price in the range of a Go `int`, twice the half-range is in that range as well:
the argument `adjustmentRange + adjustmentRange` of `IntN` and the difference
`adjustment` of `adjustedPrice` are computed without wrap-around. -/
theorem adjustmentRange_exact (price : Int) (hp : price < 2 ^ 63) :
    (if price > 2000 then f64MulTrunc price c0_15 else 2) +
      (if price > 2000 then f64MulTrunc price c0_15 else 2) < 2 ^ 62 := by
  split
  · unfold f64MulTrunc c0_15
    simp only
    have h1 := roundSig53_le price.toNat
    have h2 := roundSig53_le (roundSig53 price.toNat * 5404319552844595)
    have h3 : price.toNat < 2 ^ 63 := by omega
    have h4 : roundSig53 (roundSig53 price.toNat * 5404319552844595) / 2 ^ 55 < 2 ^ 61 := by
      rw [Nat.div_lt_iff_lt_mul (by positivity)]
      generalize roundSig53 (roundSig53 price.toNat * 5404319552844595) = b at *
      generalize roundSig53 price.toNat = a at *
      norm_num at *
      omega
    omega
  · norm_num

/-- A value in the range of a Go `int` is not changed by the wrap-around. -/
theorem wrapInt64_eq (x : Int) (h1 : -2 ^ 63 ≤ x) (h2 : x < 2 ^ 63) : wrapInt64 x = x := by
  unfold wrapInt64
  omega

/-- A wrapped value is in the range of a Go `int`. -/
theorem wrapInt64_range (x : Int) : -2 ^ 63 ≤ wrapInt64 x ∧ wrapInt64 x < 2 ^ 63 := by
  unfold wrapInt64
  omega

/-- The function `adjustedPrice` never panics: it consumes one draw and returns the price
moved by some adjustment `d` (a 64-bit sum), or `MIN_PRICE` when that is smaller. -/
theorem adjustedPrice_ok (r : Rand) (price : Int) :
    ∃ d : Int, adjustedPrice r price =
      .ok (if wrapInt64 (price + d) < MIN_PRICE then MIN_PRICE else wrapInt64 (price + d),
        r.tail) := by
  unfold adjustedPrice Rand.IntN
  simp only
  have hpos : 0 < (if price > 2000 then f64MulTrunc price c0_15 else 2) := by
    split
    · exact f64MulTrunc_pos price (by assumption)
    · norm_num
  have hn : ¬ ((if price > 2000 then f64MulTrunc price c0_15 else 2) +
      (if price > 2000 then f64MulTrunc price c0_15 else 2) ≤ 0) := by omega
  simp only [hn, if_false, Rand.uint64n]
  refine ⟨((r 0 % ((if price > 2000 then f64MulTrunc price c0_15 else 2) +
      (if price > 2000 then f64MulTrunc price c0_15 else 2)).toNat : Nat) : Int) -
      (if price > 2000 then f64MulTrunc price c0_15 else 2), ?_⟩
  split_ifs <;> rfl

/-- C1. For every input price (in particular every price of at least 100 cents) and every
stream of draws, `adjustedPrice` returns, and the price it returns is at least
`MIN_PRICE = 100`. -/
theorem adjustedPrice_ge_min (r : Rand) (price : Int) :
    ∃ p r1, adjustedPrice r price = .ok (p, r1) ∧ 100 ≤ p := by
  obtain ⟨d, hd⟩ := adjustedPrice_ok r price
  refine ⟨_, _, hd, ?_⟩
  unfold MIN_PRICE
  split <;> omega

/-! ## Loops as folds: general facts -/

/-- An invariant of the body of a loop over a list holds after the loop. -/
theorem foldl_inv {α β : Type} (P : β → Prop) (f : β → α → β) :
    ∀ (l : List α) (b : β), (∀ b a, a ∈ l → P b → P (f b a)) → P b → P (l.foldl f b) := by
  intro l
  induction l with
  | nil => intro b _ hb; exact hb
  | cons a l ih =>
    intro b h hb
    exact ih (f b a) (fun b1 a1 ha1 hb1 => h b1 a1 (List.mem_cons_of_mem _ ha1) hb1)
      (h b a (List.mem_cons_self _ _) hb)

/-- A loop that appends one record per element builds the mapped list. -/
theorem foldl_append_map {α β : Type} (f : α → β) :
    ∀ (l : List α) (init : List β), l.foldl (fun acc x => acc ++ [f x]) init = init ++ l.map f := by
  intro l
  induction l with
  | nil => intro init; simp
  | cons a l ih => intro init; simp [ih]

/-- The index of an enumerated element is below the length. -/
theorem fst_lt_of_mem_enum {α : Type} {l : List α} {p : Nat × α} (h : p ∈ l.enum) :
    p.1 < l.length := by
  obtain ⟨i, x⟩ := p
  exact (List.mem_enum h).1

theorem brandsLoop_eq (items : List Str) :
    brandsLoop items = items.enum.map (fun p => { Id := p.1, Name := p.2 }) := by
  unfold brandsLoop
  rw [foldl_append_map (fun p : Nat × Str => ({ Id := p.1, Name := p.2 } : Brand))]
  simp

/-- A loop on a pair whose body treats the two components separately is two loops. -/
theorem foldl_prod {α β γ : Type} (f : β → α → β) (g : γ → α → γ) :
    ∀ (l : List α) (s : β × γ),
      l.foldl (fun s a => (f s.1 a, g s.2 a)) s = (l.foldl f s.1, l.foldl g s.2) := by
  intro l
  induction l with
  | nil => intro s; rfl
  | cons a l ih => intro s; simp [ih]

/-- In a table whose ids are the positions, every number below the length is an id. -/
theorem exists_id_of_lt {α : Type} (tbl : List α) (Id : α → Nat)
    (h : tbl.map Id = List.range tbl.length) (k : Nat) (hk : k < tbl.length) :
    ∃ x ∈ tbl, Id x = k := by
  have : k ∈ tbl.map Id := by rw [h]; exact List.mem_range.2 hk
  simpa using this

/-- In a table whose ids are the positions, every id is below the length. -/
theorem id_lt_of_mem {α : Type} (tbl : List α) (Id : α → Nat)
    (h : tbl.map Id = List.range tbl.length) (x : α) (hx : x ∈ tbl) : Id x < tbl.length := by
  have : Id x ∈ tbl.map Id := List.mem_map_of_mem Id hx
  rw [h] at this
  exact List.mem_range.1 this

/-- Appending a record whose id is the length keeps the ids equal to the positions. -/
theorem map_id_append {α : Type} (tbl : List α) (Id : α → Nat) (x : α)
    (h : tbl.map Id = List.range tbl.length) (hx : Id x = tbl.length) :
    (tbl ++ [x]).map Id = List.range (tbl ++ [x]).length := by
  rw [List.map_append, List.length_append, List.length_singleton, List.range_succ, ← h]
  simp [hx]

theorem brandsLoop_ids (items : List Str) :
    (brandsLoop items).map (·.Id) = List.range (brandsLoop items).length := by
  rw [brandsLoop_eq, List.map_map]
  show List.map Prod.fst _ = _
  simp [List.enum_map_fst]

theorem franchisesLoop_eq (items : List Str) :
    franchisesLoop items = items.enum.map (fun p => { Id := p.1, Name := p.2 }) := by
  unfold franchisesLoop
  rw [foldl_append_map (fun p : Nat × Str => ({ Id := p.1, Name := p.2 } : Franchise))]
  simp

theorem franchisesLoop_ids (items : List Str) :
    (franchisesLoop items).map (·.Id) = List.range (franchisesLoop items).length := by
  rw [franchisesLoop_eq, List.map_map]
  show List.map Prod.fst _ = _
  simp [List.enum_map_fst]

/-- The two components of the loop over the countries. -/
theorem countriesLoop_eq (countries : List CoreData) :
    countriesLoop countries =
      (countries.enum.map (fun p => ({ Id := p.1, Name := p.2.Category } : Country)),
       countries.enum.foldl (fun cities p => citiesLoop p.1 p.2.Items cities) []) := by
  unfold countriesLoop
  have h := foldl_prod
    (fun cs (p : Nat × CoreData) => cs ++ [({ Id := p.1, Name := p.2.Category } : Country)])
    (fun cities (p : Nat × CoreData) => citiesLoop p.1 p.2.Items cities) countries.enum ([], [])
  rw [foldl_append_map
    (fun p : Nat × CoreData => ({ Id := p.1, Name := p.2.Category } : Country))] at h
  simpa using h

theorem countries_ids (countries : List CoreData) :
    (countriesLoop countries).1.map (·.Id) = List.range (countriesLoop countries).1.length := by
  rw [countriesLoop_eq]
  simp only [List.map_map]
  show List.map Prod.fst _ = _
  simp [List.enum_map_fst]

theorem countries_length (countries : List CoreData) :
    (countriesLoop countries).1.length = countries.length := by
  rw [countriesLoop_eq]
  simp

theorem citiesLoop_inv (n i : Nat) (hi : i < n) (items : List Str) (cities : List City)
    (h : CitiesInv n cities) : CitiesInv n (citiesLoop i items cities) := by
  unfold citiesLoop
  refine foldl_inv (CitiesInv n) _ items cities ?_ h
  intro cs city _ hcs
  refine ⟨map_id_append cs _ _ hcs.1 rfl, ?_⟩
  intro c hc
  rcases List.mem_append.1 hc with hc | hc
  · exact hcs.2 c hc
  · rw [List.mem_singleton.1 hc]
    exact hi

theorem cities_inv (countries : List CoreData) :
    CitiesInv countries.length (countriesLoop countries).2 := by
  rw [countriesLoop_eq]
  refine foldl_inv (CitiesInv countries.length) _ countries.enum [] ?_ ⟨rfl, by simp⟩
  intro cs p hp hcs
  exact citiesLoop_inv _ _ (fst_lt_of_mem_enum hp) _ _ hcs

/-! ## The relational expansion builders -/

theorem productStep_inv (brands : List Brand) (n i : Nat) (hi : i < n) (product : Str)
    (s : List Product × Rand) (brand : Brand) (hb : brand ∈ brands)
    (h : ProductsInv brands n s.1) : ProductsInv brands n (productStep i product s brand).1 := by
  unfold productStep
  split
  · refine ⟨map_id_append s.1 _ _ h.1 rfl, ?_⟩
    intro p hp
    rcases List.mem_append.1 hp with hp | hp
    · exact h.2 p hp
    · rw [List.mem_singleton.1 hp]
      exact ⟨hi, brand, hb, rfl⟩
  · exact h

/-- The two components of the loop over the categories. -/
theorem categoriesLoop_eq (brands : List Brand) (categories : List CoreData) (r : Rand) :
    categoriesLoop brands categories r =
      (categories.enum.map (fun p => ({ Id := p.1, Name := p.2.Category } : Category)),
       categories.enum.foldl (fun s p => p.2.Items.foldl (itemStep brands p.1) s) ([], r)) := by
  have h := foldl_prod
    (fun cs (p : Nat × CoreData) => cs ++ [({ Id := p.1, Name := p.2.Category } : Category)])
    (fun (s : List Product × Rand) (p : Nat × CoreData) =>
      p.2.Items.foldl (itemStep brands p.1) s) categories.enum ([], ([], r))
  rw [foldl_append_map
    (fun p : Nat × CoreData => ({ Id := p.1, Name := p.2.Category } : Category))] at h
  unfold categoriesLoop
  simpa using h

theorem categories_ids (brands : List Brand) (categories : List CoreData) (r : Rand) :
    (categoriesLoop brands categories r).1.map (·.Id) =
      List.range (categoriesLoop brands categories r).1.length := by
  rw [categoriesLoop_eq]
  simp only [List.map_map]
  show List.map Prod.fst _ = _
  simp [List.enum_map_fst]

theorem categories_length (brands : List Brand) (categories : List CoreData) (r : Rand) :
    (categoriesLoop brands categories r).1.length = categories.length := by
  rw [categoriesLoop_eq]
  simp

theorem products_inv (brands : List Brand) (categories : List CoreData) (r : Rand) :
    ProductsInv brands categories.length (categoriesLoop brands categories r).2.1 := by
  rw [categoriesLoop_eq]
  refine foldl_inv (fun s : List Product × Rand => ProductsInv brands categories.length s.1)
    _ categories.enum ([], r) ?_ ⟨rfl, by simp⟩
  intro s p hp hs
  refine foldl_inv (fun s : List Product × Rand => ProductsInv brands categories.length s.1)
    _ p.2.Items s ?_ hs
  intro s1 product _ hs1
  unfold itemStep
  refine foldl_inv (fun s : List Product × Rand => ProductsInv brands categories.length s.1)
    _ brands s1 ?_ hs1
  intro s2 brand hb hs2
  exact productStep_inv brands _ _ (fst_lt_of_mem_enum hp) product s2 brand hb hs2

theorem storesOfPair_inv (franchises : List Franchise) (cities : List City)
    (franchise : Franchise) (hf : franchise ∈ franchises) (city : City) (hc : city ∈ cities)
    (count : Nat) (stores : List Store) (h : StoresInv franchises cities stores) :
    StoresInv franchises cities (storesOfPair franchise city count stores) := by
  unfold storesOfPair
  refine foldl_inv (StoresInv franchises cities) _ (List.range' 1 count) stores ?_ h
  intro st i _ hst
  refine ⟨map_id_append st _ _ hst.1 rfl, ?_⟩
  intro s hs
  rcases List.mem_append.1 hs with hs | hs
  · exact hst.2 s hs
  · rw [List.mem_singleton.1 hs]
    exact ⟨⟨franchise, hf, rfl⟩, city, hc, rfl⟩

theorem stores_inv (franchises : List Franchise) (cities : List City) (r : Rand) :
    StoresInv franchises cities (storesLoop franchises cities r).1 := by
  unfold storesLoop
  refine foldl_inv (fun s : List Store × Rand => StoresInv franchises cities s.1)
    _ franchises ([], r) ?_ ⟨rfl, by simp⟩
  intro s franchise hf hs
  refine foldl_inv (fun s : List Store × Rand => StoresInv franchises cities s.1)
    _ cities s ?_ hs
  intro s1 city hc hs1
  exact storesOfPair_inv franchises cities franchise hf city hc _ s1.1 hs1

theorem stockUnits_inv (stores : List Store) (products : List Product) (r : Rand) :
    StockUnitsInv stores products (stockUnitsLoop stores products r).1 := by
  unfold stockUnitsLoop
  refine foldl_inv (fun s : List StockUnit × Rand => StockUnitsInv stores products s.1)
    _ stores ([], r) ?_ ⟨rfl, by simp⟩
  intro s store hst hs
  refine foldl_inv (fun s : List StockUnit × Rand => StockUnitsInv stores products s.1)
    _ products s ?_ hs
  intro s1 product hp hs1
  unfold stockUnitStep
  split
  · refine ⟨map_id_append s1.1 _ _ hs1.1 rfl, ?_⟩
    intro u hu
    rcases List.mem_append.1 hu with hu | hu
    · exact hs1.2 u hu
    · rw [List.mem_singleton.1 hu]
      exact ⟨⟨product, hp, rfl⟩, store, hst, rfl⟩
  · exact hs1

/-! ## The permutation of the stock unit indices -/

theorem swapAt_length (p : List Nat) (i j : Nat) : (swapAt p i j).length = p.length := by
  simp [swapAt]

theorem swapAt_bound (n : Nat) (p : List Nat) (i j : Nat) (hn : 0 < n) (h : ∀ x ∈ p, x < n) :
    ∀ x ∈ swapAt p i j, x < n := by
  have hd : ∀ k, p.getD k 0 < n := by
    intro k
    rw [List.getD_eq_getElem?_getD]
    cases hk : p[k]? with
    | none => simpa using hn
    | some y => simpa using h y (List.getElem?_mem hk)
  intro x hx
  unfold swapAt at hx
  rcases List.mem_or_eq_of_mem_set hx with hx | hx
  · rcases List.mem_or_eq_of_mem_set hx with hx | hx
    · exact h x hx
    · rw [hx]; exact hd j
  · rw [hx]; exact hd i

theorem shuffleLoop_bound (n : Nat) (hn : 0 < n) :
    ∀ (i : Nat) (s : List Nat × Rand), (∀ x ∈ s.1, x < n) → ∀ x ∈ (shuffleLoop i s).1, x < n := by
  intro i
  induction i with
  | zero => intro s h; simpa [shuffleLoop] using h
  | succ i ih =>
    intro s h
    obtain ⟨p, r⟩ := s
    unfold shuffleLoop
    exact ih _ (swapAt_bound n p _ _ hn h)

/-- Every entry of `r.Perm(n)` is an index below `n`. -/
theorem perm_bound (r : Rand) (n : Nat) : ∀ x ∈ (r.Perm n).1, x < n := by
  unfold Rand.Perm
  rcases Nat.eq_zero_or_pos n with h0 | hn
  · subst h0
    intro x hx
    simp [shuffleLoop] at hx
  · exact shuffleLoop_bound n hn _ _ (fun x hx => List.mem_range.1 hx)

/-! ## One visit of a stock unit -/

/-- Lines 264-268 never panic; afterwards the map holds the returned price under
`stockUnitId`. Either the price was there, or it is a fresh price drawn around the base price
of the product. -/
theorem seedPrice_ok (basePrice : IntMap) (stockUnit : StockUnit) (stockUnitId : Nat)
    (cache : IntMap) (r : Rand) :
    ∃ p cache1 r1, seedPrice basePrice stockUnit stockUnitId cache r = .ok (p, cache1, r1) ∧
      cache1 stockUnitId = some p ∧
      ((cache stockUnitId = some p ∧ cache1 = cache ∧ r1 = r) ∨
       (cache stockUnitId = none ∧ cache1 = cache.set stockUnitId p ∧
        adjustedPrice r (basePrice.get stockUnit.ProductId) = .ok (p, r1))) := by
  unfold seedPrice
  cases hc : cache stockUnitId with
  | some q => exact ⟨q, cache, r, rfl, hc, Or.inl ⟨rfl, rfl, rfl⟩⟩
  | none =>
    obtain ⟨d, hd⟩ := adjustedPrice_ok r (basePrice.get stockUnit.ProductId)
    rw [hd]
    exact ⟨_, _, _, rfl, by simp [IntMap.set], Or.inr ⟨rfl, rfl, rfl⟩⟩

/-- Lines 270-274 never panic; afterwards the map holds the returned price under
`stockUnitId`. Either the draw is below 0.05 and the price is a fresh price drawn around
`currentStockPrice[stockUnit.ProductId]`, or nothing changes. -/
theorem walkPrice_ok (stockUnit : StockUnit) (stockUnitId : Nat) (p0 : Int) (cache0 : IntMap)
    (r0 : Rand) (h0 : cache0 stockUnitId = some p0) :
    ∃ p cache1 r1, walkPrice stockUnit stockUnitId p0 cache0 r0 = .ok (p, cache1, r1) ∧
      cache1 stockUnitId = some p ∧
      ((f64Lt r0.Float64.1 c0_05 = true ∧ cache1 = cache0.set stockUnitId p ∧
        adjustedPrice r0.Float64.2 (cache0.get stockUnit.ProductId) = .ok (p, r1)) ∨
       (f64Lt r0.Float64.1 c0_05 = false ∧ p = p0 ∧ cache1 = cache0 ∧ r1 = r0.Float64.2)) := by
  unfold walkPrice
  by_cases hf : f64Lt r0.Float64.1 c0_05 = true
  · rw [if_pos hf]
    obtain ⟨d, hd⟩ := adjustedPrice_ok r0.Float64.2 (cache0.get stockUnit.ProductId)
    rw [hd]
    exact ⟨_, _, _, rfl, by simp [IntMap.set], Or.inl ⟨hf, rfl, rfl⟩⟩
  · rw [if_neg hf]
    exact ⟨p0, cache0, _, rfl, h0, Or.inr ⟨by simpa using hf, rfl, rfl, rfl⟩⟩

/-- The body of the inner loop never panics on an index below the number of stock units.
When the first draw is below 0.9 nothing but the generator changes; otherwise exactly one
transaction is appended, priced with the price the map then holds for the stock unit. -/
theorem txStep_cases (stockUnits : List StockUnit) (basePrice : IntMap) (date : SimpleDate)
    (st : TxState) (stockUnitId : Nat) (h : stockUnitId < stockUnits.length) :
    ∃ st1, txStep stockUnits basePrice date st stockUnitId = .ok st1 ∧
      ((f64Lt st.r.Float64.1 c0_9 = true ∧ st1.StockTransactions = st.StockTransactions ∧
        st1.currentStockPrice = st.currentStockPrice) ∨
       (f64Lt st.r.Float64.1 c0_9 = false ∧ ∃ count p, count < 10 ∧
        st1.currentStockPrice stockUnitId = some p ∧
        st1.StockTransactions = st.StockTransactions ++
          [{ Id := st.StockTransactions.length, StockUnitId := stockUnitId, IsSale := true,
             Count := count, TotalPrice := wrapInt64 ((count : Int) * p), Date := date }])) := by
  unfold txStep
  by_cases hf : f64Lt st.r.Float64.1 c0_9 = true
  · rw [if_pos hf]
    exact ⟨_, rfl, Or.inl ⟨hf, rfl, rfl⟩⟩
  · rw [if_neg hf, List.getElem?_eq_getElem h]
    simp only
    obtain ⟨p0, cache0, r0, hs, hc0, -⟩ :=
      seedPrice_ok basePrice stockUnits[stockUnitId] stockUnitId st.currentStockPrice
        st.r.Float64.2
    rw [hs]
    simp only
    obtain ⟨p, cache1, r1, hw, hc1, -⟩ := walkPrice_ok stockUnits[stockUnitId] stockUnitId p0
      cache0 r0 hc0
    rw [hw]
    refine ⟨_, rfl, Or.inr ⟨by simpa using hf, (r1.uint64n 10).1, p, ?_, hc1, rfl⟩⟩
    exact Nat.mod_lt _ (by norm_num)

/-! ## The loops of the transaction pass -/

/-- An invariant of the body of the inner loop holds after the loop, which does not panic
when every index is below the number of stock units. -/
theorem txLoop_inv (stockUnits : List StockUnit) (basePrice : IntMap) (date : SimpleDate)
    (P : TxState → Prop) :
    ∀ (ids : List Nat) (st : TxState), (∀ id ∈ ids, id < stockUnits.length) →
      (∀ st id st1, id ∈ ids → P st → txStep stockUnits basePrice date st id = .ok st1 → P st1) →
      P st → ∃ st1, txLoop stockUnits basePrice date ids st = .ok st1 ∧ P st1 := by
  intro ids
  induction ids with
  | nil => intro st _ _ h; exact ⟨st, rfl, h⟩
  | cons id ids ih =>
    intro st hids hstep h
    obtain ⟨st1, h1, -⟩ := txStep_cases stockUnits basePrice date st id
      (hids id (List.mem_cons_self _ _))
    unfold txLoop
    rw [h1]
    exact ih st1 (fun x hx => hids x (List.mem_cons_of_mem _ hx))
      (fun s x s1 hx => hstep s x s1 (List.mem_cons_of_mem _ hx))
      (hstep st id st1 (List.mem_cons_self _ _) h h1)

/-- The body of the date loop does not panic, and keeps every invariant that the body of
the inner loop keeps and that does not depend on the generator. -/
theorem dayStep_inv (stockUnits : List StockUnit) (basePrice : IntMap) (s : SimpleDate)
    (P : TxState → Prop) (st : TxState)
    (hr : ∀ r1, P st → P { st with r := r1 })
    (hstep : ∀ st id st1, id < stockUnits.length → P st →
      txStep stockUnits basePrice s st id = .ok st1 → P st1)
    (h : P st) : ∃ st1, dayStep stockUnits basePrice s st = .ok st1 ∧ P st1 := by
  unfold dayStep
  exact txLoop_inv stockUnits basePrice s P _ _ (perm_bound st.r stockUnits.length)
    (fun st id st1 hid => hstep st id st1 (perm_bound _ _ id hid)) (hr _ h)

/-- A family of invariants, indexed by the number of days done, that the body of the date
loop carries from one day to the next holds after the loop over a list of days. -/
theorem daysLoop_inv (stockUnits : List StockUnit) (basePrice : IntMap)
    (P : Nat → TxState → Prop) :
    ∀ (days : List SimpleDate) (k : Nat) (st : TxState),
      (∀ j s st, days[j]? = some s → P (k + j) st →
        ∃ st1, dayStep stockUnits basePrice s st = .ok st1 ∧ P (k + j + 1) st1) →
      P k st → ∃ st1, daysLoop stockUnits basePrice days st = .ok st1 ∧
        P (k + days.length) st1 := by
  intro days
  induction days with
  | nil => intro k st _ h; exact ⟨st, rfl, h⟩
  | cons s days ih =>
    intro k st hstep h
    obtain ⟨st1, h1, hP⟩ := hstep 0 s st (by simp) h
    unfold daysLoop
    rw [h1]
    obtain ⟨st2, h2, hP2⟩ := ih (k + 1) st1 (fun j s1 st3 hj hP3 => by
      have := hstep (j + 1) s1 st3 (by simpa using hj) (by rw [← Nat.add_assoc, Nat.add_right_comm]; exact hP3)
      rw [← Nat.add_assoc, Nat.add_right_comm k j 1] at this
      exact this) hP
    refine ⟨st2, h2, ?_⟩
    rw [List.length_cons, ← Nat.add_assoc, Nat.add_right_comm]
    exact hP2

/-- With enough fuel the date loop is the loop over the days from `s` that are before
`endDate`. -/
theorem dateLoop_eq_daysLoop (stockUnits : List StockUnit) (basePrice : IntMap) :
    ∀ (n fuel : Nat) (s : SimpleDate) (st : TxState), n < fuel →
      (∀ k, k < n → (nextDay^[k] s).Before endDate = true) →
      (nextDay^[n] s).Before endDate = false →
      dateLoop stockUnits basePrice fuel s st =
        daysLoop stockUnits basePrice (List.iterate nextDay s n) st := by
  intro n
  induction n with
  | zero =>
    intro fuel s st hf _ hend
    obtain ⟨f, rfl⟩ : ∃ f, fuel = f + 1 := ⟨fuel - 1, by omega⟩
    simp only [Function.iterate_zero, id_eq] at hend
    simp [dateLoop, daysLoop, hend, List.iterate]
  | succ n ih =>
    intro fuel s st hf hbefore hend
    obtain ⟨f, rfl⟩ : ∃ f, fuel = f + 1 := ⟨fuel - 1, by omega⟩
    have h0 : s.Before endDate = true := hbefore 0 (by omega)
    have ih1 := fun st1 => ih f (nextDay s) st1 (by omega)
      (fun k hk => by simpa [Function.iterate_succ_apply] using hbefore (k + 1) (by omega))
      (by simpa [Function.iterate_succ_apply] using hend)
    unfold dateLoop
    rw [if_pos h0, List.iterate]
    unfold daysLoop
    cases hd : dayStep stockUnits basePrice s st with
    | error e => rfl
    | ok st1 => exact ih1 st1

theorem iterate_nextDay_startDate : List.iterate nextDay startDate 10 = simulationDays := by
  decide

/-- The date loop of the program is the loop over the ten days of the window. -/
theorem dateLoop_startDate (stockUnits : List StockUnit) (basePrice : IntMap) (st : TxState) :
    dateLoop stockUnits basePrice 366 startDate st =
      daysLoop stockUnits basePrice simulationDays st := by
  rw [← iterate_nextDay_startDate]
  refine dateLoop_eq_daysLoop stockUnits basePrice 10 366 startDate st (by norm_num) ?_ ?_
  · decide
  · decide

theorem TxInv.mono {n d d1 : Nat} {txs : List StockTransaction} (hd : d ≤ d1)
    (h : TxInv n d txs) : TxInv n d1 txs :=
  ⟨h.1, fun t ht => by
    obtain ⟨h1, h2, h3, h4, h5, h6⟩ := h.2.1 t ht
    exact ⟨h1, h2, h3, h4, h5, le_trans h6 hd⟩, h.2.2⟩

/-- The body of the inner loop on day `d` of January 2020 keeps the invariant. -/
theorem txStep_inv (stockUnits : List StockUnit) (basePrice : IntMap) (d : Nat) (hd : 1 ≤ d)
    (st : TxState) (id : Nat) (st1 : TxState) (hid : id < stockUnits.length)
    (h : TxInv stockUnits.length d st.StockTransactions)
    (hs : txStep stockUnits basePrice { Year := 2020, Month := 1, Day := d } st id = .ok st1) :
    TxInv stockUnits.length d st1.StockTransactions := by
  obtain ⟨st2, h2, hc⟩ := txStep_cases stockUnits basePrice { Year := 2020, Month := 1, Day := d }
    st id hid
  rw [hs] at h2
  cases h2
  rcases hc with ⟨-, hc, -⟩ | ⟨-, count, p, -, -, hc⟩
  · rw [hc]; exact h
  · rw [hc]
    refine ⟨map_id_append _ _ _ h.1 rfl, ?_, ?_⟩
    · intro t ht
      rcases List.mem_append.1 ht with ht | ht
      · exact h.2.1 t ht
      · rw [List.mem_singleton.1 ht]
        exact ⟨hid, rfl, rfl, rfl, hd, le_rfl⟩
    · rw [List.pairwise_append]
      refine ⟨h.2.2, List.pairwise_singleton _ _, ?_⟩
      intro a ha b hb
      rw [List.mem_singleton.1 hb]
      exact (h.2.1 a ha).2.2.2.2.2

theorem simulationDays_getElem? (j : Nat) (s : SimpleDate) (h : simulationDays[j]? = some s) :
    j < 10 ∧ s = { Year := 2020, Month := 1, Day := j + 1 } := by
  unfold simulationDays at h
  rw [List.getElem?_map] at h
  by_cases hj : j < 10
  · rw [List.getElem?_range hj] at h
    simp at h
    exact ⟨hj, h.symm⟩
  · rw [List.getElem?_eq_none (by simpa using hj)] at h
    simp at h

/-- The transaction pass does not panic and its table satisfies the invariant. -/
theorem daysLoop_txInv (stockUnits : List StockUnit) (basePrice : IntMap) (st : TxState)
    (h : st.StockTransactions = []) :
    ∃ st1, daysLoop stockUnits basePrice simulationDays st = .ok st1 ∧
      TxInv stockUnits.length 10 st1.StockTransactions := by
  have key := daysLoop_inv stockUnits basePrice
    (fun j st => TxInv stockUnits.length j st.StockTransactions) simulationDays 0 st ?_ ?_
  · simpa [simulationDays] using key
  · intro j s st2 hj hP
    obtain ⟨-, rfl⟩ := simulationDays_getElem? j s hj
    refine dayStep_inv stockUnits basePrice _
      (fun st => TxInv stockUnits.length (0 + j + 1) st.StockTransactions) st2
      (fun _ h => h) ?_ (TxInv.mono (by omega) hP)
    intro st3 id st4 hid h3 h4
    have e : 0 + j + 1 = j + 1 := by omega
    rw [e] at h3 ⊢
    exact txStep_inv stockUnits basePrice (j + 1) (by omega) st3 id st4 hid h3 h4
  · show TxInv stockUnits.length 0 st.StockTransactions
    rw [h]
    exact ⟨rfl, by simp, List.Pairwise.nil⟩

/-- The shape of a run of `generate` that returns: the tables are the results of the
builders, in the order of the program. -/
theorem generate_ok (categories countries companies : List CoreData) (r : Rand)
    (db : Database) (h : generate categories countries companies r = .ok db) :
    ∃ c0 c1 basePrice st0 st1, companies[0]? = some c0 ∧ companies[1]? = some c1 ∧
      db.Brands = brandsLoop c0.Items ∧ db.Franchises = franchisesLoop c1.Items ∧
      db.Countries = (countriesLoop countries).1 ∧ db.Cities = (countriesLoop countries).2 ∧
      db.Categories = (categoriesLoop db.Brands categories r).1 ∧
      db.Products = (categoriesLoop db.Brands categories r).2.1 ∧
      db.Stores = (storesLoop db.Franchises db.Cities
        (categoriesLoop db.Brands categories r).2.2).1 ∧
      db.StockUnits = (stockUnitsLoop db.Stores db.Products (storesLoop db.Franchises db.Cities
        (categoriesLoop db.Brands categories r).2.2).2).1 ∧
      st0.StockTransactions = [] ∧
      daysLoop db.StockUnits basePrice simulationDays st0 = .ok st1 ∧
      db.StockTransactions = st1.StockTransactions := by
  unfold generate at h
  cases h0 : companies[0]? with
  | none => rw [h0] at h; cases h
  | some c0 =>
    cases h1 : companies[1]? with
    | none => rw [h0, h1] at h; cases h
    | some c1 =>
      rw [h0, h1] at h
      simp only at h
      rw [dateLoop_startDate] at h
      split at h
      · cases h
      · rename_i tx htx
        cases h
        exact ⟨c0, c1, _, _, tx, rfl, rfl, rfl, rfl, rfl, rfl, rfl, rfl, rfl, rfl, rfl, htx, rfl⟩

/-- A run of `generate` returns when the company source has two groups. -/
theorem generate_total (categories countries companies : List CoreData) (r : Rand)
    (h : 2 ≤ companies.length) : ∃ db, generate categories countries companies r = .ok db := by
  unfold generate
  rw [List.getElem?_eq_getElem (show 0 < companies.length by omega),
    List.getElem?_eq_getElem (show 1 < companies.length by omega)]
  simp only
  rw [dateLoop_startDate]
  obtain ⟨st1, h1, -⟩ := daysLoop_txInv
    (stockUnitsLoop (storesLoop (franchisesLoop companies[1].Items) (countriesLoop countries).2
      (categoriesLoop (brandsLoop companies[0].Items) categories r).2.2).1
      (categoriesLoop (brandsLoop companies[0].Items) categories r).2.1
      (storesLoop (franchisesLoop companies[1].Items) (countriesLoop countries).2
      (categoriesLoop (brandsLoop companies[0].Items) categories r).2.2).2).1
    _ { r := _, currentStockPrice := IntMap.empty, StockTransactions := [] } rfl
  rw [h1]
  exact ⟨_, rfl⟩

/-! ## The generated database -/

theorem idsArePositions_of_range (ids : List Nat) (h : ids = List.range ids.length) :
    IdsArePositions ids := by
  unfold IdsArePositions
  intro k x hk
  rw [h] at hk
  have hlt : k < ids.length := by
    by_contra hcon
    rw [List.getElem?_eq_none (by simpa using hcon)] at hk
    cases hk
  rw [List.getElem?_range hlt] at hk
  exact (Option.some.inj hk).symm

/-- The invariants of all the tables of a database that `generate` returns. -/
theorem generate_inv (categories countries companies : List CoreData) (r : Rand)
    (db : Database) (h : generate categories countries companies r = .ok db) :
    db.Brands.map (·.Id) = List.range db.Brands.length ∧
    db.Franchises.map (·.Id) = List.range db.Franchises.length ∧
    db.Categories.map (·.Id) = List.range db.Categories.length ∧
    db.Countries.map (·.Id) = List.range db.Countries.length ∧
    CitiesInv db.Countries.length db.Cities ∧
    ProductsInv db.Brands db.Categories.length db.Products ∧
    StoresInv db.Franchises db.Cities db.Stores ∧
    StockUnitsInv db.Stores db.Products db.StockUnits ∧
    TxInv db.StockUnits.length 10 db.StockTransactions := by
  obtain ⟨c0, c1, bp, st0, st1, -, -, hB, hF, hCo, hCi, hCa, hP, hS, hU, h0, hT, hTx⟩ :=
    generate_ok categories countries companies r db h
  refine ⟨?_, ?_, ?_, ?_, ?_, ?_, ?_, ?_, ?_⟩
  · rw [hB]; exact brandsLoop_ids _
  · rw [hF]; exact franchisesLoop_ids _
  · rw [hCa]; exact categories_ids _ _ _
  · rw [hCo]; exact countries_ids _
  · rw [hCo, hCi, countries_length]; exact cities_inv _
  · rw [hCa, hP, categories_length]; exact products_inv _ _ _
  · rw [hS]; exact stores_inv _ _ _
  · rw [hU]; exact stockUnits_inv _ _ _
  · obtain ⟨st2, h2, hinv⟩ := daysLoop_txInv db.StockUnits bp st0 h0
    rw [hT] at h2
    cases h2
    rw [hTx]
    exact hinv

/-- C2. For every parsed seed input with the two groups of the company source and every
stream of draws, `generate` returns a database, and it is referentially closed: the category
and brand of every product, the product and store of every stock unit, the stock unit of
every transaction, the country of every city and the franchise and city of every store are
ids of records of the tables referred to. -/
theorem generate_refClosed (categories countries companies : List CoreData) (r : Rand)
    (h2 : 2 ≤ companies.length) :
    ∃ db, generate categories countries companies r = .ok db ∧ db.RefClosed := by
  obtain ⟨db, h⟩ := generate_total categories countries companies r h2
  refine ⟨db, h, ?_⟩
  obtain ⟨-, -, hCa, hCo, hCi, hP, hS, hU, hT⟩ := generate_inv categories countries companies r db h
  refine ⟨?_, ?_, ?_, ?_, ?_⟩
  · intro p hp
    exact ⟨exists_id_of_lt db.Categories (·.Id) hCa _ (hP.2 p hp).1, (hP.2 p hp).2⟩
  · intro u hu
    exact hU.2 u hu
  · intro t ht
    exact exists_id_of_lt db.StockUnits (·.Id) hU.1 _ (hT.2.1 t ht).1
  · intro c hc
    exact exists_id_of_lt db.Countries (·.Id) hCo _ (hCi.2 c hc)
  · intro s hs
    exact hS.2 s hs

/-- C3. For every parsed seed input with the two groups of the company source and every
stream of draws, `generate` returns a database, and in each of its nine tables the record
at 0-based position `k` has `Id = k`. -/
theorem generate_idsDense (categories countries companies : List CoreData) (r : Rand)
    (h2 : 2 ≤ companies.length) :
    ∃ db, generate categories countries companies r = .ok db ∧ db.IdsDense := by
  obtain ⟨db, h⟩ := generate_total categories countries companies r h2
  refine ⟨db, h, ?_⟩
  obtain ⟨hB, hF, hCa, hCo, hCi, hP, hS, hU, hT⟩ :=
    generate_inv categories countries companies r db h
  exact ⟨idsArePositions_of_range _ (by simpa using hB),
    idsArePositions_of_range _ (by simpa using hF),
    idsArePositions_of_range _ (by simpa using hCa),
    idsArePositions_of_range _ (by simpa using hP.1),
    idsArePositions_of_range _ (by simpa using hCo),
    idsArePositions_of_range _ (by simpa using hCi.1),
    idsArePositions_of_range _ (by simpa using hS.1),
    idsArePositions_of_range _ (by simpa using hU.1),
    idsArePositions_of_range _ (by simpa using hT.1)⟩

/-- In a table whose ids are positions and whose records satisfy a relation pairwise in
table order, records are related in id order. -/
theorem rel_of_id_le {α : Type} (tbl : List α) (Id : α → Nat) (R : α → α → Prop)
    (hrefl : ∀ a, R a a) (hid : tbl.map Id = List.range tbl.length) (hp : tbl.Pairwise R)
    (a b : α) (ha : a ∈ tbl) (hb : b ∈ tbl) (hab : Id a ≤ Id b) : R a b := by
  obtain ⟨i, hi, rfl⟩ := List.mem_iff_getElem.1 ha
  obtain ⟨j, hj, rfl⟩ := List.mem_iff_getElem.1 hb
  have key : ∀ k (hk : k < tbl.length), Id tbl[k] = k := by
    intro k hk
    have h1 : (tbl.map Id)[k]? = some (Id tbl[k]) := by
      rw [List.getElem?_map, List.getElem?_eq_getElem hk]; rfl
    rw [hid, List.getElem?_range hk] at h1
    exact (Option.some.inj h1).symm
  rw [key i hi, key j hj] at hab
  rcases Nat.lt_or_eq_of_le hab with hlt | heq
  · exact List.pairwise_iff_getElem.1 hp i j hi hj hlt
  · subst heq
    exact hrefl _

/-- C10. For every parsed seed input with the two groups of the company source and every
stream of draws, `generate` returns a database (the date loop ends), every transaction of
it is dated on one of the ten days 2020-01-01 to 2020-01-10, and the dates do not decrease
in the order of the transaction ids. -/
theorem generate_dates (categories countries companies : List CoreData) (r : Rand)
    (h2 : 2 ≤ companies.length) :
    ∃ db, generate categories countries companies r = .ok db ∧
    (∀ t ∈ db.StockTransactions,
      t.Date.Year = 2020 ∧ t.Date.Month = 1 ∧ 1 ≤ t.Date.Day ∧ t.Date.Day ≤ 10) ∧
    (∀ a ∈ db.StockTransactions, ∀ b ∈ db.StockTransactions,
      a.Id ≤ b.Id → a.Date.Day ≤ b.Date.Day ∧ ¬ b.Date.Before a.Date) := by
  obtain ⟨db, h⟩ := generate_total categories countries companies r h2
  refine ⟨db, h, ?_⟩
  obtain ⟨-, -, -, -, -, -, -, -, hT⟩ := generate_inv categories countries companies r db h
  have hday : ∀ a ∈ db.StockTransactions, ∀ b ∈ db.StockTransactions,
      a.Id ≤ b.Id → a.Date.Day ≤ b.Date.Day := fun a ha b hb hab =>
    rel_of_id_le db.StockTransactions (·.Id) (fun a b => a.Date.Day ≤ b.Date.Day)
      (fun _ => le_rfl) hT.1 hT.2.2 a b ha hb hab
  refine ⟨fun t ht => (hT.2.1 t ht).2.2, fun a ha b hb hab => ⟨hday a ha b hb hab, ?_⟩⟩
  have h1 := hday a ha b hb hab
  obtain ⟨-, -, ya, ma, -, -⟩ := hT.2.1 a ha
  obtain ⟨-, -, yb, mb, -, -⟩ := hT.2.1 b hb
  simp [SimpleDate.Before, ya, ma, yb, mb]
  omega

/-- The run of `generate` on the small sources. -/
theorem demo_run : generate demoCategories demoCountries demoCompanies demoDraws = .ok demoDb := by
  decide

/-- Witness of C2: the run on the small sources. -/
theorem generate_refClosed_witness :
    2 ≤ demoCompanies.length ∧
    ∃ db, generate demoCategories demoCountries demoCompanies demoDraws = .ok db ∧
      db.RefClosed :=
  ⟨by decide, generate_refClosed demoCategories demoCountries demoCompanies demoDraws
    (by decide)⟩

/-- Witness of C3: the run on the small sources. -/
theorem generate_idsDense_witness :
    2 ≤ demoCompanies.length ∧
    ∃ db, generate demoCategories demoCountries demoCompanies demoDraws = .ok db ∧
      db.IdsDense :=
  ⟨by decide, generate_idsDense demoCategories demoCountries demoCompanies demoDraws
    (by decide)⟩

/-- Witness of C10: the run on the small sources. -/
theorem generate_dates_witness :
    2 ≤ demoCompanies.length ∧
    ∃ db, generate demoCategories demoCountries demoCompanies demoDraws = .ok db ∧
    (∀ t ∈ db.StockTransactions,
      t.Date.Year = 2020 ∧ t.Date.Month = 1 ∧ 1 ≤ t.Date.Day ∧ t.Date.Day ≤ 10) ∧
    (∀ a ∈ db.StockTransactions, ∀ b ∈ db.StockTransactions,
      a.Id ≤ b.Id → a.Date.Day ≤ b.Date.Day ∧ ¬ b.Date.Before a.Date) :=
  ⟨by decide, generate_dates demoCategories demoCountries demoCompanies demoDraws
    (by decide)⟩

/-! ## Single steps of the transaction pass, and runs of the program -/

/-- C6 (amended). Every execution of the body of the inner loop with an index of a stock
unit returns. When its first draw is below 0.9 it appends nothing; otherwise it appends
exactly one transaction, whatever count is drawn (also 0), with `IsSale = true` and
`TotalPrice` the 64-bit product of `Count` and `p`, where `p` is the value the map
`currentStockPrice` holds for the transaction's `StockUnitId` at that moment: the product
`Count * p` reduced modulo `2^64` into `[-2^63, 2^63)`, which is `Count * p` itself
whenever that lies in this range, and 0 when the count is 0. Earlier transactions are kept
unchanged. -/
theorem txStep_totalPrice (stockUnits : List StockUnit) (basePrice : IntMap)
    (date : SimpleDate) (st : TxState) (stockUnitId : Nat)
    (h : stockUnitId < stockUnits.length) :
    ∃ st1, txStep stockUnits basePrice date st stockUnitId = .ok st1 ∧
      ((f64Lt st.r.Float64.1 c0_9 = true ∧ st1.StockTransactions = st.StockTransactions) ∨
       (f64Lt st.r.Float64.1 c0_9 = false ∧ ∃ t p,
        st1.StockTransactions = st.StockTransactions ++ [t] ∧
        t.StockUnitId = stockUnitId ∧ st1.currentStockPrice t.StockUnitId = some p ∧
        t.IsSale = true ∧ t.TotalPrice = wrapInt64 ((t.Count : Int) * p) ∧
        (-2 ^ 63 ≤ (t.Count : Int) * p → (t.Count : Int) * p < 2 ^ 63 →
          t.TotalPrice = (t.Count : Int) * p) ∧
        (t.Count = 0 → t.TotalPrice = 0))) := by
  obtain ⟨st1, h1, hc⟩ := txStep_cases stockUnits basePrice date st stockUnitId h
  refine ⟨st1, h1, ?_⟩
  rcases hc with ⟨hf, ht, -⟩ | ⟨hf, count, p, -, hp, ht⟩
  · exact Or.inl ⟨hf, ht⟩
  · refine Or.inr ⟨hf, _, p, ht, rfl, hp, rfl, rfl, fun h1 h2 => wrapInt64_eq _ h1 h2, ?_⟩
    intro h0
    simp only at h0
    simp only [h0, Nat.cast_zero, zero_mul]
    exact wrapInt64_eq 0 (by norm_num) (by norm_num)

/-- Witness of C6: a visit that is not skipped and draws the count 0. -/
theorem txStep_totalPrice_witness :
    0 < [({ Id := 0, ProductId := 1, StoreId := 0 } : StockUnit)].length ∧
    ∃ st1, txStep [{ Id := 0, ProductId := 1, StoreId := 0 }] (IntMap.empty.set 1 5000)
        { Year := 2020, Month := 1, Day := 1 }
        { r := fun _ => 2 ^ 53 - 2, currentStockPrice := IntMap.empty, StockTransactions := [] }
        0 = .ok st1 ∧
      ((f64Lt (Rand.Float64 (fun _ => 2 ^ 53 - 2)).1 c0_9 = true ∧ st1.StockTransactions = []) ∨
       (f64Lt (Rand.Float64 (fun _ => 2 ^ 53 - 2)).1 c0_9 = false ∧ ∃ t p,
        st1.StockTransactions = [] ++ [t] ∧
        t.StockUnitId = 0 ∧ st1.currentStockPrice t.StockUnitId = some p ∧
        t.IsSale = true ∧ t.TotalPrice = wrapInt64 ((t.Count : Int) * p) ∧
        (-2 ^ 63 ≤ (t.Count : Int) * p → (t.Count : Int) * p < 2 ^ 63 →
          t.TotalPrice = (t.Count : Int) * p) ∧
        (t.Count = 0 → t.TotalPrice = 0))) :=
  ⟨by decide, txStep_totalPrice _ _ _ _ 0 (by decide)⟩

/-- C5 (the code differs). On `walkFs` and `walkDraws` the only transaction is priced 100 a
piece: when the walk step is taken for stock unit 0 (product 1) the map holds 5000 for key 0
and nothing for key 1, and the new price is `adjustedPrice` of `currentStockPrice[1]`, the
zero value, which is 100. `adjustedPrice` of the cached price 5000 is 4252 for the same
draw, and at least 4250 for any draw. -/
theorem walkPrice_reads_product_key :
    main (fun _ _ => walkDraws) walkFs = .ok walkDb ∧
    (seedPrice (IntMap.empty.set 1 5000) ⟨0, 1, 0⟩ 0 IntMap.empty (walkDraws.drop 8)).toOption.map
      (fun x => (x.1, x.2.1 0, x.2.1 1)) = some (5000, some 5000, none) ∧
    (walkPrice ⟨0, 1, 0⟩ 0 5000 (IntMap.empty.set 0 5000) (walkDraws.drop 9)).toOption.map
      (fun x => (x.1, x.2.1 0)) = some (100, some 100) ∧
    (adjustedPrice (walkDraws.drop 10) 5000).toOption.map (·.1) = some 4252 ∧
    ∀ r : Rand, ∃ p r1, adjustedPrice r 5000 = .ok (p, r1) ∧ 4250 ≤ p := by
  refine ⟨by decide, by decide, by decide, by decide, ?_⟩
  intro r
  have h750 : f64MulTrunc 5000 c0_15 = 750 := by decide
  have hn : ¬ ((750 : Int) + 750 ≤ 0) := by norm_num
  unfold adjustedPrice Rand.IntN
  simp only [show (5000 : Int) > 2000 by norm_num, if_true, h750, hn, if_false, Rand.uint64n,
    MIN_PRICE]
  have h0 : (0 : Int) ≤ ((r 0 % (750 + 750 : Int).toNat : Nat) : Int) := Int.natCast_nonneg _
  have h1 : ((r 0 % (750 + 750 : Int).toNat : Nat) : Int) < 1500 := by
    have : r 0 % (750 + 750 : Int).toNat < 1500 := Nat.mod_lt _ (by decide)
    exact_mod_cast this
  rw [wrapInt64_eq _ (by omega) (by omega)]
  split_ifs with h
  · omega
  · exact ⟨_, _, rfl, by omega⟩

/-- C8 (the code differs). When the company source is missing or has one group only, the
program panics with an index out of range, whatever the generator. The two other sources
behave as claimed: when they are missing the program returns, with empty tables. -/
theorem main_panics_without_companies (NewPCG : Nat → Nat → Rand) :
    main NewPCG (fun _ => none) = .error .indexOutOfRange ∧
    main NewPCG oneGroupFs = .error .indexOutOfRange ∧
    main NewPCG companiesOnlyFs = .ok
      { Brands := [⟨0, "Acme".toList⟩], Franchises := [⟨0, "QuickMart".toList⟩],
        Categories := [], Products := [], Countries := [], Cities := [], Stores := [],
        StockUnits := [], StockTransactions := [] } := by
  refine ⟨rfl, ?_, ?_⟩
  · unfold main generate
    have h : ReadCoreData oneGroupFs "companies.txt" =
        [⟨"brands".toList, ["Acme".toList, "Globex".toList]⟩] := by decide
    rw [h]
    rfl
  · unfold main
    have h1 : ReadCoreData companiesOnlyFs "companies.txt" =
        [⟨"brands".toList, ["Acme".toList]⟩, ⟨"franchises".toList, ["QuickMart".toList]⟩] := by
      decide
    have h2 : ReadCoreData companiesOnlyFs "categories.txt" = [] := by decide
    have h3 : ReadCoreData companiesOnlyFs "countries.txt" = [] := by decide
    rw [h1, h2, h3]
    rfl

/-! ## Store names -/

/-- The loop over the store numbers `1 .. count` appends one store per number, with the
current length of the table as id. -/
theorem storesLoop_range (mk : Nat → Nat → Store) (stores : List Store) :
    ∀ m : Nat, (List.range' 1 m).foldl (fun st i => st ++ [mk st.length i]) stores =
      stores ++ (List.range m).map (fun k => mk (stores.length + k) (k + 1)) := by
  intro m
  induction m with
  | zero => simp
  | succ m ih =>
    rw [List.range'_concat, List.foldl_append, ih, List.range_succ, List.map_append]
    simp [Nat.add_comm]

/-- There are at most four stores for a pair. -/
theorem storeCount_le (r : Rand) : (storeCount r).1 ≤ 4 := by
  unfold storeCount Rand.uint64n
  split
  · have := Nat.mod_lt (r.tail 0) (show 0 < 3 by norm_num)
    simp only
    omega
  · have := Nat.mod_lt (r 0) (show 0 < 3 by norm_num)
    simp only
    omega

/-- C7. For every (franchise, city) pair, with `count` the number of stores drawn for it:
the stores appended for the pair are, for `i = 1 .. count` in this order, named
`"<franchise> <city> (#i)"` when `count > 1` and `"<franchise> <city>"` when `count = 1`;
and the suffixes `" (#i)"` for `i = 1 .. count` are pairwise distinct. -/
theorem cityStep_names (franchise : Franchise) (city : City) (s : List Store × Rand) :
    (cityStep franchise s city).1 = s.1 ++ (List.range (storeCount s.2).1).map (fun k =>
      { Id := s.1.length + k, FranchiseId := franchise.Id, CityId := city.Id,
        Name := if (storeCount s.2).1 > 1 then
            franchise.Name ++ " ".toList ++ city.Name ++
              (" (#".toList ++ (Nat.repr (k + 1)).toList ++ ")".toList)
          else franchise.Name ++ " ".toList ++ city.Name }) ∧
    ((List.range (storeCount s.2).1).map (fun k =>
      " (#".toList ++ (Nat.repr (k + 1)).toList ++ ")".toList)).Nodup := by
  constructor
  · unfold cityStep storesOfPair
    simp only
    rw [storesLoop_range (fun n i =>
      { Id := n, FranchiseId := franchise.Id, CityId := city.Id,
        Name := storeName franchise city (storeCount s.2).1 i })]
    congr 1
    apply List.map_congr_left
    intro k _
    unfold storeName
    split <;> simp
  · have h := storeCount_le s.2
    generalize (storeCount s.2).1 = count at h
    interval_cases count <;> decide

/-- Witness of C7: a pair with three stores and a pair with one store. -/
theorem cityStep_names_witness :
    (cityStep ⟨0, "QuickMart".toList⟩ ([], fun _ => 5) ⟨0, "Elmtown".toList, 0⟩).1 =
      [⟨0, 0, 0, "QuickMart Elmtown (#1)".toList⟩, ⟨1, 0, 0, "QuickMart Elmtown (#2)".toList⟩,
       ⟨2, 0, 0, "QuickMart Elmtown (#3)".toList⟩, ⟨3, 0, 0, "QuickMart Elmtown (#4)".toList⟩] ∧
    (cityStep ⟨0, "QuickMart".toList⟩ ([], fun _ => 1) ⟨0, "Elmtown".toList, 0⟩).1 =
      [⟨0, 0, 0, "QuickMart Elmtown".toList⟩] :=
  ⟨(cityStep_names ⟨0, "QuickMart".toList⟩ ⟨0, "Elmtown".toList, 0⟩ ([], fun _ => 5)).1.trans
      (by decide),
   (cityStep_names ⟨0, "QuickMart".toList⟩ ⟨0, "Elmtown".toList, 0⟩ ([], fun _ => 1)).1.trans
      (by decide)⟩

/-! ## The seed loader -/

/-- The loop of `parseBuffer` from any state: the groups already in `result`, then the
groups of the remaining lines, the first run continuing the group in `currentCategory`. -/
theorem parse_loop (lines : List Str) : ∀ (st : ParseState),
    (st.currentCategory.Category = [] → st.currentCategory.Items = []) →
    (lines.foldl parseTrimmed st).finish = st.result ++
      ((lines.splitOnP (fun line => line == [])).modifyHead
        (fun run => openRun st.currentCategory ++ run)).filterMap groupOfRun := by
  induction lines with
  | nil =>
    intro st hst
    obtain ⟨res, cat, items⟩ := st
    simp only [List.foldl_nil, List.splitOnP_nil, List.modifyHead_cons, List.append_nil,
      ParseState.finish, openRun]
    by_cases hc : cat = []
    · simp [hc, groupOfRun]
    · simp [hc, groupOfRun]
  | cons x xs ih =>
    intro st hst
    obtain ⟨res, cat, items⟩ := st
    obtain ⟨seg, rest, hsplit⟩ : ∃ seg rest, xs.splitOnP (fun line => line == []) = seg :: rest := by
      cases h : xs.splitOnP (fun line => line == []) with
      | nil => exact absurd h (List.splitOnP_ne_nil _ _)
      | cons seg rest => exact ⟨seg, rest, rfl⟩
    rw [List.foldl_cons, List.splitOnP_cons]
    simp only at hst
    by_cases hblank : x = []
    · subst hblank
      by_cases hc : cat = []
      · have hi : items = [] := hst hc
        subst hc hi
        have hstep : parseTrimmed ⟨res, ⟨[], []⟩⟩ [] = ⟨res, ⟨[], []⟩⟩ := by
          simp [parseTrimmed]
        rw [hstep, ih _ (fun _ => rfl), hsplit]
        simp [openRun, groupOfRun]
      · have hstep : parseTrimmed ⟨res, ⟨cat, items⟩⟩ [] = ⟨res ++ [⟨cat, items⟩], ⟨[], []⟩⟩ := by
          simp [parseTrimmed, hc]
        rw [hstep, ih _ (fun _ => rfl), hsplit]
        simp [openRun, groupOfRun, hc]
    · by_cases hc : cat = []
      · have hi : items = [] := hst hc
        subst hc hi
        have hstep : parseTrimmed ⟨res, ⟨[], []⟩⟩ x = ⟨res, ⟨x, []⟩⟩ := by
          simp [parseTrimmed, hblank]
        rw [hstep, ih _ (fun h => absurd h hblank), hsplit]
        simp [openRun, groupOfRun, hblank]
      · have hstep : parseTrimmed ⟨res, ⟨cat, items⟩⟩ x = ⟨res, ⟨cat, items ++ [x]⟩⟩ := by
          simp [parseTrimmed, hblank, hc]
        rw [hstep, ih _ (fun h => absurd h hc), hsplit]
        simp [openRun, groupOfRun, hblank, hc]

theorem parseTrimmed_wellFormed (st : ParseState) (line : Str) (h : st.WellFormed) :
    (parseTrimmed st line).WellFormed := by
  unfold ParseState.WellFormed at h ⊢
  obtain ⟨h1, h2, h3⟩ := h
  unfold parseTrimmed
  split_ifs with hl hc hc
  · refine ⟨?_, ?_, fun _ => rfl⟩
    · intro g hg
      rcases List.mem_append.1 hg with hg | hg
      · exact h1 g hg
      · rw [List.mem_singleton.1 hg]
        exact ⟨hc, h2⟩
    · intro item hi
      cases hi
  · exact ⟨h1, h2, h3⟩
  · exact ⟨h1, h2, fun h => absurd h hl⟩
  · refine ⟨h1, ?_, fun h => absurd h hc⟩
    intro item hi
    rcases List.mem_append.1 hi with hi | hi
    · exact h2 item hi
    · rw [List.mem_singleton.1 hi]
      exact hl

/-- C11. For every parsed seed input with the two groups of the company source and every
stream of draws, `generate` returns a database, and when its table of stock units is empty
its table of transactions is empty. -/
theorem generate_no_units (categories countries companies : List CoreData) (r : Rand)
    (h2 : 2 ≤ companies.length) :
    ∃ db, generate categories countries companies r = .ok db ∧
      (db.StockUnits = [] → db.StockTransactions = []) := by
  obtain ⟨db, h⟩ := generate_total categories countries companies r h2
  refine ⟨db, h, fun hu => ?_⟩
  obtain ⟨-, -, -, -, -, -, -, -, hT⟩ := generate_inv categories countries companies r db h
  rw [hu] at hT
  cases htx : db.StockTransactions with
  | nil => rfl
  | cons t ts =>
    have := (hT.2.1 t (by rw [htx]; exact List.mem_cons_self _ _)).1
    simp at this

/-- Witness of C11: no categories, hence no products and no stock units. -/
theorem generate_no_units_witness :
    2 ≤ demoCompanies.length ∧
    ∃ db, generate [] demoCountries demoCompanies demoDraws = .ok db ∧
      (db.StockUnits = [] → db.StockTransactions = []) :=
  ⟨by decide, generate_no_units [] demoCountries demoCompanies demoDraws (by decide)⟩

/-! ## Draw counting -/

theorem Rand.drop_zero (r : Rand) : r.drop 0 = r := rfl

theorem Rand.tail_drop (r : Rand) (n : Nat) : (r.drop n).tail = r.drop (n + 1) := by
  funext i
  simp [Rand.drop, Rand.tail, Nat.add_assoc, Nat.add_comm 1 n]

theorem Rand.drop_drop (r : Rand) (m n : Nat) : (r.drop m).drop n = r.drop (m + n) := by
  funext i
  simp [Rand.drop, Nat.add_assoc, Nat.add_comm n m]

theorem Rand.tail_eq_drop (r : Rand) : r.tail = r.drop 1 := rfl

/-- The base prices of `n` products: product `i` gets 100 plus draw `i` reduced below 10000,
and `n` draws are consumed. -/
theorem basePriceLoop_eq (n : Nat) (r : Rand) :
    (basePriceLoop n r).2 = r.drop n ∧
    ∀ i, (basePriceLoop n r).1 i = if i < n then some (100 + ((r i % 10000 : Nat) : Int)) else none := by
  unfold basePriceLoop
  induction n with
  | zero => exact ⟨rfl, fun i => by simp [IntMap.empty]⟩
  | succ n ih =>
    rw [List.range_succ, List.foldl_append]
    obtain ⟨ih1, ih2⟩ := ih
    generalize List.foldl _ (IntMap.empty, r) (List.range n) = S at ih1 ih2 ⊢
    obtain ⟨m, r0⟩ := S
    simp only at ih1 ih2
    subst ih1
    simp only [List.foldl_cons, List.foldl_nil, Rand.uint64n, Rand.tail_drop, true_and]
    intro i
    simp only [IntMap.set, ih2]
    by_cases hi : i = n
    · subst hi
      simp [Rand.drop]
    · rw [if_neg hi]
      by_cases h1 : i < n
      · simp [h1, Nat.lt_succ_of_lt h1]
      · have : ¬ i < n + 1 := by omega
        simp [h1, this]

/-- C16 (amended). The base price of every product is 100 plus one draw below
`100_00 = 10000`: one draw is consumed per product, the price of product `i` is decided by
draw `i` and lies in `[100, 10100)`, and every integer of `[100, 10100)` is the base price
for some draw. -/
theorem basePrice_range (n : Nat) (r : Rand) (i : Nat) (hi : i < n) :
    (basePriceLoop n r).2 = r.drop n ∧
    (∃ v, (basePriceLoop n r).1 i = some v ∧ v = 100 + ((r i % 10000 : Nat) : Int) ∧
      100 ≤ v ∧ v < 10100) ∧
    (∀ v : Int, 100 ≤ v → v < 10100 →
      ∃ r1 : Rand, (basePriceLoop n r1).1 i = some v) := by
  obtain ⟨h1, h2⟩ := basePriceLoop_eq n r
  refine ⟨h1, ⟨_, by rw [h2 i, if_pos hi], rfl, by omega, by omega⟩, ?_⟩
  intro v hv1 hv2
  refine ⟨fun _ => (v - 100).toNat, ?_⟩
  rw [(basePriceLoop_eq n _).2 i, if_pos hi]
  congr 1
  omega

/-- Witness of C16: the second of three products. -/
theorem basePrice_range_witness :
    1 < 3 ∧ (basePriceLoop 3 demoDraws).2 = demoDraws.drop 3 ∧
    (∃ v, (basePriceLoop 3 demoDraws).1 1 = some v ∧
      v = 100 + ((demoDraws 1 % 10000 : Nat) : Int) ∧ 100 ≤ v ∧ v < 10100) ∧
    (∀ v : Int, 100 ≤ v → v < 10100 →
      ∃ r1 : Rand, (basePriceLoop 3 r1).1 1 = some v) :=
  ⟨by decide, basePrice_range 3 demoDraws 1 (by decide)⟩

/-- Counterexample of C16: no draw gives a product the base price 500000, an integer of
`[100, 1000000)`. -/
theorem basePrice_not_500000 : ¬ ∃ r : Rand, (basePriceLoop 1 r).1 0 = some 500000 := by
  rintro ⟨r, h⟩
  rw [(basePriceLoop_eq 1 r).2 0] at h
  simp at h
  omega

/-! ## Tables in closed form -/

/-- A loop that appends one record per element, with the length of the table as first
argument, numbers the records from the length of the table on. -/
theorem foldl_numbered {α β : Type} (mk : Nat → α → β) :
    ∀ (l : List α) (init : List β),
      l.foldl (fun acc x => acc ++ [mk acc.length x]) init =
        init ++ (l.enumFrom init.length).map (fun p => mk p.1 p.2) := by
  intro l
  induction l with
  | nil => intro init; simp
  | cons x xs ih =>
    intro init
    rw [List.foldl_cons, ih]
    simp

/-- A loop over a list whose body is a loop over a list computed from the element is one
loop over the concatenation. -/
theorem foldl_flatMap_eq {α β γ : Type} (f : γ → β → γ) (g : α → List β) :
    ∀ (l : List α) (init : γ),
      l.foldl (fun acc x => (g x).foldl f acc) init = (l.flatMap g).foldl f init := by
  intro l
  induction l with
  | nil => intro init; rfl
  | cons x xs ih =>
    intro init
    rw [List.foldl_cons, ih, List.flatMap_cons, List.foldl_append]

/-- The indices of an enumerated list increase. -/
theorem pairwise_enum_fst {α : Type} (l : List α) :
    l.enum.Pairwise (fun p q => p.1 < q.1) := by
  have h := List.pairwise_lt_range l.length
  rw [← List.enum_map_fst l, List.pairwise_map] at h
  exact h

theorem citiesLoop_eq (i : Nat) (items : List Str) (cities : List City) :
    citiesLoop i items cities =
      (items.map (fun name => (name, i))).foldl
        (fun cs (q : Str × Nat) => cs ++ [{ Id := cs.length, Name := q.1, CountryId := q.2 }])
        cities := by
  unfold citiesLoop
  rw [List.foldl_map]

/-- C15. For every parsed countries source, the table of cities is the concatenation, in
country order, of the member names of every country in order: the `k`-th city has `Id = k`,
the corresponding member as name and the index of its group as `CountryId`; the number of
cities is the sum of the member counts, and `CountryId` does not decrease along the table. -/
theorem cities_eq_specCities (countries : List CoreData) :
    (countriesLoop countries).2 = specCities countries ∧
    (countriesLoop countries).2.length = (countries.map (fun c => c.Items.length)).sum ∧
    (∀ (k : Nat) (c : City), (countriesLoop countries).2[k]? = some c → c.Id = k) ∧
    (countriesLoop countries).2.Pairwise (fun a b => a.CountryId ≤ b.CountryId) := by
  have heq : (countriesLoop countries).2 = specCities countries := by
    rw [countriesLoop_eq]
    simp only [citiesLoop_eq]
    rw [foldl_flatMap_eq
      (fun cs (q : Str × Nat) => cs ++ [({ Id := cs.length, Name := q.1, CountryId := q.2 } : City)])
      (fun p : Nat × CoreData => p.2.Items.map (fun name => (name, p.1))),
      foldl_numbered (fun k (q : Str × Nat) => ({ Id := k, Name := q.1, CountryId := q.2 } : City))]
    simp [specCities, List.enum]
  refine ⟨heq, ?_, ?_, ?_⟩
  · rw [heq, specCities, List.length_map, List.enum_length, List.length_flatMap]
    congr 1
    conv_rhs => rw [← List.enum_map_snd countries, List.map_map]
    apply List.map_congr_left
    intro p _
    simp
  · intro k c hk
    have h := (cities_inv countries).1
    have h1 : ((countriesLoop countries).2.map (·.Id))[k]? = some c.Id := by
      rw [List.getElem?_map, hk]; rfl
    exact idsArePositions_of_range _ (by simpa using h) k c.Id h1
  · rw [heq, specCities, List.pairwise_map]
    have hT : (countries.enum.flatMap (fun p => p.2.Items.map (fun name => (name, p.1)))).Pairwise
        (fun a b => a.2 ≤ b.2) := by
      rw [List.pairwise_flatMap]
      refine ⟨fun p _ => ?_, ?_⟩
      · rw [List.pairwise_map]
        exact List.pairwise_of_forall (fun _ _ => le_rfl)
      · exact (pairwise_enum_fst countries).imp (fun {p q} hpq a ha b hb => by
          obtain ⟨_, -, rfl⟩ := List.mem_map.1 ha
          obtain ⟨_, -, rfl⟩ := List.mem_map.1 hb
          exact Nat.le_of_lt hpq)
    rw [← List.enum_map_snd (countries.enum.flatMap _), List.pairwise_map] at hT
    exact hT

/-! ## Loops that keep an element per draw -/

theorem pick_sublist {α : Type} (test : Nat → Bool) :
    ∀ (l : List α) (r : Rand), (pick test l r).Sublist l := by
  intro l
  induction l with
  | nil => intro r; exact List.Sublist.slnil
  | cons x xs ih =>
    intro r
    unfold pick
    split
    · exact (ih _).cons₂ x
    · exact (ih _).cons x

theorem pick_drop_eq_filter {α : Type} (test : Nat → Bool) (r : Rand) :
    ∀ (l : List α) (k : Nat), pick test l (r.drop k) =
      ((l.enumFrom k).filter (fun q => test (r q.1))).map Prod.snd := by
  intro l
  induction l with
  | nil => intro k; rfl
  | cons x xs ih =>
    intro k
    unfold pick
    rw [Rand.tail_drop, ih, List.enumFrom_cons, List.filter_cons]
    have h0 : (r.drop k) 0 = r k := by simp [Rand.drop]
    rw [h0]
    split <;> simp

/-- The kept elements are those whose draw passes the test. -/
theorem pick_eq_filter {α : Type} (test : Nat → Bool) (r : Rand) (l : List α) :
    pick test l r = (l.enum.filter (fun q => test (r q.1))).map Prod.snd :=
  pick_drop_eq_filter test r l 0

/-- A loop that consumes one draw per element and appends a record, numbered by the length
of the table, when the draw passes the test. -/
theorem foldl_pick {α β : Type} (test : Nat → Bool) (mk : Nat → α → β) :
    ∀ (l : List α) (s : List β × Rand),
      l.foldl (fun (s : List β × Rand) x =>
        if test (s.2 0) then (s.1 ++ [mk s.1.length x], s.2.tail) else (s.1, s.2.tail)) s =
      (s.1 ++ ((pick test l s.2).enumFrom s.1.length).map (fun p => mk p.1 p.2),
        s.2.drop l.length) := by
  intro l
  induction l with
  | nil => intro s; simp [pick, Rand.drop_zero]
  | cons x xs ih =>
    intro s
    rw [List.foldl_cons]
    by_cases h : test (s.2 0) = true
    · rw [if_pos h, ih, pick, if_pos h]
      simp [Rand.tail_eq_drop, Rand.drop_drop, Nat.add_comm]
    · rw [if_neg h, ih, pick, if_neg h]
      simp [Rand.tail_eq_drop, Rand.drop_drop, Nat.add_comm]

/-- The products pass is one loop over the enumerated triples. -/
theorem products_fold (brands : List Brand) (categories : List CoreData) (r : Rand) :
    (categoriesLoop brands categories r).2 =
      (productTriples brands categories).foldl
        (fun s t => productStep t.1 t.2.1 s t.2.2) ([], r) := by
  rw [categoriesLoop_eq]
  simp only
  unfold productTriples
  rw [← foldl_flatMap_eq]
  congr 1
  funext s p
  rw [← foldl_flatMap_eq]
  congr 1
  funext s1 item
  unfold itemStep
  rw [List.foldl_map]

/-- C14. The products pass enumerates every (category, item) pair in seed order and, for
each, every brand in table order, and consumes one draw per enumerated triple: it consumes
(total number of items) * (number of brands) draws, and the table of products is the
subsequence of the triples whose draw is below 0.3, numbered from 0, each with the name
`"<item> | <brand name>"`, the index of the category and the id of the brand. -/
theorem products_eq_specProducts (brands : List Brand) (categories : List CoreData) (r : Rand) :
    (categoriesLoop brands categories r).2.1 = specProducts brands categories r ∧
    (categoriesLoop brands categories r).2.2 = r.drop (productTriples brands categories).length ∧
    (productTriples brands categories).length =
      (categories.map (fun c => c.Items.length)).sum * brands.length := by
  have h := foldl_pick (fun d => f64Lt (d % 2 ^ 53) c0_3)
    (fun k (t : Nat × Str × Brand) =>
      ({ Id := k, Name := t.2.1 ++ " | ".toList ++ t.2.2.Name,
         CategoryId := t.1, BrandId := t.2.2.Id } : Product))
    (productTriples brands categories) ([], r)
  have hf : (categoriesLoop brands categories r).2 = _ := (products_fold brands categories r).trans h
  refine ⟨?_, ?_, ?_⟩
  · rw [hf, pick_eq_filter]
    simp [specProducts, List.enum]
  · rw [hf]
  · unfold productTriples
    have hlen : ∀ (i : Nat) (items : List Str),
        (items.flatMap (fun item => brands.map (fun brand => (i, item, brand)))).length =
          items.length * brands.length := by
      intro i items
      induction items with
      | nil => simp
      | cons x xs ih => rw [List.flatMap_cons, List.length_append, ih]; simp [Nat.add_mul, Nat.add_comm]
    rw [List.length_flatMap]
    have hmap : List.map (List.length ∘ fun p : Nat × CoreData =>
        p.2.Items.flatMap (fun item => brands.map (fun brand => (p.1, item, brand)))) categories.enum =
        List.map (fun p : Nat × CoreData => p.2.Items.length * brands.length) categories.enum :=
      List.map_congr_left (fun p _ => hlen p.1 p.2.Items)
    rw [hmap, List.sum_map_mul_right]
    congr 1
    conv_rhs => rw [← List.enum_map_snd categories, List.map_map]
    rfl

/-! ## The stock units -/

/-- The stock units pass is one loop over the enumerated pairs. -/
theorem stockUnits_fold (stores : List Store) (products : List Product) (r : Rand) :
    stockUnitsLoop stores products r =
      (stockPairs stores products).foldl (fun s t => stockUnitStep t.1 s t.2) ([], r) := by
  unfold stockUnitsLoop stockPairs
  rw [← foldl_flatMap_eq]
  congr 1
  funext s store
  rw [List.foldl_map]

/-- The table of stock units in closed form: the pairs whose draw is below 0.4, numbered. -/
theorem stockUnits_eq (stores : List Store) (products : List Product) (r : Rand) :
    stockUnitsLoop stores products r =
      (((pick (fun d => f64Lt (d % 2 ^ 53) c0_4) (stockPairs stores products) r).enum).map
          (fun q => ({ Id := q.1, ProductId := q.2.2.Id, StoreId := q.2.1.Id } : StockUnit)),
        r.drop (stockPairs stores products).length) := by
  have h := foldl_pick (fun d => f64Lt (d % 2 ^ 53) c0_4)
    (fun k (t : Store × Product) => ({ Id := k, ProductId := t.2.Id, StoreId := t.1.Id } : StockUnit))
    (stockPairs stores products) ([], r)
  rw [stockUnits_fold]
  exact h.trans (by simp [List.enum])

theorem stockPairs_length (stores : List Store) (products : List Product) :
    (stockPairs stores products).length = stores.length * products.length := by
  unfold stockPairs
  induction stores with
  | nil => simp
  | cons x xs ih => rw [List.flatMap_cons, List.length_append, ih]; simp [Nat.add_mul, Nat.add_comm]

/-- When the ids of the stores and of the products increase along their tables, the stock
units are strictly increasing in (StoreId, ProductId), and there are at most as many as
pairs. -/
theorem stockUnits_sorted (stores : List Store) (products : List Product) (r : Rand)
    (hs : stores.Pairwise (fun a b => a.Id < b.Id))
    (hp : products.Pairwise (fun a b => a.Id < b.Id)) :
    (stockUnitsLoop stores products r).1.Pairwise StockUnit.keyLt ∧
    (stockUnitsLoop stores products r).1.length ≤ stores.length * products.length := by
  rw [stockUnits_eq]
  simp only
  have hsub := pick_sublist (fun d => f64Lt (d % 2 ^ 53) c0_4) (stockPairs stores products) r
  constructor
  · rw [List.pairwise_map]
    have hpairs : (stockPairs stores products).Pairwise
        (fun t u => t.1.Id < u.1.Id ∨ (t.1.Id = u.1.Id ∧ t.2.Id < u.2.Id)) := by
      unfold stockPairs
      rw [List.pairwise_flatMap]
      refine ⟨fun st _ => ?_, ?_⟩
      · rw [List.pairwise_map]
        exact hp.imp (fun h => Or.inr ⟨rfl, h⟩)
      · exact hs.imp (fun {a b} hab x hx y hy => by
          obtain ⟨_, -, rfl⟩ := List.mem_map.1 hx
          obtain ⟨_, -, rfl⟩ := List.mem_map.1 hy
          exact Or.inl hab)
    have hpick := hpairs.sublist hsub
    rw [← List.enum_map_snd (pick _ _ _), List.pairwise_map] at hpick
    exact hpick
  · rw [List.length_map, List.enum_length, ← stockPairs_length]
    exact hsub.length_le

/-- In a table whose ids are positions and whose records satisfy a relation pairwise in
table order, a record with a smaller id is related to one with a larger id. -/
theorem rel_of_id_lt {α : Type} (tbl : List α) (Id : α → Nat) (R : α → α → Prop)
    (hid : tbl.map Id = List.range tbl.length) (hp : tbl.Pairwise R)
    (a b : α) (ha : a ∈ tbl) (hb : b ∈ tbl) (hab : Id a < Id b) : R a b := by
  obtain ⟨i, hi, rfl⟩ := List.mem_iff_getElem.1 ha
  obtain ⟨j, hj, rfl⟩ := List.mem_iff_getElem.1 hb
  have key : ∀ k (hk : k < tbl.length), Id tbl[k] = k := by
    intro k hk
    have h1 : (tbl.map Id)[k]? = some (Id tbl[k]) := by
      rw [List.getElem?_map, List.getElem?_eq_getElem hk]; rfl
    rw [hid, List.getElem?_range hk] at h1
    exact (Option.some.inj h1).symm
  rw [key i hi, key j hj] at hab
  exact List.pairwise_iff_getElem.1 hp i j hi hj hab

theorem pairwise_id_lt {α : Type} (tbl : List α) (Id : α → Nat)
    (hid : tbl.map Id = List.range tbl.length) : tbl.Pairwise (fun a b => Id a < Id b) := by
  have h := List.pairwise_lt_range tbl.length
  rw [← hid, List.pairwise_map] at h
  exact h

/-- C19. For every parsed seed input with the two groups of the company source and every
stream of draws, `generate` returns a database whose stock units are, in id order, strictly
increasing in (StoreId, ProductId); no two stock units have the same store and product, and
there are at most (number of stores) * (number of products) stock units. -/
theorem generate_stockUnits_sorted (categories countries companies : List CoreData) (r : Rand)
    (h2 : 2 ≤ companies.length) :
    ∃ db, generate categories countries companies r = .ok db ∧
      (∀ a ∈ db.StockUnits, ∀ b ∈ db.StockUnits, a.Id < b.Id →
        a.StoreId < b.StoreId ∨ (a.StoreId = b.StoreId ∧ a.ProductId < b.ProductId)) ∧
      (db.StockUnits.map (fun u => (u.StoreId, u.ProductId))).Nodup ∧
      db.StockUnits.length ≤ db.Stores.length * db.Products.length := by
  obtain ⟨db, h⟩ := generate_total categories countries companies r h2
  refine ⟨db, h, ?_⟩
  obtain ⟨-, -, -, -, -, hP, hS, hU, -⟩ := generate_inv categories countries companies r db h
  obtain ⟨_, _, _, _, _, -, -, -, -, -, -, -, -, -, hUe, -, -, -⟩ :=
    generate_ok categories countries companies r db h
  have hsorted := stockUnits_sorted db.Stores db.Products
    (storesLoop db.Franchises db.Cities (categoriesLoop db.Brands categories r).2.2).2
    (pairwise_id_lt db.Stores (·.Id) hS.1) (pairwise_id_lt db.Products (·.Id) hP.1)
  rw [← hUe] at hsorted
  refine ⟨fun a ha b hb hab => rel_of_id_lt db.StockUnits (·.Id) StockUnit.keyLt hU.1 hsorted.1
    a b ha hb hab, ?_, hsorted.2⟩
  rw [List.Nodup, List.pairwise_map]
  exact hsorted.1.imp (fun {a b} hab heq => by
    simp only [Prod.mk.injEq] at heq
    rcases hab with h1 | ⟨-, h1⟩
    · omega
    · omega)

/-- Witness of C19: the run on the small sources. -/
theorem generate_stockUnits_sorted_witness :
    2 ≤ demoCompanies.length ∧
    ∃ db, generate demoCategories demoCountries demoCompanies demoDraws = .ok db ∧
      (∀ a ∈ db.StockUnits, ∀ b ∈ db.StockUnits, a.Id < b.Id →
        a.StoreId < b.StoreId ∨ (a.StoreId = b.StoreId ∧ a.ProductId < b.ProductId)) ∧
      (db.StockUnits.map (fun u => (u.StoreId, u.ProductId))).Nodup ∧
      db.StockUnits.length ≤ db.Stores.length * db.Products.length :=
  ⟨by decide, generate_stockUnits_sorted demoCategories demoCountries demoCompanies demoDraws
    (by decide)⟩

/-! ## The stores -/

/-- The number of stores of a pair and the draws consumed, by the value of the first draw. -/
theorem storeCount_eq (r : Rand) :
    storeCount r = if r 0 % 3 = 2 then (2 + r 1 % 3, r.drop 2) else (r 0 % 3, r.drop 1) := by
  unfold storeCount Rand.uint64n
  rfl

/-- The stores appended for one (franchise, city) pair: as many as `storeCount` says, all
with the ids of the franchise and of the city. -/
theorem cityStep_block (franchise : Franchise) (city : City) (s : List Store × Rand) :
    ∃ block : List Store, (cityStep franchise s city).1 = s.1 ++ block ∧
      (cityStep franchise s city).2 = (storeCount s.2).2 ∧
      block.length = (storeCount s.2).1 ∧
      ∀ st ∈ block, st.FranchiseId = franchise.Id ∧ st.CityId = city.Id := by
  have h := storesLoop_range (fun n i =>
    ({ Id := n, FranchiseId := franchise.Id, CityId := city.Id,
       Name := storeName franchise city (storeCount s.2).1 i } : Store)) s.1 (storeCount s.2).1
  refine ⟨_, h, rfl, by simp, ?_⟩
  intro st hst
  obtain ⟨k, -, rfl⟩ := List.mem_map.1 hst
  exact ⟨rfl, rfl⟩

/-- The loop over the cities for one franchise keeps the table of stores sorted, when the
stores already there are not after the pairs to come. -/
theorem citiesFold_sorted (franchise : Franchise) :
    ∀ (cities : List City) (s : List Store × Rand),
      cities.Pairwise (fun a b => a.Id < b.Id) →
      s.1.Pairwise Store.keyLe →
      (∀ st ∈ s.1, ∀ c ∈ cities, st.FranchiseId < franchise.Id ∨
        (st.FranchiseId = franchise.Id ∧ st.CityId ≤ c.Id)) →
      (cities.foldl (cityStep franchise) s).1.Pairwise Store.keyLe ∧
      ∀ st ∈ (cities.foldl (cityStep franchise) s).1,
        st ∈ s.1 ∨ st.FranchiseId = franchise.Id := by
  intro cities
  induction cities with
  | nil => intro s _ hs _; exact ⟨hs, fun st h => Or.inl h⟩
  | cons c cs ih =>
    intro s hc hs hle
    obtain ⟨block, hb1, -, -, hb4⟩ := cityStep_block franchise c s
    rw [List.pairwise_cons] at hc
    have hs1 : (cityStep franchise s c).1.Pairwise Store.keyLe := by
      rw [hb1, List.pairwise_append]
      refine ⟨hs, ?_, ?_⟩
      · exact List.pairwise_of_forall_mem_list (fun a ha b hb =>
          Or.inr ⟨by rw [(hb4 a ha).1, (hb4 b hb).1], by rw [(hb4 a ha).2, (hb4 b hb).2]⟩)
      · intro a ha b hb
        rw [Store.keyLe, (hb4 b hb).1, (hb4 b hb).2]
        exact hle a ha c (List.mem_cons_self _ _)
    have hle1 : ∀ st ∈ (cityStep franchise s c).1, ∀ c1 ∈ cs, st.FranchiseId < franchise.Id ∨
        (st.FranchiseId = franchise.Id ∧ st.CityId ≤ c1.Id) := by
      intro st hst c1 hc1
      rw [hb1] at hst
      rcases List.mem_append.1 hst with h | h
      · exact hle st h c1 (List.mem_cons_of_mem _ hc1)
      · exact Or.inr ⟨(hb4 st h).1, by rw [(hb4 st h).2]; exact Nat.le_of_lt (hc.1 c1 hc1)⟩
    obtain ⟨ih1, ih2⟩ := ih (cityStep franchise s c) hc.2 hs1 hle1
    rw [List.foldl_cons]
    refine ⟨ih1, fun st hst => ?_⟩
    rcases ih2 st hst with h | h
    · rw [hb1] at h
      rcases List.mem_append.1 h with h | h
      · exact Or.inl h
      · exact Or.inr (hb4 st h).1
    · exact Or.inr h

/-- The loop over the franchises keeps the table of stores sorted, when the stores already
there belong to franchises with smaller ids. -/
theorem franchisesFold_sorted (cities : List City)
    (hc : cities.Pairwise (fun a b => a.Id < b.Id)) :
    ∀ (franchises : List Franchise) (s : List Store × Rand),
      franchises.Pairwise (fun a b => a.Id < b.Id) →
      s.1.Pairwise Store.keyLe →
      (∀ st ∈ s.1, ∀ f ∈ franchises, st.FranchiseId < f.Id) →
      (franchises.foldl (fun s franchise => cities.foldl (cityStep franchise) s) s).1.Pairwise
        Store.keyLe := by
  intro franchises
  induction franchises with
  | nil => intro s _ hs _; exact hs
  | cons f fs ih =>
    intro s hf hs hlt
    rw [List.pairwise_cons] at hf
    obtain ⟨h1, h2⟩ := citiesFold_sorted f cities s hc hs
      (fun st hst c _ => Or.inl (hlt st hst f (List.mem_cons_self _ _)))
    rw [List.foldl_cons]
    refine ih _ hf.2 h1 (fun st hst f1 hf1 => ?_)
    rcases h2 st hst with h | h
    · exact hlt st h f1 (List.mem_cons_of_mem _ hf1)
    · rw [h]; exact hf.1 f1 hf1

/-- The stores pass is one loop over the pairs. -/
theorem stores_fold (franchises : List Franchise) (cities : List City) (r : Rand) :
    storesLoop franchises cities r =
      (storePairs franchises cities).foldl (fun s p => cityStep p.1 s p.2) ([], r) := by
  unfold storesLoop storePairs
  rw [← foldl_flatMap_eq]
  congr 1
  funext s franchise
  rw [List.foldl_map]

/-- The loop over the pairs appends the slots of the pairs, numbered by the length of the
table. -/
theorem stores_slots : ∀ (pairs : List (Franchise × City)) (stores : List Store) (r : Rand),
    (pairs.foldl (fun s p => cityStep p.1 s p.2) (stores, r)).1 =
      (storeSlots pairs (specStoreCounts pairs r)).foldl
        (fun acc (x : Franchise × City × Nat × Nat) =>
          acc ++ [({ Id := acc.length, FranchiseId := x.1.Id, CityId := x.2.1.Id,
                     Name := storeName x.1 x.2.1 x.2.2.1 x.2.2.2 } : Store)]) stores := by
  intro pairs
  induction pairs with
  | nil => intro stores r; rfl
  | cons p pairs ih =>
    intro stores r
    rw [List.foldl_cons]
    have hstep : cityStep p.1 (stores, r) p.2 =
        (((List.range' 1 (storeCount r).1).map (fun i => (p.1, p.2, (storeCount r).1, i))).foldl
          (fun acc (x : Franchise × City × Nat × Nat) =>
            acc ++ [({ Id := acc.length, FranchiseId := x.1.Id, CityId := x.2.1.Id,
                       Name := storeName x.1 x.2.1 x.2.2.1 x.2.2.2 } : Store)]) stores,
          (storeCount r).2) := by
      unfold cityStep storesOfPair
      rw [List.foldl_map]
    rw [hstep, ih, storeCount_eq]
    unfold storeSlots
    by_cases h : r 0 % 3 = 2
    · simp only [specStoreCounts, if_pos h, List.zip_cons_cons, List.flatMap_cons,
        List.foldl_append]
    · simp only [specStoreCounts, if_neg h, List.zip_cons_cons, List.flatMap_cons,
        List.foldl_append]

/-- The table of stores in closed form. -/
theorem stores_eq_specStores (franchises : List Franchise) (cities : List City) (r : Rand) :
    (storesLoop franchises cities r).1 = specStores franchises cities r := by
  have h := foldl_numbered (fun k (x : Franchise × City × Nat × Nat) =>
      ({ Id := k, FranchiseId := x.1.Id, CityId := x.2.1.Id,
         Name := storeName x.1 x.2.1 x.2.2.1 x.2.2.2 } : Store))
    (storeSlots (storePairs franchises cities)
      (specStoreCounts (storePairs franchises cities) r)) []
  rw [stores_fold, stores_slots]
  exact h.trans (by simp [specStores, List.enum])

/-- Every pair has a count, which is at most 4. -/
theorem specStoreCounts_le : ∀ (pairs : List (Franchise × City)) (r : Rand),
    (specStoreCounts pairs r).length = pairs.length ∧ ∀ n ∈ specStoreCounts pairs r, n ≤ 4 := by
  intro pairs
  induction pairs with
  | nil => intro r; simp [specStoreCounts]
  | cons p pairs ih =>
    intro r
    have h0 := Nat.mod_lt (r 0) (show 0 < 3 by norm_num)
    have h1 := Nat.mod_lt (r 1) (show 0 < 3 by norm_num)
    unfold specStoreCounts
    split
    · refine ⟨by simp [(ih _).1], ?_⟩
      intro n hn
      rcases List.mem_cons.1 hn with rfl | hn
      · omega
      · exact (ih _).2 n hn
    · refine ⟨by simp [(ih _).1], ?_⟩
      intro n hn
      rcases List.mem_cons.1 hn with rfl | hn
      · omega
      · exact (ih _).2 n hn

/-- The (FranchiseId, CityId) keys of the stores in table order: for every pair in order, as
many copies of the ids of the pair as its count says. -/
theorem specStores_keys (franchises : List Franchise) (cities : List City) (r : Rand) :
    (specStores franchises cities r).map (fun s => (s.FranchiseId, s.CityId)) =
      ((storePairs franchises cities).zip
        (specStoreCounts (storePairs franchises cities) r)).flatMap
        (fun q => List.replicate q.2 (q.1.1.Id, q.1.2.Id)) := by
  unfold specStores storeSlots
  rw [List.map_map]
  have hf : ((fun s : Store => (s.FranchiseId, s.CityId)) ∘
      fun e : Nat × Franchise × City × Nat × Nat =>
        ({ Id := e.1, FranchiseId := e.2.1.Id, CityId := e.2.2.1.Id,
           Name := storeName e.2.1 e.2.2.1 e.2.2.2.1 e.2.2.2.2 } : Store)) =
      (fun x : Franchise × City × Nat × Nat => (x.1.Id, x.2.1.Id)) ∘ Prod.snd := rfl
  rw [hf, ← List.map_map, List.enum_map_snd, List.map_flatMap]
  congr 1
  funext q
  rw [List.map_map]
  have hc : ((fun x : Franchise × City × Nat × Nat => (x.1.Id, x.2.1.Id)) ∘
      fun i : Nat => (q.1.1, q.1.2, q.2, i)) = fun _ => (q.1.1.Id, q.1.2.Id) := rfl
  rw [hc, List.map_const', List.length_range']

/-- The number of (franchise, city) pairs. -/
theorem storePairs_length (franchises : List Franchise) (cities : List City) :
    (storePairs franchises cities).length = franchises.length * cities.length := by
  unfold storePairs
  induction franchises with
  | nil => simp
  | cons x xs ih =>
    rw [List.flatMap_cons, List.length_append, ih]
    simp [Nat.add_mul, Nat.add_comm]

/-- C13. For every parsed seed input with the two groups of the company source and every
stream of draws, `generate` returns a database whose table of stores is the one the
specification words: the (franchise, city) pairs are visited franchise by franchise and,
for each franchise, city by city; every pair consumes one draw from {0, 1, 2}, and a second
draw from {0, 1, 2} only when the first is 2; the pair gets no store when the first draw is
0, one store when it is 1, and `2 + e` stores when it is 2 and the second draw is `e`; the
stores are numbered in creation order. So every pair has a count, which is at most 4, the
(FranchiseId, CityId) keys of the stores are, in table order, count-many copies of the ids
of each pair in the order of the pairs, and the stores are, in id order, sorted by
(FranchiseId, CityId). The draws of the stores pass are the ones that follow the draws of
the products pass. -/
theorem stores_count_sorted (categories countries companies : List CoreData) (r : Rand)
    (h2 : 2 ≤ companies.length) :
    ∃ db, generate categories countries companies r = .ok db ∧
      db.Stores = specStores db.Franchises db.Cities
        (r.drop (productTriples db.Brands categories).length) ∧
      db.Stores.map (fun s => (s.FranchiseId, s.CityId)) =
        ((storePairs db.Franchises db.Cities).zip
          (specStoreCounts (storePairs db.Franchises db.Cities)
            (r.drop (productTriples db.Brands categories).length))).flatMap
          (fun q => List.replicate q.2 (q.1.1.Id, q.1.2.Id)) ∧
      (specStoreCounts (storePairs db.Franchises db.Cities)
        (r.drop (productTriples db.Brands categories).length)).length =
          db.Franchises.length * db.Cities.length ∧
      (∀ n ∈ specStoreCounts (storePairs db.Franchises db.Cities)
        (r.drop (productTriples db.Brands categories).length), n ≤ 4) ∧
      ∀ a ∈ db.Stores, ∀ b ∈ db.Stores, a.Id ≤ b.Id →
        a.FranchiseId < b.FranchiseId ∨
          (a.FranchiseId = b.FranchiseId ∧ a.CityId ≤ b.CityId) := by
  obtain ⟨db, h⟩ := generate_total categories countries companies r h2
  refine ⟨db, h, ?_⟩
  obtain ⟨-, hF, -, -, hCi, -, hS, -, -⟩ := generate_inv categories countries companies r db h
  obtain ⟨_, _, _, _, _, -, -, -, -, -, -, -, -, hSe, -, -, -, -⟩ :=
    generate_ok categories countries companies r db h
  have hr : (categoriesLoop db.Brands categories r).2.2 =
      r.drop (productTriples db.Brands categories).length := by
    have hp := foldl_pick (fun d => f64Lt (d % 2 ^ 53) c0_3)
      (fun k (t : Nat × Str × Brand) =>
        ({ Id := k, Name := t.2.1 ++ " | ".toList ++ t.2.2.Name,
           CategoryId := t.1, BrandId := t.2.2.Id } : Product))
      (productTriples db.Brands categories) ([], r)
    have hf : (categoriesLoop db.Brands categories r).2 = _ :=
      (products_fold db.Brands categories r).trans hp
    rw [hf]
  have hst : db.Stores = specStores db.Franchises db.Cities
      (r.drop (productTriples db.Brands categories).length) := by
    rw [hSe, hr, stores_eq_specStores]
  have hcount := specStoreCounts_le (storePairs db.Franchises db.Cities)
    (r.drop (productTriples db.Brands categories).length)
  refine ⟨hst, ?_, hcount.1.trans (storePairs_length _ _), hcount.2, ?_⟩
  · rw [hst, specStores_keys]
  · have hsorted := franchisesFold_sorted db.Cities (pairwise_id_lt db.Cities (·.Id) hCi.1)
      db.Franchises ([], (categoriesLoop db.Brands categories r).2.2)
      (pairwise_id_lt db.Franchises (·.Id) hF) List.Pairwise.nil (fun st hst => by cases hst)
    have hS1 : db.Stores.Pairwise Store.keyLe := by
      rw [hSe]
      exact hsorted
    intro a ha b hb hab
    exact rel_of_id_le db.Stores (·.Id) Store.keyLe (fun a => Or.inr ⟨rfl, le_rfl⟩) hS.1 hS1
      a b ha hb hab

/-- Witness of C13: two franchises and two cities, no product. The four pairs draw 1; 0;
2 and then 1; 2 and then 0: they get one store, none, three stores and two stores. -/
theorem stores_count_sorted_witness :
    2 ≤ pairsCompanies.length ∧
    (generate [] pairsCountries pairsCompanies pairsDraws).toOption.map
        (fun db => db.Stores.map (fun s => (s.Id, s.FranchiseId, s.CityId))) =
      some [(0, 0, 0), (1, 1, 0), (2, 1, 0), (3, 1, 0), (4, 1, 1), (5, 1, 1)] ∧
    ∃ db, generate [] pairsCountries pairsCompanies pairsDraws = .ok db ∧
      db.Stores = specStores db.Franchises db.Cities
        (pairsDraws.drop (productTriples db.Brands []).length) ∧
      db.Stores.map (fun s => (s.FranchiseId, s.CityId)) =
        ((storePairs db.Franchises db.Cities).zip
          (specStoreCounts (storePairs db.Franchises db.Cities)
            (pairsDraws.drop (productTriples db.Brands []).length))).flatMap
          (fun q => List.replicate q.2 (q.1.1.Id, q.1.2.Id)) ∧
      (specStoreCounts (storePairs db.Franchises db.Cities)
        (pairsDraws.drop (productTriples db.Brands []).length)).length =
          db.Franchises.length * db.Cities.length ∧
      (∀ n ∈ specStoreCounts (storePairs db.Franchises db.Cities)
        (pairsDraws.drop (productTriples db.Brands []).length), n ≤ 4) ∧
      ∀ a ∈ db.Stores, ∀ b ∈ db.Stores, a.Id ≤ b.Id →
        a.FranchiseId < b.FranchiseId ∨
          (a.FranchiseId = b.FranchiseId ∧ a.CityId ≤ b.CityId) :=
  ⟨by decide, by decide, stores_count_sorted [] pairsCountries pairsCompanies pairsDraws
    (by decide)⟩

/-! ## Prices of the transactions -/

theorem adjustedPrice_result_ge (r : Rand) (price : Int) (p : Int) (r1 : Rand)
    (h : adjustedPrice r price = .ok (p, r1)) : 100 ≤ p ∧ p < 2 ^ 63 := by
  obtain ⟨d, hd⟩ := adjustedPrice_ok r price
  rw [hd] at h
  injection h with h
  injection h with h _
  rw [← h]
  have hw := wrapInt64_range (price + d)
  unfold MIN_PRICE
  split <;> omega

theorem cacheOk_set (cache : IntMap) (k : Nat) (p : Int) (h : CacheOk cache)
    (hp : 100 ≤ p ∧ p < 2 ^ 63) : CacheOk (cache.set k p) := by
  intro j q hq
  unfold IntMap.set at hq
  split at hq
  · cases hq; exact hp
  · exact h j q hq

/-- The body of the inner loop keeps the invariant on prices. -/
theorem txStep_priceInv (stockUnits : List StockUnit) (basePrice : IntMap) (date : SimpleDate)
    (st : TxState) (stockUnitId : Nat) (st1 : TxState) (h : PriceInv st)
    (hs : txStep stockUnits basePrice date st stockUnitId = .ok st1) : PriceInv st1 := by
  unfold txStep at hs
  by_cases hf : f64Lt st.r.Float64.1 c0_9 = true
  · rw [if_pos hf] at hs
    cases hs
    exact h
  · rw [if_neg hf] at hs
    cases hu : stockUnits[stockUnitId]? with
    | none => rw [hu] at hs; cases hs
    | some stockUnit =>
      rw [hu] at hs
      simp only at hs
      obtain ⟨p0, cache0, r0, hseed, hc0, hcase0⟩ :=
        seedPrice_ok basePrice stockUnit stockUnitId st.currentStockPrice st.r.Float64.2
      rw [hseed] at hs
      simp only at hs
      obtain ⟨p, cache1, r1, hwalk, hc1, hcase1⟩ :=
        walkPrice_ok stockUnit stockUnitId p0 cache0 r0 hc0
      rw [hwalk] at hs
      simp only at hs
      cases hs
      have hok0 : CacheOk cache0 := by
        rcases hcase0 with ⟨-, rfl, -⟩ | ⟨-, rfl, ha⟩
        · exact h.1
        · exact cacheOk_set _ _ _ h.1 (adjustedPrice_result_ge _ _ _ _ ha)
      have hok1 : CacheOk cache1 := by
        rcases hcase1 with ⟨-, rfl, ha⟩ | ⟨-, -, rfl, -⟩
        · exact cacheOk_set _ _ _ hok0 (adjustedPrice_result_ge _ _ _ _ ha)
        · exact hok0
      refine ⟨hok1, ?_⟩
      intro t ht
      unfold emit at ht
      simp only at ht
      rcases List.mem_append.1 ht with ht | ht
      · exact h.2 t ht
      · rw [List.mem_singleton.1 ht]
        have hp := hok1 _ _ hc1
        have hcount : (r1.uint64n 10).1 < 10 := Nat.mod_lt _ (by norm_num)
        exact ⟨by simp only; omega, p, hp.1, hp.2, rfl⟩

/-- The transaction pass of a run of `generate` that returns, from its first state. -/
theorem generate_tx (categories countries companies : List CoreData) (r : Rand)
    (db : Database) (h : generate categories countries companies r = .ok db) :
    ∃ basePrice r0 st1,
      daysLoop db.StockUnits basePrice simulationDays
        { r := r0, currentStockPrice := IntMap.empty, StockTransactions := [] } = .ok st1 ∧
      db.StockTransactions = st1.StockTransactions := by
  unfold generate at h
  cases h0 : companies[0]? with
  | none => rw [h0] at h; cases h
  | some c0 =>
    cases h1 : companies[1]? with
    | none => rw [h0, h1] at h; cases h
    | some c1 =>
      rw [h0, h1] at h
      simp only at h
      rw [dateLoop_startDate] at h
      split at h
      · cases h
      · rename_i tx htx
        cases h
        exact ⟨_, _, tx, htx, rfl⟩

/-- The transaction pass keeps every invariant that the body of the inner loop keeps and
that does not depend on the generator. -/
theorem daysLoop_keeps (stockUnits : List StockUnit) (basePrice : IntMap) (P : TxState → Prop)
    (hr : ∀ st r1, P st → P { st with r := r1 })
    (hstep : ∀ date st id st1, id < stockUnits.length → P st →
      txStep stockUnits basePrice date st id = .ok st1 → P st1)
    (st st1 : TxState) (h : P st)
    (hrun : daysLoop stockUnits basePrice simulationDays st = .ok st1) : P st1 := by
  obtain ⟨st2, h2, hP⟩ := daysLoop_inv stockUnits basePrice (fun _ st => P st) simulationDays 0 st
    (fun j s st3 _ hP3 => dayStep_inv stockUnits basePrice s P st3 (fun r1 => hr st3 r1)
      (hstep s) hP3) h
  rw [hrun] at h2
  cases h2
  exact hP

/-- C20 (amended). For every parsed seed input with the two groups of the company source
and every stream of draws, `generate` returns a database in which every transaction has a
count between 0 and 9 and, as total price, the 64-bit product of the count and a unit price
`p` that is at least 100 (and below `2^63`). Whenever the product `Count * p` is below
`2^63` the total is that product: it is at least 100 times the count, not negative, and 0
only when the count is 0. -/
theorem generate_totalPrice_ge (categories countries companies : List CoreData) (r : Rand)
    (h2 : 2 ≤ companies.length) :
    ∃ db, generate categories countries companies r = .ok db ∧
      ∀ t ∈ db.StockTransactions, 0 ≤ t.Count ∧ t.Count ≤ 9 ∧
        ∃ p : Int, 100 ≤ p ∧ p < 2 ^ 63 ∧ t.TotalPrice = wrapInt64 ((t.Count : Int) * p) ∧
          ((t.Count : Int) * p < 2 ^ 63 →
            t.TotalPrice = (t.Count : Int) * p ∧ 100 * (t.Count : Int) ≤ t.TotalPrice ∧
            0 ≤ t.TotalPrice ∧ (t.TotalPrice = 0 → t.Count = 0)) := by
  obtain ⟨db, h⟩ := generate_total categories countries companies r h2
  refine ⟨db, h, ?_⟩
  obtain ⟨bp, r0, st1, hrun, htx⟩ := generate_tx categories countries companies r db h
  have hinv := daysLoop_keeps db.StockUnits bp PriceInv (fun _ _ hP => hP)
    (fun date st id st1 _ hP hs => txStep_priceInv db.StockUnits bp date st id st1 hP hs)
    _ st1 ⟨fun k q hq => by simp [IntMap.empty] at hq, fun t ht => by cases ht⟩ hrun
  intro t ht
  rw [htx] at ht
  obtain ⟨hc, p, hp1, hp2, hp⟩ := hinv.2 t ht
  have h0 : (0 : Int) ≤ (t.Count : Int) := Int.natCast_nonneg _
  refine ⟨Nat.zero_le _, hc, p, hp1, hp2, hp, fun hlt => ?_⟩
  have hnn : 0 ≤ (t.Count : Int) * p := by positivity
  have hle : 100 * (t.Count : Int) ≤ (t.Count : Int) * p := by nlinarith
  rw [hp, wrapInt64_eq _ (by omega) hlt]
  exact ⟨rfl, hle, hnn, fun hz => by omega⟩

/-- Witness of C20: the run on the small sources. -/
theorem generate_totalPrice_ge_witness :
    2 ≤ demoCompanies.length ∧
    ∃ db, generate demoCategories demoCountries demoCompanies demoDraws = .ok db ∧
      ∀ t ∈ db.StockTransactions, 0 ≤ t.Count ∧ t.Count ≤ 9 ∧
        ∃ p : Int, 100 ≤ p ∧ p < 2 ^ 63 ∧ t.TotalPrice = wrapInt64 ((t.Count : Int) * p) ∧
          ((t.Count : Int) * p < 2 ^ 63 →
            t.TotalPrice = (t.Count : Int) * p ∧ 100 * (t.Count : Int) ≤ t.TotalPrice ∧
            0 ≤ t.TotalPrice ∧ (t.TotalPrice = 0 → t.Count = 0)) :=
  ⟨by decide, generate_totalPrice_ge demoCategories demoCountries demoCompanies demoDraws
    (by decide)⟩

/-! ## One transaction per day and stock unit -/

/-- Swapping two entries of a list permutes it. -/
theorem swapAt_perm (p : List Nat) (i j : Nat) (hi : i < p.length) (hj : j < p.length) :
    (swapAt p i j).Perm p := by
  rw [List.perm_iff_count]
  intro b
  unfold swapAt
  rw [List.getD_eq_getElem _ _ hi, List.getD_eq_getElem _ _ hj,
    List.count_set _ _ _ _ (by simpa using hj), List.count_set _ _ _ _ hi, List.getElem_set]
  have hci : p[i] = b → 0 < p.count b := fun h =>
    List.count_pos_iff.2 (h ▸ List.getElem_mem hi)
  have hcj : p[j] = b → 0 < p.count b := fun h =>
    List.count_pos_iff.2 (h ▸ List.getElem_mem hj)
  by_cases h1 : p[i] = b <;> by_cases h2 : p[j] = b <;> by_cases h3 : i = j <;>
    simp [h1, h2, h3] <;> omega

theorem shuffleLoop_perm :
    ∀ (i : Nat) (s : List Nat × Rand), i < s.1.length ∨ i = 0 → (shuffleLoop i s).1.Perm s.1 := by
  intro i
  induction i with
  | zero => intro s _; simp [shuffleLoop]
  | succ i ih =>
    intro s h
    obtain ⟨p, r⟩ := s
    have hi : i + 1 < p.length := by
      rcases h with h | h
      · exact h
      · omega
    have hj : (r.uint64n (i + 2)).1 < p.length := by
      have := Nat.mod_lt (r 0) (show 0 < i + 2 by omega)
      simp only [Rand.uint64n]
      omega
    unfold shuffleLoop
    have hsw := swapAt_perm p (i + 1) (r.uint64n (i + 2)).1 hi hj
    exact (ih _ (Or.inl (by rw [hsw.length_eq]; omega))).trans hsw

/-- The list `r.Perm(n)` is a permutation of `0, .., n - 1`. -/
theorem perm_is_perm (r : Rand) (n : Nat) : (r.Perm n).1.Perm (List.range n) := by
  unfold Rand.Perm
  refine shuffleLoop_perm (n - 1) (List.range n, r) ?_
  simp only [List.length_range]
  omega

/-- The transactions the inner loop appends: dated on the day of the loop, for stock units
that form a subsequence of the indices iterated over. -/
theorem txLoop_block (stockUnits : List StockUnit) (basePrice : IntMap) (date : SimpleDate) :
    ∀ (ids : List Nat) (st : TxState), (∀ id ∈ ids, id < stockUnits.length) →
      ∃ st1 block, txLoop stockUnits basePrice date ids st = .ok st1 ∧
        st1.StockTransactions = st.StockTransactions ++ block ∧
        (block.map (·.StockUnitId)).Sublist ids ∧ ∀ t ∈ block, t.Date = date := by
  intro ids
  induction ids with
  | nil => intro st _; exact ⟨st, [], rfl, by simp, List.Sublist.slnil, by simp⟩
  | cons id ids ih =>
    intro st hids
    obtain ⟨st1, h1, hc⟩ := txStep_cases stockUnits basePrice date st id
      (hids id (List.mem_cons_self _ _))
    obtain ⟨st2, block, h2, hb1, hb2, hb3⟩ := ih st1
      (fun x hx => hids x (List.mem_cons_of_mem _ hx))
    unfold txLoop
    rw [h1]
    simp only
    rcases hc with ⟨-, ht, -⟩ | ⟨-, count, p, -, -, ht⟩
    · exact ⟨st2, block, h2, by rw [hb1, ht], hb2.cons id, hb3⟩
    · refine ⟨st2, (⟨st.StockTransactions.length, id, true, count, wrapInt64 ((count : Int) * p),
          date⟩ :
          StockTransaction) :: block, h2, by rw [hb1, ht]; simp, ?_, ?_⟩
      · simp only [List.map_cons]
        exact hb2.cons₂ id
      · intro t ht1
        rcases List.mem_cons.1 ht1 with h | h
        · rw [h]
        · exact hb3 t h

/-- The transactions one day appends: dated on that day, for pairwise distinct stock units. -/
theorem dayStep_block (stockUnits : List StockUnit) (basePrice : IntMap) (s : SimpleDate)
    (st : TxState) :
    ∃ st1 block, dayStep stockUnits basePrice s st = .ok st1 ∧
      st1.StockTransactions = st.StockTransactions ++ block ∧
      (block.map (·.StockUnitId)).Nodup ∧ block.length ≤ stockUnits.length ∧
      ∀ t ∈ block, t.Date = s := by
  unfold dayStep
  obtain ⟨st1, block, h1, h2, h3, h4⟩ := txLoop_block stockUnits basePrice s
    (st.r.Perm stockUnits.length).1 { st with r := (st.r.Perm stockUnits.length).2 }
    (perm_bound st.r stockUnits.length)
  have hperm := perm_is_perm st.r stockUnits.length
  refine ⟨st1, block, h1, h2, ?_, ?_, h4⟩
  · exact ((hperm.nodup_iff).2 (List.nodup_range _)).sublist h3
  · have := h3.length_le
    rw [List.length_map, hperm.length_eq, List.length_range] at this
    exact this

/-- The transaction pass keeps the invariant on days and stock units. -/
theorem daysLoop_dayInv (stockUnits : List StockUnit) (basePrice : IntMap) (st st1 : TxState)
    (h : st.StockTransactions = [])
    (hrun : daysLoop stockUnits basePrice simulationDays st = .ok st1) :
    DayInv stockUnits.length 10 st1.StockTransactions := by
  have hinit : DayInv stockUnits.length 0 st.StockTransactions := by
    rw [h]
    exact ⟨by simp, by simp, by simp⟩
  have hstep : ∀ j s st3, simulationDays[j]? = some s →
      DayInv stockUnits.length (0 + j) st3.StockTransactions →
      ∃ st4, dayStep stockUnits basePrice s st3 = .ok st4 ∧
        DayInv stockUnits.length (0 + j + 1) st4.StockTransactions := by
    intro j s st3 hj hP3
    obtain ⟨-, rfl⟩ := simulationDays_getElem? j s hj
    obtain ⟨st4, block, hb1, hb2, hb3, hb4, hb5⟩ := dayStep_block stockUnits basePrice
      { Year := 2020, Month := 1, Day := j + 1 } st3
    refine ⟨st4, hb1, ?_⟩
    simp only [Nat.zero_add] at hP3 ⊢
    obtain ⟨hn, hl, hd⟩ := hP3
    rw [hb2]
    refine ⟨?_, ?_, ?_⟩
    · rw [List.map_append, List.nodup_append]
      refine ⟨hn, ?_, ?_⟩
      · have : block.map (fun t => (t.Date, t.StockUnitId)) =
            (block.map (·.StockUnitId)).map
              (fun u => (({ Year := 2020, Month := 1, Day := j + 1 } : SimpleDate), u)) := by
          rw [List.map_map]
          exact List.map_congr_left (fun t ht => by simp [hb5 t ht])
        rw [this]
        exact hb3.map (fun a b hab => by simpa using hab)
      · intro key h1 h2
        obtain ⟨a, ha, rfl⟩ := List.mem_map.1 h1
        obtain ⟨b, hb, hab⟩ := List.mem_map.1 h2
        have hda := hd a ha
        have hdb := hb5 b hb
        simp only [Prod.mk.injEq] at hab
        rw [← hab.1, hdb] at hda
        simp at hda
    · rw [List.length_append, Nat.add_mul, Nat.one_mul]
      omega
    · intro t ht
      rcases List.mem_append.1 ht with ht | ht
      · exact Nat.le_succ_of_le (hd t ht)
      · rw [hb5 t ht]
  obtain ⟨st2, h2, hP⟩ := daysLoop_inv stockUnits basePrice
    (fun j st => DayInv stockUnits.length j st.StockTransactions) simulationDays 0 st hstep hinit
  rw [hrun] at h2
  cases h2
  simpa [simulationDays] using hP

/-- In a list whose keys are pairwise distinct at most one element has a given key. -/
theorem countP_le_one_of_nodup_map {α β : Type} [DecidableEq β] (f : α → β) (k : β) :
    ∀ l : List α, (l.map f).Nodup → l.countP (fun t => decide (f t = k)) ≤ 1 := by
  intro l
  induction l with
  | nil => intro _; simp
  | cons x xs ih =>
    intro hn
    rw [List.map_cons, List.nodup_cons] at hn
    rw [List.countP_cons]
    by_cases hx : f x = k
    · have h0 : xs.countP (fun t => decide (f t = k)) = 0 := by
        rw [List.countP_eq_zero]
        intro t ht
        simp only [decide_eq_true_eq]
        intro htk
        exact hn.1 (List.mem_map.2 ⟨t, ht, htk.trans hx.symm⟩)
      simp [hx, h0]
    · have := ih hn.2
      simp [hx, this]

/-- C18. For every parsed seed input with the two groups of the company source and every
stream of draws, `generate` returns a database in which, for every day and every stock
unit, at most one transaction has that date and that `StockUnitId`; so there are at most 10
times as many transactions as stock units. -/
theorem generate_one_per_day (categories countries companies : List CoreData) (r : Rand)
    (h2 : 2 ≤ companies.length) :
    ∃ db, generate categories countries companies r = .ok db ∧
      (∀ (d : SimpleDate) (u : Nat),
        db.StockTransactions.countP (fun t => decide (t.Date = d ∧ t.StockUnitId = u)) ≤ 1) ∧
      db.StockTransactions.length ≤ 10 * db.StockUnits.length := by
  obtain ⟨db, h⟩ := generate_total categories countries companies r h2
  refine ⟨db, h, ?_⟩
  obtain ⟨bp, r0, st1, hrun, htx⟩ := generate_tx categories countries companies r db h
  obtain ⟨hn, hl, -⟩ := daysLoop_dayInv db.StockUnits bp _ st1 rfl hrun
  rw [← htx] at hn hl
  refine ⟨fun d u => ?_, hl⟩
  have hc := countP_le_one_of_nodup_map (fun t : StockTransaction => (t.Date, t.StockUnitId))
    (d, u) db.StockTransactions hn
  refine le_trans (le_of_eq ?_) hc
  apply List.countP_congr
  intro t _
  simp only [Prod.mk.injEq]

/-- Witness of C18: the run on the small sources. -/
theorem generate_one_per_day_witness :
    2 ≤ demoCompanies.length ∧
    ∃ db, generate demoCategories demoCountries demoCompanies demoDraws = .ok db ∧
      (∀ (d : SimpleDate) (u : Nat),
        db.StockTransactions.countP (fun t => decide (t.Date = d ∧ t.StockUnitId = u)) ≤ 1) ∧
      db.StockTransactions.length ≤ 10 * db.StockUnits.length :=
  ⟨by decide, generate_one_per_day demoCategories demoCountries demoCompanies demoDraws
    (by decide)⟩

/-! ## The half-range of the adjustment -/

theorem excessBits_small (n : Nat) (h : n < 2 ^ 53) : excessBits n n = 0 := by
  cases n with
  | zero => rfl
  | succ k => unfold excessBits; rw [if_pos h]

theorem roundSig53_small (n : Nat) (h : n < 2 ^ 53) : roundSig53 n = n := by
  unfold roundSig53
  rw [excessBits_small n h]
  simp [Nat.mod_one]

/-- Below the price 7505999378950833 the binary64 product truncates to 15% of the price. -/
theorem roundSig53_mul_15 (p : Nat) (h1 : 2000 < p) (h2 : p < 7505999378950833) :
    roundSig53 (p * 5404319552844595) / 2 ^ 55 = 15 * p / 100 := by
  obtain ⟨hs1, hs2⟩ := excessBits_spec (p * 5404319552844595) (p * 5404319552844595) le_rfl
  unfold roundSig53
  simp only
  generalize excessBits (p * 5404319552844595) (p * 5404319552844595) = e at hs1 hs2 ⊢
  have he1 : 11 ≤ e := by
    by_contra hlt
    have h10 : e ≤ 10 := by omega
    have hpow : 2 ^ e ≤ 2 ^ 10 := Nat.pow_le_pow_right (by norm_num) h10
    rw [Nat.div_lt_iff_lt_mul (by positivity)] at hs1
    have : (2:Nat) ^ 53 * 2 ^ e ≤ 2 ^ 53 * 2 ^ 10 := Nat.mul_le_mul_left _ hpow
    norm_num at this
    omega
  have he2 : e ≤ 53 := by
    by_contra hlt
    have h54 : 54 ≤ e := by omega
    have hpow : 2 ^ 54 ≤ 2 ^ e := Nat.pow_le_pow_right (by norm_num) h54
    have h0 := hs2 (by omega)
    rw [Nat.le_div_iff_mul_le (by positivity)] at h0
    have : (2:Nat) ^ 52 * 2 ^ 54 ≤ 2 ^ 52 * 2 ^ e := Nat.mul_le_mul_left _ hpow
    norm_num at this
    omega
  have hs3 := hs2 (by omega)
  clear hs2
  by_cases h53 : e = 53
  · subst h53
    have hlow : 7505999378950827 ≤ p := by
      rw [Nat.le_div_iff_mul_le (by positivity)] at hs3
      norm_num at hs3
      omega
    clear hs1 hs3
    interval_cases p <;> decide
  · have he3 : e ≤ 52 := by omega
    clear he2 h53
    interval_cases e <;> norm_num at hs1 hs3 ⊢ <;> split_ifs <;> omega

theorem f64MulTrunc_eq_spec (price : Int) (h1 : 2000 < price) (h2 : price < 7505999378950833) :
    f64MulTrunc price c0_15 = 15 * price / 100 := by
  unfold f64MulTrunc c0_15
  simp only
  have hp : (price.toNat : Int) = price := Int.toNat_of_nonneg (by omega)
  rw [roundSig53_small price.toNat (by norm_num; omega),
    roundSig53_mul_15 price.toNat (by omega) (by omega)]
  omega

/-- C12 (amended). For every price from `-2^63 + 2` up to, but not including,
7505999378950833 and every stream of draws, with the half-range `h` equal to 2 when the
price is at most 2000 and to 15% of the price truncated to an integer above, and `d` the
draw reduced into `[0, 2h)`: `2h` is positive, `adjustedPrice` returns
`max(100, price + d - h)` and consumes one draw, and the adjustment `d - h` lies in
`[-h, +h)`. -/
theorem adjustedPrice_eq_spec (r : Rand) (price : Int) (hlo : -2 ^ 63 + 2 ≤ price)
    (hp : price < 7505999378950833) :
    0 < specHalfRange price ∧
    adjustedPrice r price = .ok (max 100 (price +
      (((r 0 % (2 * specHalfRange price).toNat : Nat) : Int) - specHalfRange price)), r.tail) ∧
    -specHalfRange price ≤
      ((r 0 % (2 * specHalfRange price).toNat : Nat) : Int) - specHalfRange price ∧
    ((r 0 % (2 * specHalfRange price).toNat : Nat) : Int) - specHalfRange price <
      specHalfRange price := by
  have hh : (if price > 2000 then f64MulTrunc price c0_15 else 2) = specHalfRange price := by
    unfold specHalfRange
    split
    · exact f64MulTrunc_eq_spec price (by assumption) hp
    · rfl
  have hpos : 0 < specHalfRange price := by
    unfold specHalfRange
    split <;> omega
  have hd : ((r 0 % (2 * specHalfRange price).toNat : Nat) : Int) < 2 * specHalfRange price := by
    have h1 : 0 < (2 * specHalfRange price).toNat := by omega
    have h2 := Nat.mod_lt (r 0) h1
    omega
  refine ⟨hpos, ?_, by omega, by omega⟩
  unfold adjustedPrice Rand.IntN
  simp only [hh]
  have hn : ¬ (specHalfRange price + specHalfRange price ≤ 0) := by omega
  rw [if_neg hn]
  simp only [Rand.uint64n, MIN_PRICE]
  have e2 : specHalfRange price + specHalfRange price = 2 * specHalfRange price := by ring
  rw [e2]
  have hb : -2 ^ 63 ≤ price - specHalfRange price ∧ price + specHalfRange price < 2 ^ 63 := by
    unfold specHalfRange
    split <;> omega
  have h0 : (0 : Int) ≤ ((r 0 % (2 * specHalfRange price).toNat : Nat) : Int) :=
    Int.natCast_nonneg _
  rw [wrapInt64_eq _ (by omega) (by omega)]
  split_ifs with hlt
  · rw [max_eq_left (by omega)]
  · rw [max_eq_right (by omega)]

/-- Witness of C12: the price 5000 and the draw 2. -/
theorem adjustedPrice_eq_spec_witness :
    (-2 ^ 63 + 2 : Int) ≤ 5000 ∧ (5000 : Int) < 7505999378950833 ∧
    0 < specHalfRange 5000 ∧
    adjustedPrice (fun _ => 2) 5000 = .ok (max 100 (5000 +
      ((((fun _ => 2 : Rand) 0 % (2 * specHalfRange 5000).toNat : Nat) : Int) -
        specHalfRange 5000)), Rand.tail (fun _ => 2)) ∧
    -specHalfRange 5000 ≤
      (((fun _ => 2 : Rand) 0 % (2 * specHalfRange 5000).toNat : Nat) : Int) -
        specHalfRange 5000 ∧
    (((fun _ => 2 : Rand) 0 % (2 * specHalfRange 5000).toNat : Nat) : Int) -
      specHalfRange 5000 < specHalfRange 5000 :=
  ⟨by decide, by decide, adjustedPrice_eq_spec (fun _ => 2) 5000 (by decide) (by decide)⟩

/-- Counterexample of C12. At the price 7505999378950833 (and the draw 0) the half-range of
`adjustedPrice` is 1125899906842625, one more than 15% of the price truncated, and the
price returned is not `max(100, price + d - h)`. At the least price `-2^63` (and the draw
0) the sum `price + d - h` wraps around: the price returned is `2^63 - 2`, not
`max(100, price + d - h) = 100`; so it is at the price `-2^63 + 1`, where `2^63 - 1` is
returned. -/
theorem adjustedPrice_ne_spec :
    (adjustedPrice (fun _ => 0) (-2 ^ 63)).toOption.map (·.1) = some (2 ^ 63 - 2) ∧
    max 100 ((-2 ^ 63 : Int) +
      ((((fun _ => 0 : Rand) 0 % (2 * specHalfRange (-2 ^ 63)).toNat : Nat) : Int) -
        specHalfRange (-2 ^ 63))) = 100 ∧
    (adjustedPrice (fun _ => 0) (-2 ^ 63 + 1)).toOption.map (·.1) = some (2 ^ 63 - 1) ∧
    max 100 ((-2 ^ 63 + 1 : Int) +
      ((((fun _ => 0 : Rand) 0 % (2 * specHalfRange (-2 ^ 63 + 1)).toNat : Nat) : Int) -
        specHalfRange (-2 ^ 63 + 1))) = 100 ∧
    f64MulTrunc 7505999378950833 c0_15 = 1125899906842625 ∧
    specHalfRange 7505999378950833 = 1125899906842624 ∧
    (adjustedPrice (fun _ => 0) 7505999378950833).toOption.map (·.1) ≠
      some (max 100 (7505999378950833 +
        ((((fun _ => 0 : Rand) 0 % (2 * specHalfRange 7505999378950833).toNat : Nat) : Int) -
          specHalfRange 7505999378950833))) := by
  decide

/-! ## Parsing rendered groups -/

theorem dropWhile_eq_self {p : Char → Bool} (l : Str) (h : l.head?.any p = false) :
    l.dropWhile p = l := by
  cases l with
  | nil => rfl
  | cons c t =>
    simp only [List.head?_cons, Option.any_some] at h
    rw [List.dropWhile_cons, h]
    rfl

theorem trimSpace_clean (l : Str) (h : CleanLine l) : TrimSpace l = l := by
  obtain ⟨-, -, h3, h4⟩ := h
  unfold TrimSpace
  rw [dropWhile_eq_self l h3, dropWhile_eq_self l.reverse (by rw [List.head?_reverse]; exact h4),
    List.reverse_reverse]

theorem dropCR_clean (l : Str) (h : CleanLine l) : dropCR l = l := by
  obtain ⟨-, -, -, h4⟩ := h
  unfold dropCR
  rw [if_neg]
  intro hcr
  rw [hcr] at h4
  revert h4
  decide

/-! ## The seed loader: lines, the limit of the scanner, and rendered groups -/

/-- The bytes of a concatenation. -/
theorem byteLen_append (a b : Str) : byteLen (a ++ b) = byteLen a + byteLen b := by
  induction a with
  | nil => simp [byteLen]
  | cons c t ih => simp [byteLen, ih, Nat.add_assoc]

/-- The carriage return `dropCR` drops is white space: trimming makes no difference. -/
theorem trimSpace_dropCR (l : Str) : TrimSpace (dropCR l) = TrimSpace l := by
  unfold dropCR
  split
  · rename_i h
    obtain ⟨t, rfl⟩ : ∃ t, l = t ++ [Char.ofNat 13] := by
      rcases List.eq_nil_or_concat l with rfl | ⟨t, c, rfl⟩
      · simp at h
      · simp at h
        exact ⟨t, by rw [h]; simp⟩
    rw [List.dropLast_concat]
    unfold TrimSpace
    rw [List.dropWhile_append]
    split
    · rename_i he
      have : List.dropWhile isSpace t = [] := by simpa using he
      rw [this]
      decide
    · rw [List.reverse_append, List.reverse_singleton, List.singleton_append,
        List.dropWhile_cons_of_pos (by decide)]
  · rfl

/-- The scanned lines, trimmed, are the lines of the text before the first line of
`MaxScanTokenSize` bytes or more, trimmed; the text lines can have one more blank line at
the end. -/
theorem scan_trimmed : ∀ (cs cur : Str), byteLen cur < MaxScanTokenSize →
    ∃ blank : List Str, (blank = [] ∨ blank = [[]]) ∧
      (scanLinesFrom cs cur).map TrimSpace ++ blank =
        ((((cs.splitOnP (fun c => c == Char.ofNat 10)).modifyHead (fun s => cur ++ s)).takeWhile
          (fun l => decide (byteLen l < MaxScanTokenSize))).map TrimSpace) := by
  intro cs
  induction cs with
  | nil =>
    intro cur hcur
    by_cases hc : cur = []
    · subst hc
      exact ⟨[[]], Or.inr rfl, by simp [scanLinesFrom, hcur]; rfl⟩
    · exact ⟨[], Or.inl rfl, by simp [scanLinesFrom, hc, hcur, trimSpace_dropCR]⟩
  | cons c cs ih =>
    intro cur hcur
    obtain ⟨seg, rest, hsplit⟩ : ∃ seg rest,
        cs.splitOnP (fun c => c == Char.ofNat 10) = seg :: rest := by
      cases h : cs.splitOnP (fun c => c == Char.ofNat 10) with
      | nil => exact absurd h (List.splitOnP_ne_nil _ _)
      | cons seg rest => exact ⟨seg, rest, rfl⟩
    by_cases hnl : c = Char.ofNat 10
    · subst hnl
      obtain ⟨blank, hb, h⟩ := ih [] (by decide)
      refine ⟨blank, hb, ?_⟩
      rw [hsplit] at h
      simp only [List.modifyHead_cons, List.nil_append] at h
      rw [scanLinesFrom, if_pos rfl, List.splitOnP_cons, hsplit]
      simp only [beq_self_eq_true, if_true, List.modifyHead_cons, List.append_nil,
        List.map_cons, List.cons_append, trimSpace_dropCR]
      rw [List.takeWhile_cons_of_pos (by simpa using hcur), List.map_cons, h]
    · have hb : (c == Char.ofNat 10) = false := by simpa using hnl
      rw [scanLinesFrom, if_neg hnl, List.splitOnP_cons, hsplit]
      simp only [hb, Bool.false_eq_true, if_false, List.modifyHead_cons]
      by_cases hlong : MaxScanTokenSize ≤ byteLen (cur ++ [c])
      · rw [if_pos hlong]
        refine ⟨[], Or.inl rfl, ?_⟩
        rw [List.takeWhile_cons_of_neg]
        · rfl
        · have : byteLen (cur ++ c :: seg) = byteLen (cur ++ [c]) + byteLen seg := by
            rw [← byteLen_append]; simp
          simp only [decide_eq_true_eq]
          omega
      · rw [if_neg hlong]
        obtain ⟨blank, hb1, h⟩ := ih (cur ++ [c]) (by omega)
        refine ⟨blank, hb1, ?_⟩
        rw [hsplit] at h
        simpa using h

/-- A blank line at the end of the text does not change the groups. -/
theorem finish_blank (st : ParseState) : (parseTrimmed st []).finish = st.finish := by
  unfold parseTrimmed ParseState.finish
  by_cases hc : st.currentCategory.Category = [] <;> simp [hc]

theorem parseBuffer_eq_trimmed (buffer : Str) :
    parseBuffer buffer =
      (((scanLines buffer).map TrimSpace).foldl parseTrimmed ⟨[], ⟨[], []⟩⟩).finish := by
  unfold parseBuffer ParseState.finish
  rw [List.foldl_map]
  rfl

/-- The groups `parseBuffer` returns are the groups of the lines of the text before its
first line of `MaxScanTokenSize` bytes or more. -/
theorem parseBuffer_eq_takeWhile (buffer : Str) :
    parseBuffer buffer = specGroups ((textLines buffer).takeWhile
      (fun l => decide (byteLen l < MaxScanTokenSize))) := by
  obtain ⟨blank, hb, h⟩ := scan_trimmed buffer [] (by decide)
  have hmod : ((buffer.splitOnP (fun c => c == Char.ofNat 10)).modifyHead (fun s => [] ++ s)) =
      textLines buffer := by
    unfold textLines
    cases buffer.splitOnP (fun c => c == Char.ofNat 10) <;> simp
  rw [hmod] at h
  have hfin : parseBuffer buffer =
      (((scanLines buffer).map TrimSpace ++ blank).foldl parseTrimmed ⟨[], ⟨[], []⟩⟩).finish := by
    rw [parseBuffer_eq_trimmed]
    rcases hb with rfl | rfl
    · simp
    · rw [List.foldl_append, List.foldl_cons, List.foldl_nil, finish_blank]
  unfold scanLines at hfin
  rw [hfin, h, parse_loop _ _ (fun _ => rfl)]
  obtain ⟨seg, rest, hsplit⟩ : ∃ seg rest,
      (((textLines buffer).takeWhile (fun l => decide (byteLen l < MaxScanTokenSize))).map
        TrimSpace).splitOnP (fun line => line == []) = seg :: rest := by
    cases h : (((textLines buffer).takeWhile
        (fun l => decide (byteLen l < MaxScanTokenSize))).map TrimSpace).splitOnP
        (fun line => line == []) with
    | nil => exact absurd h (List.splitOnP_ne_nil _ _)
    | cons seg rest => exact ⟨seg, rest, rfl⟩
  unfold specGroups
  rw [hsplit]
  simp [openRun]

/-- Scanning a line without line break that is followed by a newline and is shorter than
`MaxScanTokenSize` bytes. -/
theorem scanLinesFrom_line (l : Str) (hl : Char.ofNat 10 ∉ l) (rest cur : Str)
    (hs : byteLen (cur ++ l) < MaxScanTokenSize) :
    scanLinesFrom (l ++ Char.ofNat 10 :: rest) cur =
      dropCR (cur ++ l) :: scanLinesFrom rest [] := by
  induction l generalizing cur with
  | nil => simp [scanLinesFrom]
  | cons c t ih =>
    have hc : c ≠ Char.ofNat 10 := fun h => hl (h ▸ List.mem_cons_self _ _)
    have ht : Char.ofNat 10 ∉ t := fun h => hl (List.mem_cons_of_mem _ h)
    have h1 : byteLen (cur ++ c :: t) = byteLen (cur ++ [c]) + byteLen t := by
      rw [← byteLen_append]; simp
    have h2 : ¬ MaxScanTokenSize ≤ byteLen (cur ++ [c]) := by omega
    rw [List.cons_append, scanLinesFrom, if_neg hc, if_neg h2,
      ih ht (cur ++ [c]) (by rw [byteLen_append]; omega)]
    simp

/-- Scanning stops at a line without line break of `MaxScanTokenSize` bytes or more. -/
theorem scanLinesFrom_long (l : Str) (hl : Char.ofNat 10 ∉ l) (rest cur : Str)
    (hcur : byteLen cur < MaxScanTokenSize) (hlong : MaxScanTokenSize ≤ byteLen (cur ++ l)) :
    scanLinesFrom (l ++ rest) cur = [] := by
  induction l generalizing cur with
  | nil => simp at hlong; omega
  | cons c t ih =>
    have hc : c ≠ Char.ofNat 10 := fun h => hl (h ▸ List.mem_cons_self _ _)
    have ht : Char.ofNat 10 ∉ t := fun h => hl (List.mem_cons_of_mem _ h)
    rw [List.cons_append, scanLinesFrom, if_neg hc]
    by_cases h2 : MaxScanTokenSize ≤ byteLen (cur ++ [c])
    · rw [if_pos h2]
    · rw [if_neg h2]
      exact ih ht (cur ++ [c]) (by omega) (by simpa using hlong)

theorem byteLen_replicate (n : Nat) : byteLen (List.replicate n 'x') = n := by
  induction n with
  | zero => rfl
  | succ n ih =>
    rw [List.replicate_succ, byteLen, ih]
    have : 'x'.utf8Size = 1 := by decide
    omega

theorem replicate_clean (n : Nat) (hn : n ≠ 0) : CleanLine (List.replicate n 'x') := by
  unfold CleanLine
  refine ⟨?_, ?_, ?_, ?_⟩
  · intro h
    have := congrArg List.length h
    simp at this
    exact hn this
  · intro h
    have := List.eq_of_mem_replicate h
    revert this
    decide
  · cases n with
    | zero => exact absurd rfl hn
    | succ m => rw [List.replicate_succ, List.head?_cons]; decide
  · rw [List.getLast?_eq_head?_reverse, List.reverse_replicate]
    cases n with
    | zero => exact absurd rfl hn
    | succ m => rw [List.replicate_succ, List.head?_cons]; decide

theorem longLine_clean : CleanLine longLine := replicate_clean 65536 (by decide)

theorem byteLen_longLine : byteLen longLine = MaxScanTokenSize := byteLen_replicate 65536



/-- The scanner reads the first two lines of `longText` and stops at the third. -/
theorem parseBuffer_longText : parseBuffer longText = [⟨"A".toList, ["B".toList]⟩] := by
  have e : longText = "A".toList ++ Char.ofNat 10 :: ("B".toList ++ Char.ofNat 10 ::
      (longLine ++ "\nC\n".toList)) := rfl
  have hs : scanLines longText = ["A".toList, "B".toList] := by
    unfold scanLines
    rw [e, scanLinesFrom_line _ (by decide) _ _ (by decide),
      scanLinesFrom_line _ (by decide) _ _ (by decide),
      scanLinesFrom_long longLine longLine_clean.2.1 _ [] (by decide)
        (by rw [List.nil_append, byteLen_longLine])]
    decide
  unfold parseBuffer
  rw [hs]
  decide

/-- The lines of `longText`. -/
theorem textLines_longText :
    textLines longText = ["A".toList, "B".toList, longLine, "C".toList, []] := by
  have e : longText = "A".toList ++ Char.ofNat 10 :: ("B".toList ++ Char.ofNat 10 ::
      (longLine ++ Char.ofNat 10 :: "C\n".toList)) := rfl
  have hC : List.splitOnP (fun c => c == Char.ofNat 10) "C\n".toList = ["C".toList, []] := by
    decide
  unfold textLines
  rw [e, List.splitOnP_first _ _ (by decide) _ (by decide),
    List.splitOnP_first _ _ (by decide) _ (by decide),
    List.splitOnP_first _ longLine
      (by intro x hx; rw [List.eq_of_mem_replicate hx]; decide) _ (by decide), hC]

/-- The groups of four clean lines followed by an empty line: one group. -/
theorem specGroups_four (a b x c : Str) (ha : CleanLine a) (hb : CleanLine b)
    (hx : CleanLine x) (hc : CleanLine c) :
    specGroups [a, b, x, c, []] = [⟨a, [b, x, c]⟩] := by
  have hN : TrimSpace [] = [] := rfl
  unfold specGroups
  simp [List.splitOnP_cons, trimSpace_clean, ha, hb, hx, hc, hN, ha.1, hb.1, hx.1, hc.1,
    groupOfRun]


/-- Scanning clean lines that are each shorter than `MaxScanTokenSize` bytes and followed
by a newline. -/
theorem scanLinesFrom_lines (ls : List Str) (h : ∀ l ∈ ls, CleanLine l)
    (hs : ∀ l ∈ ls, byteLen l < MaxScanTokenSize) (rest : Str) :
    scanLinesFrom (ls.flatMap (fun l => l ++ [Char.ofNat 10]) ++ rest) [] =
      ls ++ scanLinesFrom rest [] := by
  induction ls with
  | nil => rfl
  | cons l ls ih =>
    have hl := h l (List.mem_cons_self _ _)
    rw [List.flatMap_cons, List.append_assoc, List.append_assoc, List.singleton_append,
      scanLinesFrom_line l hl.2.1 _ _ (by simpa using hs l (List.mem_cons_self _ _)),
      List.nil_append, dropCR_clean l hl,
      ih (fun x hx => h x (List.mem_cons_of_mem _ hx))
        (fun x hx => hs x (List.mem_cons_of_mem _ hx))]
    rfl

/-- The loop of `parseBuffer` over clean member lines of an open group. -/
theorem parse_members (res : List CoreData) (label : Str) (hl : label ≠ []) :
    ∀ (items acc : List Str), (∀ l ∈ items, CleanLine l) →
      items.foldl parseLine ⟨res, ⟨label, acc⟩⟩ = ⟨res, ⟨label, acc ++ items⟩⟩ := by
  intro items
  induction items with
  | nil => intro acc _; simp
  | cons x xs ih =>
    intro acc h
    have hx := h x (List.mem_cons_self _ _)
    have hstep : parseLine ⟨res, ⟨label, acc⟩⟩ x = ⟨res, ⟨label, acc ++ [x]⟩⟩ := by
      simp [parseLine, trimSpace_clean x hx, hx.1, hl]
    rw [List.foldl_cons, hstep, ih _ (fun l hl1 => h l (List.mem_cons_of_mem _ hl1))]
    simp

/-- The loop of `parseBuffer` over the lines of one group, from a state without open
group. -/
theorem parse_group (res : List CoreData) (g : CoreData)
    (hg : CleanLine g.Category ∧ ∀ i ∈ g.Items, CleanLine i) :
    (g.Category :: g.Items).foldl parseLine ⟨res, ⟨[], []⟩⟩ = ⟨res, g⟩ := by
  have hstep : parseLine ⟨res, ⟨[], []⟩⟩ g.Category = ⟨res, ⟨g.Category, []⟩⟩ := by
    simp [parseLine, trimSpace_clean g.Category hg.1, hg.1.1]
  rw [List.foldl_cons, hstep, parse_members res g.Category hg.1.1 g.Items [] hg.2]
  simp

theorem parseBuffer_eq_finish (buffer : Str) :
    parseBuffer buffer = ((scanLines buffer).foldl parseLine ⟨[], ⟨[], []⟩⟩).finish := rfl

/-- Parsing the text of a list of groups of clean lines shorter than `MaxScanTokenSize`
bytes, from a state without open group, appends the groups to the result. -/
theorem parse_render : ∀ (gs : List CoreData) (res : List CoreData),
    (∀ g ∈ gs, CleanLine g.Category ∧ ∀ i ∈ g.Items, CleanLine i) →
    (∀ g ∈ gs, byteLen g.Category < MaxScanTokenSize ∧
      ∀ i ∈ g.Items, byteLen i < MaxScanTokenSize) →
    ((scanLinesFrom (render gs) []).foldl parseLine ⟨res, ⟨[], []⟩⟩).finish = res ++ gs := by
  intro gs
  induction gs with
  | nil => intro res _ _; simp [render, scanLinesFrom, ParseState.finish]
  | cons g gs ih =>
    intro res h hs
    have hg := h g (List.mem_cons_self _ _)
    have hsg := hs g (List.mem_cons_self _ _)
    have hclean : ∀ l ∈ g.Category :: g.Items, CleanLine l := fun l hl => by
      rcases List.mem_cons.1 hl with rfl | hl
      · exact hg.1
      · exact hg.2 l hl
    have hshort : ∀ l ∈ g.Category :: g.Items, byteLen l < MaxScanTokenSize := fun l hl => by
      rcases List.mem_cons.1 hl with rfl | hl
      · exact hsg.1
      · exact hsg.2 l hl
    cases gs with
    | nil =>
      have hsc : scanLinesFrom (render [g]) [] = g.Category :: g.Items := by
        have := scanLinesFrom_lines (g.Category :: g.Items) hclean hshort []
        simpa [render, renderGroup, scanLinesFrom] using this
      rw [hsc, parse_group res g hg]
      simp [ParseState.finish, hg.1.1]
    | cons g1 gs =>
      have hsc : scanLinesFrom (render (g :: g1 :: gs)) [] =
          (g.Category :: g.Items) ++ [] :: scanLinesFrom (render (g1 :: gs)) [] := by
        have := scanLinesFrom_lines (g.Category :: g.Items) hclean hshort
          (Char.ofNat 10 :: render (g1 :: gs))
        rw [render, renderGroup, List.append_assoc, List.singleton_append, this]
        rw [scanLinesFrom, if_pos rfl]
        rfl
      have hblank : parseLine ⟨res, g⟩ [] = ⟨res ++ [g], ⟨[], []⟩⟩ := by
        have : TrimSpace [] = [] := rfl
        simp [parseLine, this, hg.1.1]
      rw [hsc, List.foldl_append, parse_group res g hg, List.foldl_cons, hblank,
        ih (res ++ [g]) (fun x hx => h x (List.mem_cons_of_mem _ hx))
          (fun x hx => hs x (List.mem_cons_of_mem _ hx))]
      simp

/-- The text of the group with the lines of `longText`. -/
theorem render_longText :
    render [⟨"A".toList, ["B".toList, longLine, "C".toList]⟩] = longText := by
  have e : longText = "A".toList ++ Char.ofNat 10 :: ("B".toList ++ Char.ofNat 10 ::
      (longLine ++ Char.ofNat 10 :: "C\n".toList)) := rfl
  rw [e]
  simp [render, renderGroup]

/-- C9 (amended). For every input text, `parseBuffer` returns exactly the groups of the
lines that come before the first line of 65536 bytes or more (`MaxScanTokenSize`; the lines
from that one on are not read): the groups of the maximal runs of consecutive lines that
are non-blank after trimming, in input order, the first trimmed line of a run as label and
the remaining trimmed lines as members. For a text in which every line is shorter than
65536 bytes these are the groups of the whole text. No returned group has an empty label
or an empty member. -/
theorem parseBuffer_eq_specGroups (buffer : Str) :
    parseBuffer buffer = specGroups ((textLines buffer).takeWhile
      (fun l => decide (byteLen l < MaxScanTokenSize))) ∧
    ((∀ l ∈ textLines buffer, byteLen l < MaxScanTokenSize) →
      parseBuffer buffer = specGroups (textLines buffer)) ∧
    ∀ g ∈ parseBuffer buffer, g.Category ≠ [] ∧ ∀ item ∈ g.Items, item ≠ [] := by
  refine ⟨parseBuffer_eq_takeWhile buffer, fun hall => ?_, ?_⟩
  · have ht : (textLines buffer).takeWhile (fun l => decide (byteLen l < MaxScanTokenSize)) =
        textLines buffer := by
      rw [List.takeWhile_eq_self_iff]
      intro l hl
      simpa using hall l hl
    rw [parseBuffer_eq_takeWhile, ht]
  · have hwf := foldl_inv ParseState.WellFormed parseTrimmed ((scanLines buffer).map TrimSpace)
      ⟨[], ⟨[], []⟩⟩ (fun st line _ h => parseTrimmed_wellFormed st line h)
      ⟨by simp, by simp, fun _ => rfl⟩
    rw [parseBuffer_eq_trimmed]
    generalize ((scanLines buffer).map TrimSpace).foldl parseTrimmed ⟨[], ⟨[], []⟩⟩ = st at hwf
    obtain ⟨h1, h2, -⟩ := hwf
    intro g hg
    unfold ParseState.finish at hg
    split at hg
    · rename_i hc
      rcases List.mem_append.1 hg with hg | hg
      · exact h1 g hg
      · rw [List.mem_singleton.1 hg]
        exact ⟨hc, h2⟩
    · exact h1 g hg

/-- Witness of C9: a text with short lines, blank lines, carriage returns and white space
around the lines. -/
theorem parseBuffer_eq_specGroups_witness :
    (∀ l ∈ textLines "\n  Food\r\nrice  \nmilk\n \t\nTools".toList,
      byteLen l < MaxScanTokenSize) ∧
    parseBuffer "\n  Food\r\nrice  \nmilk\n \t\nTools".toList =
      specGroups (textLines "\n  Food\r\nrice  \nmilk\n \t\nTools".toList) ∧
    specGroups (textLines "\n  Food\r\nrice  \nmilk\n \t\nTools".toList) =
      [⟨"Food".toList, ["rice".toList, "milk".toList]⟩, ⟨"Tools".toList, []⟩] :=
  ⟨by decide, (parseBuffer_eq_specGroups _).2.1 (by decide), by decide⟩

/-- Counterexample of C9: the third of the four lines of `longText` has 65536 bytes. The
lines of the text form one group, `A` with the members `B`, the long line and `C`;
`parseBuffer` returns the group `A` with the member `B` only. -/
theorem parseBuffer_ne_specGroups :
    byteLen longLine = 65536 ∧
    textLines longText = ["A".toList, "B".toList, longLine, "C".toList, []] ∧
    specGroups (textLines longText) = [⟨"A".toList, ["B".toList, longLine, "C".toList]⟩] ∧
    parseBuffer longText = [⟨"A".toList, ["B".toList]⟩] ∧
    parseBuffer longText ≠ specGroups (textLines longText) := by
  have h1 : specGroups (textLines longText) =
      [⟨"A".toList, ["B".toList, longLine, "C".toList]⟩] := by
    rw [textLines_longText]
    exact specGroups_four _ _ _ _ (by decide) (by decide) longLine_clean (by decide)
  refine ⟨byteLen_longLine, textLines_longText, h1, parseBuffer_longText, ?_⟩
  rw [h1, parseBuffer_longText]
  intro h
  simp at h

/-- C17 (amended). For every list of groups in which every label and every member is a
non-empty string without line break and without leading or trailing white space, and
shorter than 65536 bytes, parsing the text that writes every group as its label line
followed by its member lines, the groups separated by one blank line, returns the list of
groups. -/
theorem parseBuffer_render (gs : List CoreData)
    (h : ∀ g ∈ gs, CleanLine g.Category ∧ ∀ i ∈ g.Items, CleanLine i)
    (hs : ∀ g ∈ gs, byteLen g.Category < MaxScanTokenSize ∧
      ∀ i ∈ g.Items, byteLen i < MaxScanTokenSize) :
    parseBuffer (render gs) = gs := by
  rw [parseBuffer_eq_finish]
  exact (parse_render gs [] h hs).trans (List.nil_append gs)

/-- Witness of C17: the small categories source. -/
theorem parseBuffer_render_witness :
    (∀ g ∈ demoCategories, CleanLine g.Category ∧ ∀ i ∈ g.Items, CleanLine i) ∧
    (∀ g ∈ demoCategories, byteLen g.Category < MaxScanTokenSize ∧
      ∀ i ∈ g.Items, byteLen i < MaxScanTokenSize) ∧
    render demoCategories = "Food\nrice\nmilk\n\nTools\nsaw\n".toList ∧
    parseBuffer (render demoCategories) = demoCategories :=
  ⟨by decide, by decide, by decide, parseBuffer_render demoCategories (by decide) (by decide)⟩

/-- Counterexample of C17: the group `A` with the members `B`, a line of 65536 bytes and `C`
has clean lines only; its text is `longText`, which parses to the group `A` with the
member `B` only. -/
theorem parseBuffer_render_long :
    (∀ g ∈ [(⟨"A".toList, ["B".toList, longLine, "C".toList]⟩ : CoreData)],
      CleanLine g.Category ∧ ∀ i ∈ g.Items, CleanLine i) ∧
    render [⟨"A".toList, ["B".toList, longLine, "C".toList]⟩] = longText ∧
    parseBuffer (render [⟨"A".toList, ["B".toList, longLine, "C".toList]⟩]) =
      [⟨"A".toList, ["B".toList]⟩] ∧
    parseBuffer (render [⟨"A".toList, ["B".toList, longLine, "C".toList]⟩]) ≠
      [⟨"A".toList, ["B".toList, longLine, "C".toList]⟩] := by
  have hclean : ∀ g ∈ [(⟨"A".toList, ["B".toList, longLine, "C".toList]⟩ : CoreData)],
      CleanLine g.Category ∧ ∀ i ∈ g.Items, CleanLine i := by
    intro g hg
    rw [List.mem_singleton.1 hg]
    refine ⟨by decide, ?_⟩
    intro i hi
    simp only [List.mem_cons, List.mem_singleton, List.not_mem_nil, or_false] at hi
    rcases hi with rfl | rfl | rfl
    · decide
    · exact longLine_clean
    · decide
  refine ⟨hclean, render_longText, ?_, ?_⟩
  · rw [render_longText, parseBuffer_longText]
  · rw [render_longText, parseBuffer_longText]
    intro h
    simp at h

/-! ## A run in which a total price overflows -/

/-- The run with overflow: stock unit 14 stocks product 13; transaction 229, of stock unit
13 on the tenth day, has a total of 9 times 921114973663896099, and transaction 230, of
stock unit 14 on the same day, has a negative total. -/
theorem overflow_run :
    (generate overflowCategories overflowCountries overflowCompanies overflowDraws).toOption.map
        (fun db => (db.StockUnits[14]?, db.StockTransactions[229]?, db.StockTransactions[230]?)) =
      some (some ⟨14, 13, 1⟩,
        some ⟨229, 13, true, 9, 8290034762975064891, ⟨2020, 1, 10⟩⟩,
        some ⟨230, 14, true, 9, -8913204096288227134, ⟨2020, 1, 10⟩⟩) := by
  decide!

/-- The run with overflow returns a database with the transaction 230. -/
theorem overflow_tx :
    ∃ db, generate overflowCategories overflowCountries overflowCompanies overflowDraws = .ok db ∧
      (⟨230, 14, true, 9, -8913204096288227134, ⟨2020, 1, 10⟩⟩ : StockTransaction) ∈
        db.StockTransactions := by
  have h := overflow_run
  cases hg : generate overflowCategories overflowCountries overflowCompanies overflowDraws with
  | error e =>
    rw [hg] at h
    cases h
  | ok db =>
    rw [hg] at h
    refine ⟨db, rfl, ?_⟩
    simp only [Except.toOption, Option.map_some', Option.some.injEq, Prod.mk.injEq] at h
    exact List.getElem?_mem h.2.2

/-- Counterexample of C6: in the run with overflow, transaction 230 (stock unit 14, count
9) has the total price -8913204096288227134, which is not 9 times any integer; the price
the map holds for stock unit 14 at that moment is 1059282219713480498, and 9 times that
price, 9533539977421324482, is not below `2^63`. The same is seen on one step: from a map
that holds 1059282219713480498 for a stock unit, a visit of that unit that takes no walk
step and draws the count 9 leaves the price in the map and appends a transaction with
that total price. -/
theorem totalPrice_ne_product :
    (∃ db, generate overflowCategories overflowCountries overflowCompanies overflowDraws =
        .ok db ∧
      ∃ t ∈ db.StockTransactions, t.Id = 230 ∧ t.StockUnitId = 14 ∧ t.IsSale = true ∧
        t.Count = 9 ∧ t.TotalPrice = -8913204096288227134 ∧
        ∀ p : Int, t.TotalPrice ≠ (t.Count : Int) * p) ∧
    (txStep [⟨0, 0, 0⟩] IntMap.empty ⟨2020, 1, 10⟩
        ⟨fun i => [2 ^ 53 - 1, 2 ^ 53 - 1, 9].getD i 0,
          IntMap.empty.set 0 1059282219713480498, []⟩ 0).toOption.map
        (fun st => (st.currentStockPrice 0, st.StockTransactions)) =
      some (some 1059282219713480498,
        [⟨0, 0, true, 9, -8913204096288227134, ⟨2020, 1, 10⟩⟩]) ∧
    (9 : Int) * 1059282219713480498 = 9533539977421324482 ∧
    wrapInt64 9533539977421324482 = -8913204096288227134 := by
  refine ⟨?_, by decide, by decide, by decide⟩
  obtain ⟨db, hdb, ht⟩ := overflow_tx
  refine ⟨db, hdb, _, ht, rfl, rfl, rfl, rfl, rfl, ?_⟩
  intro p hp
  simp only [Nat.cast_ofNat] at hp
  omega

/-- Counterexample of C20: in the run with overflow, transaction 230 has the count 9 and
the total price -8913204096288227134: the total is negative, and below 100 times the
count. -/
theorem generate_totalPrice_lt :
    ∃ db, generate overflowCategories overflowCountries overflowCompanies overflowDraws = .ok db ∧
      ∃ t ∈ db.StockTransactions, t.Count = 9 ∧ t.TotalPrice = -8913204096288227134 ∧
        t.TotalPrice < 0 ∧ ¬ 100 * (t.Count : Int) ≤ t.TotalPrice := by
  obtain ⟨db, hdb, ht⟩ := overflow_tx
  exact ⟨db, hdb, _, ht, rfl, rfl, by decide, by decide⟩

end Retail
